import Mathlib

/-!
Verification development for the seaslug embedded table store
(`src/seaslug.py`).  The definitions below are shallow embeddings of the
Python source: column kinds and the ctypes record layout, the index
catalog and the query planner (`Table.find_index`, `Table.where`), and a
state machine for the row manager / table store
(create, column set, destroy, save, load, import_data).

Strings, pickled objects and raw byte payloads are modelled by their
byte sequences (`List Nat`); `str.encode()` / `bytes.decode()` and
`pickle.dumps` / `pickle.loads` are injective encodings with
`decode ∘ encode = id`, so identifying a value with its encoding is
faithful for equality and length reasoning.
-/

namespace Seaslug

/-- Byte payloads (contents of a `bytes` value). -/
abbrev Bytes := List Nat

/-- Concrete column kinds of the store: `IntColumn`, `ForeignColumn`,
`BoolColumn`, `StrColumn` (inline, capacity `n`), `PickleColumn`
(inline, capacity `n`, optional default value), `StrBlobColumn` and
`PickleBlobColumn` (sidecar files, empty inline struct). -/
inductive Kind : Type where
  | kInt : Kind
  | kForeign : Kind
  | kBool : Kind
  | kStr : Nat → Kind
  | kPickle : Nat → Option Bytes → Kind
  | kStrBlob : Kind
  | kPickleBlob : Option Bytes → Kind
deriving DecidableEq, Repr

/-- A declared concrete column: a name and a kind. -/
structure Col where
  name : String
  kind : Kind
deriving DecidableEq, Repr

/-- `Table.__init_subclass__` inserts the implicit `id` column
(an `IntColumn`) in front of the declared columns. -/
def fullCols (user : List Col) : List Col :=
  ⟨"id", Kind.kInt⟩ :: user

/-! ### ctypes record layout

Every column contributes a nested `LittleEndianStructure` to the `Row`
structure.  ctypes lays structures out with C rules: each field starts
at an offset aligned to the field's natural alignment, and the total
structure size is rounded up to the maximal field alignment. -/

/-- Round `x` up to the next multiple of `a` (identity when `a = 0`). -/
def roundUp (x a : Nat) : Nat := x + (a - x % a) % a

/-- Natural alignment of a column's nested struct: `c_int`/`c_uint32`
members give alignment 4, `c_bool` gives 1, an empty struct gives 1. -/
def Kind.align : Kind → Nat
  | .kBool => 1
  | .kStrBlob => 1
  | .kPickleBlob _ => 1
  | _ => 4

/-- `sizeof` of a column's nested struct.  The bytes-backed structs
`[('length', c_uint32), ('data', c_ubyte * n)]` occupy `4 + n` bytes
rounded up to their alignment 4; the blob structs are empty. -/
def Kind.csize : Kind → Nat
  | .kInt => 4
  | .kForeign => 4
  | .kBool => 1
  | .kStr n => roundUp (4 + n) 4
  | .kPickle n _ => roundUp (4 + n) 4
  | .kStrBlob => 0
  | .kPickleBlob _ => 0

/-- End offset of the ctypes layout of the given field kinds. -/
def layoutEnd (ks : List Kind) : Nat :=
  ks.foldl (fun off k => roundUp off k.align + k.csize) 0

/-- Maximal field alignment (1 for an empty field list). -/
def maxAlign (ks : List Kind) : Nat :=
  ks.foldl (fun a k => max a k.align) 1

/-- `sizeof(cls.Row)`: ctypes layout size of the record of a table with
the given declared (user) columns, `id` prepended. -/
def recordSize (user : List Col) : Nat :=
  roundUp (layoutEnd ((fullCols user).map Col.kind))
    (maxAlign ((fullCols user).map Col.kind))

/-- The footprint the specification assigns to each column kind:
4 bytes for `Int`/`Foreign`, 1 for `Bool`, `4 + n` for the inline
bytes-backed kinds, 0 for blob kinds. -/
def Kind.footprint : Kind → Nat
  | .kInt => 4
  | .kForeign => 4
  | .kBool => 1
  | .kStr n => 4 + n
  | .kPickle n _ => 4 + n
  | .kStrBlob => 0
  | .kPickleBlob _ => 0

/-- Record size claimed by the specification: the plain sum of the
declared footprints over all columns (`id` included). -/
def claimedRecordSize (user : List Col) : Nat :=
  ((fullCols user).map Col.kind).foldl (fun a k => a + k.footprint) 0

/-- The padded footprint of a column: its actual nested-struct size
(bytes-backed kinds rounded up to a multiple of 4). -/
def Kind.paddedFootprint (k : Kind) : Nat := k.csize

/-- Sum of padded footprints over all columns (`id` included). -/
def paddedRecordSize (user : List Col) : Nat :=
  ((fullCols user).map Col.kind).foldl (fun a k => a + k.paddedFootprint) 0

/-- Whether a kind is `Bool` (the only kind whose struct is non-empty
with alignment 1, hence the only source of interior padding). -/
def Kind.isBool : Kind → Bool
  | .kBool => true
  | _ => false

/-! ### Layout arithmetic lemmas -/

theorem le_roundUp (x a : Nat) : x ≤ roundUp x a :=
  Nat.le_add_right _ _

theorem roundUp_eq_self {x a : Nat} (h : x % a = 0) : roundUp x a = x := by
  simp [roundUp, h, Nat.sub_zero, Nat.mod_self]

theorem roundUp_one (x : Nat) : roundUp x 1 = x := by
  simp [roundUp, Nat.mod_one]

theorem dvd_roundUp (x : Nat) {a : Nat} (ha : 0 < a) : a ∣ roundUp x a := by
  rcases Nat.eq_zero_or_pos (x % a) with h | h
  · rw [roundUp_eq_self h]
    exact Nat.dvd_of_mod_eq_zero h
  · have hlt : x % a < a := Nat.mod_lt _ ha
    have hle : x % a ≤ x := Nat.mod_le _ _
    have hsub : a ∣ x - x % a := Nat.dvd_sub_mod x
    have hmod : (a - x % a) % a = a - x % a := Nat.mod_eq_of_lt (by omega)
    have heq : roundUp x a = (x - x % a) + a := by
      unfold roundUp
      omega
    rw [heq]
    exact Nat.dvd_add hsub (Nat.dvd_refl a)

theorem roundUp_eq_of_dvd {x a : Nat} (h : a ∣ x) (ha : 0 < a) :
    roundUp x a = x := by
  obtain ⟨c, rfl⟩ := h
  exact roundUp_eq_self (Nat.mul_mod_right a c)

theorem footprint_le_csize (k : Kind) : k.footprint ≤ k.csize := by
  cases k <;> simp [Kind.footprint, Kind.csize, le_roundUp]

theorem align_pos (k : Kind) : 0 < k.align := by
  cases k <;> simp [Kind.align]

theorem foldl_max_align_pos (ks : List Kind) :
    ∀ a : Nat, 0 < a → 0 < ks.foldl (fun a k => max a k.align) a := by
  induction ks with
  | nil => intro a ha; simpa using ha
  | cons k ks ih =>
      intro a ha
      simp only [List.foldl_cons]
      exact ih _ (Nat.lt_of_lt_of_le ha (Nat.le_max_left _ _))

theorem maxAlign_pos (ks : List Kind) : 0 < maxAlign ks :=
  foldl_max_align_pos ks 1 Nat.one_pos

theorem claimed_le_layout (ks : List Kind) :
    ∀ acc off : Nat, acc ≤ off →
      ks.foldl (fun a k => a + k.footprint) acc ≤
      ks.foldl (fun off k => roundUp off k.align + k.csize) off := by
  induction ks with
  | nil => intro acc off h; simpa using h
  | cons k ks ih =>
      intro acc off h
      simp only [List.foldl_cons]
      apply ih
      have h1 : off ≤ roundUp off k.align := le_roundUp _ _
      have h2 : k.footprint ≤ k.csize := footprint_le_csize k
      omega

/-- If a kind is not `Bool`, its struct size is a multiple of 4. -/
theorem four_dvd_csize {k : Kind} (h : k.isBool = false) : 4 ∣ k.csize := by
  cases k <;> simp_all [Kind.isBool, Kind.csize]
  · exact dvd_roundUp _ (by norm_num)
  · exact dvd_roundUp _ (by norm_num)

/-- Without `Bool` columns no padding is inserted: the layout end equals
the plain sum of the struct sizes, and stays a multiple of 4. -/
theorem layout_no_bool (ks : List Kind) (h : ∀ k ∈ ks, k.isBool = false) :
    ∀ off : Nat, 4 ∣ off →
      ks.foldl (fun off k => roundUp off k.align + k.csize) off =
        ks.foldl (fun a k => a + k.csize) off ∧
      4 ∣ ks.foldl (fun a k => a + k.csize) off := by
  induction ks with
  | nil => intro off hoff; exact ⟨rfl, hoff⟩
  | cons k ks ih =>
      intro off hoff
      have hk : k.isBool = false := h k (List.mem_cons_self _ _)
      have hrest : ∀ k ∈ ks, k.isBool = false := fun k hm => h k (List.mem_cons_of_mem _ hm)
      have hstep : roundUp off k.align = off := by
        cases k <;> simp_all [Kind.isBool, Kind.align, roundUp_one] <;>
          exact roundUp_eq_of_dvd hoff (by norm_num)
      have hdvd : 4 ∣ off + k.csize := Nat.dvd_add hoff (four_dvd_csize hk)
      simp only [List.foldl_cons, hstep]
      exact ih hrest (off + k.csize) hdvd

theorem align_one_or_four (k : Kind) : k.align = 1 ∨ k.align = 4 := by
  cases k <;> simp [Kind.align]

theorem foldl_max_align_one_or_four (ks : List Kind) :
    ∀ a : Nat, (a = 1 ∨ a = 4) →
      (ks.foldl (fun a k => max a k.align) a = 1 ∨
       ks.foldl (fun a k => max a k.align) a = 4) := by
  induction ks with
  | nil => intro a ha; simpa using ha
  | cons k ks ih =>
      intro a ha
      simp only [List.foldl_cons]
      apply ih
      rcases ha with h | h <;> rcases align_one_or_four k with h2 | h2 <;>
        simp [h, h2]

theorem maxAlign_one_or_four (ks : List Kind) :
    maxAlign ks = 1 ∨ maxAlign ks = 4 :=
  foldl_max_align_one_or_four ks 1 (Or.inl rfl)

/-- General record-size facts: the layout size dominates the plain
footprint sum, and equals the padded footprint sum when no `Bool`
column is present. -/
theorem recordSize_facts (user : List Col) :
    claimedRecordSize user ≤ recordSize user ∧
    ((∀ c ∈ fullCols user, c.kind.isBool = false) →
      recordSize user = paddedRecordSize user) := by
  constructor
  · have h1 := claimed_le_layout ((fullCols user).map Col.kind) 0 0 (Nat.le_refl 0)
    have h2 := le_roundUp (layoutEnd ((fullCols user).map Col.kind))
      (maxAlign ((fullCols user).map Col.kind))
    unfold claimedRecordSize recordSize layoutEnd at *
    omega
  · intro h
    have h' : ∀ k ∈ (fullCols user).map Col.kind, k.isBool = false := by
      intro k hk
      obtain ⟨c, hc, rfl⟩ := List.mem_map.1 hk
      exact h c hc
    obtain ⟨heq, hdvd⟩ :=
      layout_no_bool ((fullCols user).map Col.kind) h' 0 (Nat.dvd_zero 4)
    unfold recordSize paddedRecordSize layoutEnd
    rw [heq]
    rcases maxAlign_one_or_four ((fullCols user).map Col.kind) with hm | hm
    · rw [hm, roundUp_one]; rfl
    · rw [hm, roundUp_eq_of_dvd hdvd (by norm_num)]; rfl

/-! ### Query planner: `Table.find_index`

An index is identified by its key tuple (a list of attribute names).
Every table has the default indices `(id)`, `(_offset, id)`,
`(_dirty, id)`, and each user-declared index gets `id` appended. -/

/-- An index of the catalog, identified by its key name tuple. -/
structure Idx where
  keys : List String
deriving DecidableEq, Repr

/-- The index list built by `Table.__init_subclass__` from the
user-declared key tuples. -/
def tableIndices (user : List (List String)) : List Idx :=
  ⟨["id"]⟩ :: ⟨["_offset", "id"]⟩ :: ⟨["_dirty", "id"]⟩ ::
    user.map (fun ks => ⟨ks ++ ["id"]⟩)

/-- The strength loop body of `Table.find_index`: walk the key tuple;
an equality key adds 1 and continues, a comparison key adds 1 and
stops, any other key stops. -/
def strength (eqks cmpks : List String) : List String → Nat
  | [] => 0
  | k :: ks =>
      if k ∈ eqks then strength eqks cmpks ks + 1
      else if k ∈ cmpks then 1
      else 0

/-- `Table.find_index`: fold over the catalog keeping the first index
whose strength strictly exceeds the best so far (`match` starts at
`-1`, so the first index always becomes the initial best). -/
def find_index (indices : List Idx) (eqks cmpks : List String) : Option Idx :=
  (indices.foldl
    (fun (acc : Option Idx × Int) idx =>
      if (strength eqks cmpks idx.keys : Int) > acc.2 then
        (some idx, (strength eqks cmpks idx.keys : Int))
      else acc)
    (none, -1)).1

/-- Specification-side description of the planner choice: the first
index (in declaration order) attaining the maximal strength. -/
def maxStrength (eqks cmpks : List String) (indices : List Idx) : Nat :=
  indices.foldr (fun i m => max (strength eqks cmpks i.keys) m) 0

/-- First index attaining the maximal strength. -/
def firstBestIdx (eqks cmpks : List String) (indices : List Idx) : Option Idx :=
  indices.find? (fun i => strength eqks cmpks i.keys = maxStrength eqks cmpks indices)

/-- Recursive description of the planner fold once a best index is
held: a later index replaces the best exactly when its strength is
strictly greater. -/
def specFold (eqks cmpks : List String) (b : Idx) : List Idx → Idx
  | [] => b
  | i :: is =>
      if strength eqks cmpks b.keys < strength eqks cmpks i.keys then
        specFold eqks cmpks i is
      else specFold eqks cmpks b is

theorem find_index_loop (eqks cmpks : List String) (is : List Idx) :
    ∀ b : Idx,
      (is.foldl
        (fun (acc : Option Idx × Int) idx =>
          if (strength eqks cmpks idx.keys : Int) > acc.2 then
            (some idx, (strength eqks cmpks idx.keys : Int))
          else acc)
        (some b, (strength eqks cmpks b.keys : Int))).1 =
      some (specFold eqks cmpks b is) := by
  induction is with
  | nil => intro b; rfl
  | cons i is ih =>
      intro b
      simp only [List.foldl_cons, specFold]
      by_cases h : strength eqks cmpks b.keys < strength eqks cmpks i.keys
      · have h' : ((strength eqks cmpks i.keys : Int) > (strength eqks cmpks b.keys : Int)) := by
          exact_mod_cast h
        rw [if_pos h', if_pos h]
        exact ih i
      · have h' : ¬ ((strength eqks cmpks i.keys : Int) > (strength eqks cmpks b.keys : Int)) := by
          exact_mod_cast h
        rw [if_neg h', if_neg h]
        exact ih b

theorem find_index_cons (eqks cmpks : List String) (i : Idx) (is : List Idx) :
    find_index (i :: is) eqks cmpks = some (specFold eqks cmpks i is) := by
  unfold find_index
  simp only [List.foldl_cons]
  have h0 : ((strength eqks cmpks i.keys : Int) > (-1 : Int)) := by
    have : (0 : Int) ≤ (strength eqks cmpks i.keys : Int) := Int.ofNat_nonneg _
    omega
  rw [if_pos h0]
  exact find_index_loop eqks cmpks is i

theorem maxStrength_cons (eqks cmpks : List String) (i : Idx) (is : List Idx) :
    maxStrength eqks cmpks (i :: is) =
      max (strength eqks cmpks i.keys) (maxStrength eqks cmpks is) := rfl

theorem le_maxStrength (eqks cmpks : List String) (indices : List Idx) :
    ∀ j ∈ indices, strength eqks cmpks j.keys ≤ maxStrength eqks cmpks indices := by
  induction indices with
  | nil => intro j hj; cases hj
  | cons x xs ih =>
      intro j hj
      rcases List.mem_cons.1 hj with rfl | hj2
      · rw [maxStrength_cons]; exact Nat.le_max_left _ _
      · rw [maxStrength_cons]
        exact Nat.le_trans (ih j hj2) (Nat.le_max_right _ _)

theorem specFold_eq_firstBest (eqks cmpks : List String) (is : List Idx) :
    ∀ b : Idx,
      some (specFold eqks cmpks b is) = firstBestIdx eqks cmpks (b :: is) := by
  induction is with
  | nil =>
      intro b
      simp [specFold, firstBestIdx, maxStrength]
  | cons i is ih =>
      intro b
      have e1 : maxStrength eqks cmpks (b :: i :: is) =
          max (strength eqks cmpks b.keys) (maxStrength eqks cmpks (i :: is)) := rfl
      have e2 : maxStrength eqks cmpks (i :: is) =
          max (strength eqks cmpks i.keys) (maxStrength eqks cmpks is) := rfl
      have e3 : maxStrength eqks cmpks (b :: is) =
          max (strength eqks cmpks b.keys) (maxStrength eqks cmpks is) := rfl
      by_cases h : strength eqks cmpks b.keys < strength eqks cmpks i.keys
      · have hup := Nat.le_max_left (strength eqks cmpks i.keys) (maxStrength eqks cmpks is)
        have hbne : ¬ (strength eqks cmpks b.keys =
            maxStrength eqks cmpks (b :: i :: is)) := by
          rw [e1, e2]; omega
        have hMeq : maxStrength eqks cmpks (b :: i :: is) =
            maxStrength eqks cmpks (i :: is) := by
          rw [e1, e2]; omega
        simp only [specFold, if_pos h]
        rw [ih i]
        unfold firstBestIdx
        rw [hMeq] at hbne ⊢
        rw [List.find?_cons_of_neg (i :: is) (by simpa using hbne)]
      · have hle : strength eqks cmpks i.keys ≤ strength eqks cmpks b.keys := by omega
        have hMeq : maxStrength eqks cmpks (b :: i :: is) =
            maxStrength eqks cmpks (b :: is) := by
          rw [e1, e2, e3]; omega
        simp only [specFold, if_neg h]
        rw [ih b]
        unfold firstBestIdx
        rw [hMeq]
        by_cases hb : strength eqks cmpks b.keys = maxStrength eqks cmpks (b :: is)
        · rw [List.find?_cons_of_pos is (by simpa using hb),
            List.find?_cons_of_pos (i :: is) (by simpa using hb)]
        · have hine : ¬ (strength eqks cmpks i.keys =
              maxStrength eqks cmpks (b :: is)) := by
            rw [e3] at hb ⊢
            have := Nat.le_max_left (strength eqks cmpks b.keys)
              (maxStrength eqks cmpks is)
            omega
          rw [List.find?_cons_of_neg is (by simpa using hb),
            List.find?_cons_of_neg (i :: is) (by simpa using hb),
            List.find?_cons_of_neg is (by simpa using hine)]

/-- The planner returns exactly the first index of maximal strength. -/
theorem find_index_eq_firstBest (eqks cmpks : List String) (i : Idx) (is : List Idx) :
    find_index (i :: is) eqks cmpks = firstBestIdx eqks cmpks (i :: is) := by
  rw [find_index_cons]
  exact specFold_eq_firstBest eqks cmpks is i

theorem firstBest_maximal (eqks cmpks : List String) (indices : List Idx) (b : Idx)
    (h : firstBestIdx eqks cmpks indices = some b) :
    ∀ j ∈ indices, strength eqks cmpks j.keys ≤ strength eqks cmpks b.keys := by
  have hb := List.find?_some h
  have hbmax : strength eqks cmpks b.keys = maxStrength eqks cmpks indices := by
    simpa using hb
  intro j hj
  rw [hbmax]
  exact le_maxStrength eqks cmpks indices j hj

/-! ### Query engine: `Table.where`

Rows are abstracted by a valuation `val : ρ → String → α` giving each
attribute name (the column names, including `id`) a value in a linear
order; every concrete column kind orders its values linearly (`Foreign`
values order by referenced id with null at the bottom).  Index key
tuples are value lists under Mathlib's lexicographic order, which
agrees with Python tuple comparison (a strict prefix sorts first).
By the index-coverage invariant an index's `SortedDict` holds exactly
the live rows, keyed injectively (every key tuple ends in the distinct
row id), and `index.find(start)` yields the rows with key `≥ start` in
increasing key order; we model this by sorting the row list on the key
tuple and filtering.  `start = []` plays the role of Python's `None`
(or the empty tuple): it is `≤` every key. -/

/-- The comparison operators of the predicate objects
`ColEq`, `ColLt`, `ColLe`, `ColGt`, `ColGe`. -/
inductive CmpOp : Type where
  | ceq : CmpOp
  | clt : CmpOp
  | cle : CmpOp
  | cgt : CmpOp
  | cge : CmpOp
deriving DecidableEq, Repr

/-- A predicate `col (op) value` over a named column. -/
structure Pred (α : Type) where
  name : String
  op : CmpOp
  value : α
deriving DecidableEq

/-- `isinstance(p, ColEq)`. -/
def Pred.isEq {α : Type} (p : Pred α) : Bool :=
  match p.op with
  | .ceq => true
  | _ => false

/-- `p.match(row)` evaluated against a valuation. -/
def evalPred {α : Type} [LinearOrder α] (f : String → α) (p : Pred α) : Bool :=
  match p.op with
  | .ceq => decide (f p.name = p.value)
  | .clt => decide (f p.name < p.value)
  | .cle => decide (f p.name ≤ p.value)
  | .cgt => decide (f p.name > p.value)
  | .cge => decide (f p.name ≥ p.value)

/-- `p.match(row)` on a row. -/
def pmatch {α ρ : Type} [LinearOrder α] (val : ρ → String → α) (p : Pred α)
    (r : ρ) : Bool :=
  evalPred (val r) p

/-- Python dict comprehension `{p.col.name: p for p in ps}`: the
binding for a name is the last predicate carrying that name. -/
def lookupLast {α : Type} (ps : List (Pred α)) (k : String) : Option (Pred α) :=
  ps.reverse.find? (fun p => p.name == k)

/-- The key tuple of a row under an index key list
(`operator.attrgetter`). -/
def keyTup {α ρ : Type} (val : ρ → String → α) (ks : List String) (r : ρ) :
    List α :=
  ks.map (val r)

/-- The scan-construction loop of `Table.where`: walk the chosen
index's keys; an equality predicate appends its value to `start` and is
retained as an early-termination check; a `<`/`≤` predicate is retained
only (the scan starts from the minimum); a `>`/`≥` predicate appends
its value to `start` only; the walk stops at the first comparison key
or unconstrained key.  Returns `(start, retained checks)`. -/
def buildScan {α : Type} (eqs cmps : List (Pred α)) :
    List String → List α × List (Pred α)
  | [] => ([], [])
  | k :: ks =>
      match lookupLast eqs k with
      | some c =>
          let rest := buildScan eqs cmps ks
          (c.value :: rest.1, c :: rest.2)
      | none =>
          match lookupLast cmps k with
          | some c =>
              match c.op with
              | .clt => ([], [c])
              | .cle => ([], [c])
              | _ => ([c.value], [])
          | none => ([], [])

/-- `index.find(start)`: the live rows with key tuple `≥ start`, in
increasing key-tuple order. -/
def indexScan {α ρ : Type} [LinearOrder α] (val : ρ → String → α)
    (rows : List ρ) (ks : List String) (start : List α) : List ρ :=
  (rows.insertionSort (fun a b => keyTup val ks a ≤ keyTup val ks b)).filter
    (fun r => decide (start ≤ keyTup val ks r))

/-- `Table.where`: split the predicates into equalities and
comparisons, choose an index with `find_index`, build the scan window,
then iterate the index from `start`, halting as soon as a retained
early-termination predicate fails, and yielding exactly the visited
entries that match every supplied predicate. -/
def whereQ {α ρ : Type} [LinearOrder α] (val : ρ → String → α)
    (indices : List Idx) (rows : List ρ) (comparisons : List (Pred α)) :
    List ρ :=
  match find_index indices
      ((comparisons.filter (fun p => p.isEq)).map Pred.name)
      ((comparisons.filter (fun p => !p.isEq)).map Pred.name) with
  | none => []
  | some idx =>
      ((indexScan val rows idx.keys
          (buildScan (comparisons.filter (fun p => p.isEq))
            (comparisons.filter (fun p => !p.isEq)) idx.keys).1).takeWhile
        (fun r =>
          (buildScan (comparisons.filter (fun p => p.isEq))
            (comparisons.filter (fun p => !p.isEq)) idx.keys).2.all
            (fun p => pmatch val p r))).filter
        (fun r => comparisons.all (fun p => pmatch val p r))

/-! ### Lexicographic order helpers -/

theorem list_lt_of_head_lt {α : Type} [LinearOrder α] {a b : α}
    (as bs : List α) (h : a < b) : (a :: as : List α) < b :: bs :=
  List.Lex.rel h

theorem list_lt_of_tail_lt {α : Type} [LinearOrder α] {as bs : List α}
    (a : α) (h : as < bs) : (a :: as : List α) < a :: bs :=
  List.Lex.cons h

theorem list_le_head {α : Type} [LinearOrder α] {a b : α} {as bs : List α}
    (h : (a :: as : List α) ≤ b :: bs) : a ≤ b := by
  by_contra hba
  have hlt : (b :: bs : List α) < a :: as := List.Lex.rel (lt_of_not_le hba)
  exact absurd (lt_of_le_of_lt h hlt) (lt_irrefl _)

theorem list_le_tail {α : Type} [LinearOrder α] {a : α} {as bs : List α}
    (h : (a :: as : List α) ≤ a :: bs) : as ≤ bs := by
  rcases lt_or_eq_of_le h with hlt | heq
  · have : List.Lex (· < ·) (a :: as) (a :: bs) := hlt
    rcases List.Lex.cons_iff.1 this with h2
    exact le_of_lt h2
  · cases heq
    exact le_refl _

theorem singleton_le_cons {α : Type} [LinearOrder α] {a b : α} (bs : List α)
    (h : a ≤ b) : ([a] : List α) ≤ b :: bs := by
  rcases lt_or_eq_of_le h with hlt | rfl
  · exact le_of_lt (List.Lex.rel hlt)
  · cases bs with
    | nil => exact le_refl _
    | cons c cs => exact le_of_lt (List.Lex.cons List.Lex.nil)

theorem singleton_le_singleton {α : Type} [LinearOrder α] {a b : α} :
    ([a] : List α) ≤ [b] ↔ a ≤ b :=
  ⟨list_le_head, fun h => singleton_le_cons [] h⟩

/-! ### Scan-construction lemmas -/

theorem lookupLast_mem {α : Type} {ps : List (Pred α)} {k : String}
    {c : Pred α} (h : lookupLast ps k = some c) : c ∈ ps ∧ c.name = k := by
  unfold lookupLast at h
  have h1 := List.mem_of_find?_eq_some h
  have h2 := List.find?_some h
  exact ⟨List.mem_reverse.1 h1, by simpa using h2⟩

theorem mem_filter_isEq {α : Type} {comparisons : List (Pred α)} {p : Pred α}
    (h : p ∈ comparisons.filter (fun p => p.isEq)) : p.op = CmpOp.ceq := by
  have := (List.mem_filter.1 h).2
  unfold Pred.isEq at this
  cases hop : p.op <;> simp [hop] at this <;> rfl

theorem mem_filter_not_isEq {α : Type} {comparisons : List (Pred α)} {p : Pred α}
    (h : p ∈ comparisons.filter (fun p => !p.isEq)) : p.op ≠ CmpOp.ceq := by
  have := (List.mem_filter.1 h).2
  unfold Pred.isEq at this
  cases hop : p.op <;> simp [hop] at this <;> simp [hop]

/-- Every retained early-termination predicate is one of the supplied
predicates. -/
theorem buildScan_matches_sub {α : Type} (eqs cmps : List (Pred α)) :
    ∀ ks : List String, ∀ p ∈ (buildScan eqs cmps ks).2, p ∈ eqs ∨ p ∈ cmps := by
  intro ks
  induction ks with
  | nil => intro p hp; simp [buildScan] at hp
  | cons k ks ih =>
      intro p hp
      cases hq : lookupLast eqs k with
      | some c =>
          simp only [buildScan, hq] at hp
          rcases List.mem_cons.1 hp with rfl | hp'
          · exact Or.inl (lookupLast_mem hq).1
          · exact ih p hp'
      | none =>
          cases hq2 : lookupLast cmps k with
          | some c =>
              have hcm := (lookupLast_mem hq2).1
              cases hop : c.op <;> simp only [buildScan, hq, hq2, hop] at hp <;>
                first
                  | (rcases List.mem_singleton.1 hp with rfl; exact Or.inr hcm)
                  | simp at hp
          | none => simp [buildScan, hq, hq2] at hp

/-- W1: a row matching all supplied predicates lies at or after the
scan's start key. -/
theorem buildScan_start_le {α : Type} [LinearOrder α]
    (eqs cmps : List (Pred α)) (f : String → α)
    (heqop : ∀ p ∈ eqs, p.op = CmpOp.ceq)
    (heq : ∀ p ∈ eqs, evalPred f p = true)
    (hcmp : ∀ p ∈ cmps, evalPred f p = true) :
    ∀ ks : List String, (buildScan eqs cmps ks).1 ≤ ks.map f := by
  intro ks
  induction ks with
  | nil => simp [buildScan]
  | cons k ks ih =>
      cases hq : lookupLast eqs k with
      | some c =>
          obtain ⟨hcm, hcn⟩ := lookupLast_mem hq
          have hop := heqop c hcm
          have hev := heq c hcm
          rw [evalPred, hop] at hev
          simp only [decide_eq_true_eq] at hev
          have hfk : f k = c.value := by rw [← hcn]; exact hev
          simp only [buildScan, hq, List.map_cons, ← hfk]
          exact List.cons_le_cons _ ih
      | none =>
          cases hq2 : lookupLast cmps k with
          | some c =>
              obtain ⟨hcm, hcn⟩ := lookupLast_mem hq2
              have hev := hcmp c hcm
              cases hop : c.op <;>
                simp only [buildScan, hq, hq2, hop, List.map_cons]
              · rw [evalPred, hop] at hev
                simp only [decide_eq_true_eq] at hev
                rw [hcn] at hev
                exact singleton_le_cons _ (le_of_eq hev.symm)
              · exact List.nil_le
              · exact List.nil_le
              · rw [evalPred, hop] at hev
                simp only [decide_eq_true_eq] at hev
                rw [hcn] at hev
                exact singleton_le_cons _ (le_of_lt hev)
              · rw [evalPred, hop] at hev
                simp only [decide_eq_true_eq] at hev
                rw [hcn] at hev
                exact singleton_le_cons _ hev
          | none =>
              simp only [buildScan, hq, hq2]
              exact List.nil_le

/-- W3: inside the scanned range, a row at which some retained
early-termination predicate fails lies strictly after every row at
which all of them hold; halting there skips no further match. -/
theorem buildScan_window {α : Type} [LinearOrder α]
    (eqs cmps : List (Pred α))
    (heqop : ∀ p ∈ eqs, p.op = CmpOp.ceq) :
    ∀ (ks : List String) (f g : String → α),
      (∀ p ∈ (buildScan eqs cmps ks).2, evalPred f p = true) →
      (∃ p ∈ (buildScan eqs cmps ks).2, evalPred g p = false) →
      (buildScan eqs cmps ks).1 ≤ ks.map g →
      ks.map f < ks.map g := by
  intro ks
  induction ks with
  | nil =>
      intro f g _ hg _
      simp [buildScan] at hg
  | cons k ks ih =>
      intro f g hf hg hstart
      cases hq : lookupLast eqs k with
      | some c =>
          obtain ⟨hcm, hcn⟩ := lookupLast_mem hq
          have hop := heqop c hcm
          have hfc : evalPred f c = true := hf c (by simp [buildScan, hq])
          rw [evalPred, hop] at hfc
          simp only [decide_eq_true_eq] at hfc
          rw [hcn] at hfc
          simp only [buildScan, hq, List.map_cons] at hstart hg hf ⊢
          have hhead : c.value ≤ g k := list_le_head hstart
          by_cases hgc : g k = c.value
          · obtain ⟨p, hp, hpf⟩ := hg
            rcases List.mem_cons.1 hp with rfl | hp'
            · rw [evalPred, hop] at hpf
              rw [hcn, hgc] at hpf
              simp at hpf
            · have htail : (buildScan eqs cmps ks).1 ≤ List.map g ks := by
                rw [hgc] at hstart
                exact list_le_tail hstart
              have hlt := ih f g
                (fun p hp => hf p (List.mem_cons_of_mem _ hp)) ⟨p, hp', hpf⟩ htail
              rw [hfc, ← hgc]
              exact list_lt_of_tail_lt _ hlt
          · have hvlt : c.value < g k := lt_of_le_of_ne hhead (Ne.symm hgc)
            rw [hfc]
            exact list_lt_of_head_lt _ _ hvlt
      | none =>
          cases hq2 : lookupLast cmps k with
          | some c =>
              obtain ⟨hcm, hcn⟩ := lookupLast_mem hq2
              cases hop : c.op <;>
                  simp only [buildScan, hq, hq2, hop, List.map_cons] at hg hf ⊢
              · simp at hg
              · obtain ⟨p, hp, hpf⟩ := hg
                rcases List.mem_singleton.1 hp with rfl
                have hfc := hf p (List.mem_singleton_self _)
                rw [evalPred, hop] at hfc hpf
                simp only [decide_eq_true_eq] at hfc
                simp only [decide_eq_false_iff_not] at hpf
                rw [hcn] at hfc hpf
                exact list_lt_of_head_lt _ _ (lt_of_lt_of_le hfc (le_of_not_lt hpf))
              · obtain ⟨p, hp, hpf⟩ := hg
                rcases List.mem_singleton.1 hp with rfl
                have hfc := hf p (List.mem_singleton_self _)
                rw [evalPred, hop] at hfc hpf
                simp only [decide_eq_true_eq] at hfc
                simp only [decide_eq_false_iff_not] at hpf
                rw [hcn] at hfc hpf
                exact list_lt_of_head_lt _ _ (lt_of_le_of_lt hfc (lt_of_not_le hpf))
              · simp at hg
              · simp at hg
          | none =>
              simp only [buildScan, hq, hq2] at hg
              simp at hg

/-- On a list sorted by `R`, a check whose holders form an
`R`-downward-closed set is a prefix: halting at the first failure
visits exactly the holders. -/
theorem takeWhile_eq_filter_of_mono {ρ : Type} (R : ρ → ρ → Prop) (p : ρ → Bool) :
    ∀ l : List ρ, l.Pairwise R →
      (∀ a ∈ l, ∀ b ∈ l, R a b → p b = true → p a = true) →
      l.takeWhile p = l.filter p := by
  intro l
  induction l with
  | nil => intro _ _; rfl
  | cons x xs ih =>
      intro hp h
      have hx : ∀ y ∈ xs, R x y := (List.pairwise_cons.1 hp).1
      cases hpx : p x with
      | true =>
          rw [List.takeWhile_cons_of_pos hpx, List.filter_cons_of_pos hpx]
          rw [ih (List.pairwise_cons.1 hp).2
            (fun a ha b hb hab hpb =>
              h a (List.mem_cons_of_mem _ ha) b (List.mem_cons_of_mem _ hb) hab hpb)]
      | false =>
          rw [List.takeWhile_cons_of_neg (by simp [hpx]),
            List.filter_cons_of_neg (by simp [hpx])]
          have hnil : xs.filter p = [] := by
            apply List.filter_eq_nil_iff.2
            intro y hy
            intro hpy
            have := h x (List.mem_cons_self _ _) y (List.mem_cons_of_mem _ hy)
              (hx y hy) hpy
            rw [hpx] at this
            exact Bool.false_ne_true this
          rw [hnil]

/-- Soundness of the scan: whatever index the planner returned, the
yielded set is exactly the set of rows matching every predicate. -/
theorem whereQ_sound {α ρ : Type} [LinearOrder α] (val : ρ → String → α)
    (indices : List Idx) (rows : List ρ) (comparisons : List (Pred α))
    (idx : Idx)
    (hfi : find_index indices
      ((comparisons.filter (fun p => p.isEq)).map Pred.name)
      ((comparisons.filter (fun p => !p.isEq)).map Pred.name) = some idx)
    (r : ρ) :
    r ∈ whereQ val indices rows comparisons ↔
      r ∈ rows ∧ ∀ p ∈ comparisons, pmatch val p r = true := by
  have heqop : ∀ p ∈ comparisons.filter (fun p => p.isEq), p.op = CmpOp.ceq :=
    fun p hp => mem_filter_isEq hp
  have hsub : ∀ p ∈ (buildScan (comparisons.filter (fun p => p.isEq))
      (comparisons.filter (fun p => !p.isEq)) idx.keys).2, p ∈ comparisons := by
    intro p hp
    rcases buildScan_matches_sub _ _ idx.keys p hp with h | h
    · exact (List.mem_filter.1 h).1
    · exact (List.mem_filter.1 h).1
  haveI hTot : IsTotal ρ (fun a b => keyTup val idx.keys a ≤ keyTup val idx.keys b) :=
    ⟨fun a b => le_total _ _⟩
  haveI hTrans : IsTrans ρ (fun a b => keyTup val idx.keys a ≤ keyTup val idx.keys b) :=
    ⟨fun a b c hab hbc => le_trans hab hbc⟩
  have hSorted : (indexScan val rows idx.keys
      (buildScan (comparisons.filter (fun p => p.isEq))
        (comparisons.filter (fun p => !p.isEq)) idx.keys).1).Pairwise
      (fun a b => keyTup val idx.keys a ≤ keyTup val idx.keys b) :=
    (List.sorted_insertionSort _ _).filter _
  have hstartmem : ∀ a ∈ indexScan val rows idx.keys
      (buildScan (comparisons.filter (fun p => p.isEq))
        (comparisons.filter (fun p => !p.isEq)) idx.keys).1,
      (buildScan (comparisons.filter (fun p => p.isEq))
        (comparisons.filter (fun p => !p.isEq)) idx.keys).1 ≤ keyTup val idx.keys a := by
    intro a ha
    have := (List.mem_filter.1 ha).2
    simpa using this
  have hcond : ∀ a ∈ indexScan val rows idx.keys
      (buildScan (comparisons.filter (fun p => p.isEq))
        (comparisons.filter (fun p => !p.isEq)) idx.keys).1,
      ∀ b ∈ indexScan val rows idx.keys
      (buildScan (comparisons.filter (fun p => p.isEq))
        (comparisons.filter (fun p => !p.isEq)) idx.keys).1,
      keyTup val idx.keys a ≤ keyTup val idx.keys b →
      ((buildScan (comparisons.filter (fun p => p.isEq))
        (comparisons.filter (fun p => !p.isEq)) idx.keys).2.all
          (fun p => pmatch val p b)) = true →
      ((buildScan (comparisons.filter (fun p => p.isEq))
        (comparisons.filter (fun p => !p.isEq)) idx.keys).2.all
          (fun p => pmatch val p a)) = true := by
    intro a ha b hb hab hpb
    by_contra hpa
    have hpa' : (buildScan (comparisons.filter (fun p => p.isEq))
        (comparisons.filter (fun p => !p.isEq)) idx.keys).2.all
          (fun p => pmatch val p a) = false := Bool.eq_false_iff.2 hpa
    have hfail : ∃ p ∈ (buildScan (comparisons.filter (fun p => p.isEq))
        (comparisons.filter (fun p => !p.isEq)) idx.keys).2,
        evalPred (val a) p = false := by
      have := List.all_eq_false.1 hpa'
      obtain ⟨p, hp, hpne⟩ := this
      exact ⟨p, hp, Bool.eq_false_iff.2 (by simpa [pmatch] using hpne)⟩
    have hhold : ∀ p ∈ (buildScan (comparisons.filter (fun p => p.isEq))
        (comparisons.filter (fun p => !p.isEq)) idx.keys).2,
        evalPred (val b) p = true := by
      intro p hp
      exact List.all_eq_true.1 hpb p hp
    have hlt := buildScan_window _ _ heqop idx.keys (val b) (val a) hhold hfail
      (hstartmem a ha)
    have hab' : (keyTup val idx.keys a : List α) ≤ keyTup val idx.keys b := hab
    exact absurd hlt (not_lt.2 hab')
  have htf := takeWhile_eq_filter_of_mono
      (fun a b => keyTup val idx.keys a ≤ keyTup val idx.keys b)
      (fun r => (buildScan (comparisons.filter (fun p => p.isEq))
        (comparisons.filter (fun p => !p.isEq)) idx.keys).2.all
          (fun p => pmatch val p r))
      _ hSorted hcond
  unfold whereQ
  rw [hfi]
  dsimp only
  rw [htf]
  constructor
  · intro hr
    have h1 := List.mem_filter.1 hr
    have h2 := List.mem_filter.1 h1.1
    have h3 := List.mem_filter.1 h2.1
    refine ⟨(List.mem_insertionSort _).1 h3.1, ?_⟩
    intro p hp
    exact List.all_eq_true.1 h1.2 p hp
  · rintro ⟨hrow, hall⟩
    have hstart : (buildScan (comparisons.filter (fun p => p.isEq))
        (comparisons.filter (fun p => !p.isEq)) idx.keys).1 ≤
        List.map (val r) idx.keys := by
      apply buildScan_start_le _ _ (val r) heqop
      · intro p hp
        exact hall p (List.mem_filter.1 hp).1
      · intro p hp
        exact hall p (List.mem_filter.1 hp).1
    refine List.mem_filter.2 ⟨List.mem_filter.2 ⟨List.mem_filter.2
      ⟨(List.mem_insertionSort _).2 hrow, ?_⟩, ?_⟩, ?_⟩
    · simpa [keyTup] using hstart
    · exact List.all_eq_true.2 (fun p hp => hall p (hsub p hp))
    · exact List.all_eq_true.2 hall

/-! ### `where()` with no predicates -/

theorem strength_nil (ks : List String) : strength [] [] ks = 0 := by
  cases ks with
  | nil => rfl
  | cons k ks => simp [strength]

theorem specFold_nil_preds (is : List Idx) :
    ∀ b : Idx, specFold [] [] b is = b := by
  induction is with
  | nil => intro b; rfl
  | cons i is ih =>
      intro b
      rw [specFold, strength_nil, strength_nil, if_neg (lt_irrefl 0)]
      exact ih b

/-- With no predicates every index has strength 0, so the planner
returns the first catalog entry: the trivial `(id)` index. -/
theorem find_index_nil_preds (i : Idx) (is : List Idx) :
    find_index (i :: is) [] [] = some i := by
  rw [find_index_cons, specFold_nil_preds]

theorem takeWhile_const_true {ρ : Type} (l : List ρ) :
    l.takeWhile (fun _ => true) = l := by
  induction l with
  | nil => rfl
  | cons x xs ih => simpa [List.takeWhile_cons] using ih

/-- `where()` with no predicates scans the whole `(id)` index: it is
the row list sorted by id. -/
theorem whereQ_nil {α ρ : Type} [LinearOrder α] (val : ρ → String → α)
    (u : List (List String)) (rows : List ρ) :
    whereQ val (tableIndices u) rows [] =
      rows.insertionSort
        (fun a b => keyTup val ["id"] a ≤ keyTup val ["id"] b) := by
  unfold whereQ
  simp only [List.filter_nil, List.map_nil]
  rw [show tableIndices u = ⟨["id"]⟩ :: (⟨["_offset", "id"]⟩ :: ⟨["_dirty", "id"]⟩ ::
    u.map (fun ks => ⟨ks ++ ["id"]⟩)) from rfl]
  rw [find_index_nil_preds]
  dsimp only
  rw [show buildScan ([] : List (Pred α)) [] ["id"] = ([], []) from rfl]
  simp only [List.all_nil, takeWhile_const_true]
  rw [List.filter_true]
  unfold indexScan
  have : ∀ r : ρ, decide (([] : List α) ≤ keyTup val ["id"] r) = true := by
    intro r
    simp [List.nil_le]
  simp only [this]
  rw [List.filter_true]

/-! ### Row manager / table store state machine

A single table is modelled end to end: row states (struct content plus
the decoded Python-level caches), the dirty index (a `SortedDict` keyed
by `(_dirty, id)`), the `.tbl` file (header schema plus the list of
records) and the sidecar blob files keyed by `(column name, offset)`.
Records hold the semantic content of each column's nested struct; the
byte image of a record is the injective packed encoding of this content
(little-endian numbers, `u32` length plus payload), so record equality
is byte equality.  `_offset` is a plain Python attribute (not a struct
field) and is modelled as an exact integer; the `id` counter is not
pushed through `c_int` truncation on creation (ids stay far below
`2^31` in any feasible run), while values stored through a struct are
truncated with `wrap32`. -/

/-- `c_int` assignment: truncate to a signed 32-bit value. -/
def wrap32 (v : Int) : Int := (v + 2 ^ 31) % 2 ^ 32 - 2 ^ 31

/-- Runtime content of one column slot of a row: the nested-struct
content plus the decoded cache attribute (`_name`) where the source
keeps one.  For the bytes-backed kinds the cache can be `none` (the
attribute was set to Python `None`) while the struct holds the encoded
empty payload. -/
inductive FVal : Type where
  | fInt : Int → FVal
  | fBool : Bool → FVal
  | fStr : Option Bytes → Bytes → FVal
  | fPickle : Option Bytes → Bytes → FVal
  | fStrBlob : Option Bytes → FVal
  | fPickleBlob : Option Bytes → FVal
deriving DecidableEq, Repr

/-- A live row: id, file offset, dirty flag, user-column slots. -/
structure RowSt : Type where
  rid : Int
  off : Int
  dirty : Bool
  fields : List FVal
deriving DecidableEq, Repr

/-- One column's slice of an on-disk record (its nested-struct
content; blob kinds contribute an empty struct). -/
inductive RVal : Type where
  | rInt : Int → RVal
  | rBool : Bool → RVal
  | rBytes : Bytes → RVal
  | rNone : RVal
deriving DecidableEq, Repr

/-- An on-disk record: the `id` slot followed by the user columns. -/
abbrev Rec := List RVal

/-- In-memory table state. -/
structure TableSt : Type where
  rows : List RowSt
  maxId : Int
  dirtyIdx : List (Bool × Int)
  fullDump : Bool
deriving DecidableEq, Repr

/-- Durable state: the `.tbl` file (schema header plus records) and
the sidecar files of the blob columns. -/
structure Disk : Type where
  tbl : Option (List Col × List Rec)
  sidecars : List ((String × Int) × Bytes)
deriving DecidableEq, Repr

structure St : Type where
  table : TableSt
  disk : Disk
deriving DecidableEq, Repr

/-- Observed value of a column through its public `get`. -/
inductive OVal : Type where
  | oInt : Int → OVal
  | oBool : Bool → OVal
  | oPay : Option Bytes → OVal
deriving DecidableEq, Repr

/-- Values passed to a column's public `set`. -/
inductive SetV : Type where
  | sInt : Int → SetV
  | sBool : Bool → SetV
  | sPay : Option Bytes → SetV
deriving DecidableEq, Repr

/-- Error kinds surfaced by the embedded operations. -/
inductive Err : Type where
  | valueTooLarge : Nat → Nat → Err
  | typeError : Err
  | fileNotFound : Err
  | badOp : Err
deriving DecidableEq, Repr

/-- Sidecar directory lookup (`open(<col>/<offset>.dat)`). -/
def scGet (sc : List ((String × Int) × Bytes)) (key : String × Int) :
    Option Bytes :=
  (sc.find? (fun e => e.1 == key)).map (fun e => e.2)

/-- Write a sidecar file. -/
def scPut (sc : List ((String × Int) × Bytes)) (key : String × Int)
    (v : Bytes) : List ((String × Int) × Bytes) :=
  (key, v) :: sc.filter (fun e => !(e.1 == key))

/-- `os.remove` a sidecar file. -/
def scDel (sc : List ((String × Int) × Bytes)) (key : String × Int) :
    List ((String × Int) × Bytes) :=
  sc.filter (fun e => !(e.1 == key))

/-- `SortedDict` assignment under a key (overwrites). -/
def idxAdd (k : Bool × Int) (l : List (Bool × Int)) : List (Bool × Int) :=
  k :: l.filter (fun e => !(e == k))

/-- `SortedDict` deletion of a key. -/
def idxDel (k : Bool × Int) (l : List (Bool × Int)) : List (Bool × Int) :=
  l.filter (fun e => !(e == k))

/-- The `Row._dirty` property setter: no-op when unchanged, otherwise
remove the row from the dirty index under its old key, flip the flag,
and re-insert under the new key. -/
def setDirtyFlag (t : TableSt) (i : Nat) (v : Bool) : TableSt :=
  match t.rows[i]? with
  | none => t
  | some r =>
      if v = r.dirty then t
      else
        { t with
          rows := t.rows.set i { r with dirty := v },
          dirtyIdx := idxAdd (v, r.rid) (idxDel (r.dirty, r.rid) t.dirtyIdx) }

/-- Zero-initialised struct content of a column (ctypes zeroes new
structures). -/
def zeroEntry (c : Col) : RVal :=
  match c.kind with
  | .kInt => .rInt 0
  | .kForeign => .rInt 0
  | .kBool => .rBool false
  | .kStr _ => .rBytes []
  | .kPickle _ _ => .rBytes []
  | .kStrBlob => .rNone
  | .kPickleBlob _ => .rNone

/-- `column.load(row)`: decode the struct content (or read the sidecar
file at the row's offset) into the cache attribute. -/
def loadField (sc : List ((String × Int) × Bytes)) (off : Int) (c : Col)
    (rv : RVal) : FVal :=
  match c.kind, rv with
  | .kInt, .rInt v => .fInt v
  | .kForeign, .rInt v => .fInt v
  | .kBool, .rBool b => .fBool b
  | .kStr _, .rBytes b => .fStr (some b) b
  | .kPickle _ dflt, .rBytes b =>
      .fPickle (if b = [] then dflt else some b) b
  | .kStrBlob, _ => .fStrBlob (some ((scGet sc (c.name, off)).getD []))
  | .kPickleBlob dflt, _ =>
      .fPickleBlob
        (match scGet sc (c.name, off) with
          | none => dflt
          | some [] => dflt
          | some b => some b)
  | _, _ => .fInt 0

/-- `column.dump(row)` / writing the struct: the record slice of a
field. -/
def dumpField : FVal → RVal
  | .fInt v => .rInt v
  | .fBool b => .rBool b
  | .fStr _ b => .rBytes b
  | .fPickle _ b => .rBytes b
  | .fStrBlob _ => .rNone
  | .fPickleBlob _ => .rNone

/-- `file.write(row)`: the record of a row. -/
def dumpRow (r : RowSt) : Rec := .rInt r.rid :: r.fields.map dumpField

/-- Public `get` of a column on a row (`Foreign` observed through the
stored id; resolution is a by-id lookup in the referenced table). -/
def observeField : FVal → OVal
  | .fInt v => .oInt v
  | .fBool b => .oBool b
  | .fStr c _ => .oPay c
  | .fPickle c _ => .oPay c
  | .fStrBlob c => .oPay c
  | .fPickleBlob c => .oPay c

/-- All observable column values of a row (id first). -/
def observeRow (r : RowSt) : Int × List OVal :=
  (r.rid, r.fields.map observeField)

def observeTable (t : TableSt) : List (Int × List OVal) :=
  t.rows.map observeRow

/-- `Table.max('_offset', -1)`. -/
def maxOffset (rows : List RowSt) : Int :=
  rows.foldl (fun m r => max m r.off) (-1)

/-- The row with the greatest `(_offset, id)` key
(`offset_index.find(None, reverse=True)`). -/
def maxOffRow (rows : List RowSt) : Option RowSt :=
  rows.foldl
    (fun acc r =>
      match acc with
      | none => some r
      | some m =>
          if m.off < r.off ∨ (m.off = r.off ∧ m.rid < r.rid) then some r
          else some m)
    none

/-- `Row.__init__`: take the next id, append to the row list, take the
next offset, initialise every column (`column.load`), index the row
(still clean), then set `_dirty = True` through the property. -/
def stepCreate (user : List Col) (s : St) : St :=
  let newId := s.table.maxId + 1
  let off := maxOffset s.table.rows + 1
  let row : RowSt :=
    { rid := newId, off := off, dirty := false,
      fields := user.map (fun c => loadField s.disk.sidecars off c (zeroEntry c)) }
  let t1 : TableSt :=
    { s.table with
      rows := s.table.rows ++ [row],
      maxId := newId,
      dirtyIdx := idxAdd (false, newId) s.table.dirtyIdx }
  { s with table := setDirtyFlag t1 (t1.rows.length - 1) true }

/-- Update one field slot of one row, then run the `_dirty = True` of
the `Property` wrapper. -/
def commitSet (s : St) (i c : Nat) (f : FVal) : St :=
  match s.table.rows[i]? with
  | none => s
  | some r =>
      let t1 : TableSt :=
        { s.table with
          rows := s.table.rows.set i { r with fields := r.fields.set c f } }
      { s with table := setDirtyFlag t1 i true }

/-- A column's public `set` on row `i`, column `c`.  Validation errors
are raised before any struct write, sidecar write, index mutation or
dirty-flag change, so the state returned with an error is the input
state. -/
def stepSet (user : List Col) (s : St) (i c : Nat) (v : SetV) :
    St × Option Err :=
  match s.table.rows[i]?, user[c]? with
  | some r, some col =>
      match col.kind, v with
      | .kInt, .sInt w => (commitSet s i c (.fInt (wrap32 w)), none)
      | .kForeign, .sInt w => (commitSet s i c (.fInt (wrap32 w)), none)
      | .kBool, .sBool b => (commitSet s i c (.fBool b), none)
      | .kStr n, .sPay p =>
          let bytes := p.getD []
          if bytes.length > n then (s, some (.valueTooLarge bytes.length n))
          else (commitSet s i c (.fStr p bytes), none)
      | .kPickle n _, .sPay p =>
          match p with
          | none => (s, some .typeError)
          | some o =>
              if o.length > n then (s, some (.valueTooLarge o.length n))
              else (commitSet s i c (.fPickle (some o) o), none)
      | .kStrBlob, .sPay p =>
          let bytes := p.getD []
          let s1 : St :=
            { s with disk := { s.disk with
                sidecars := scPut s.disk.sidecars (col.name, r.off) bytes } }
          (commitSet s1 i c (.fStrBlob p), none)
      | .kPickleBlob _, .sPay p =>
          match p with
          | none =>
              match scGet s.disk.sidecars (col.name, r.off) with
              | none => (s, some .fileNotFound)
              | some _ =>
                  let s1 : St :=
                    { s with disk := { s.disk with
                        sidecars := scDel s.disk.sidecars (col.name, r.off) } }
                  (commitSet s1 i c (.fPickleBlob none), none)
          | some o =>
              let s1 : St :=
                { s with disk := { s.disk with
                    sidecars := scPut s.disk.sidecars (col.name, r.off) o } }
              (commitSet s1 i c (.fPickleBlob (some o)), none)
      | _, _ => (s, some .badOp)
  | _, _ => (s, some .badOp)

/-- `Row.destroy`: remove the row from every index and the row list;
if the remaining row with the greatest offset sits past the freed
slot, move it there and mark it dirty through the property. -/
def stepDestroy (s : St) (i : Nat) : St × Option Err :=
  match s.table.rows[i]? with
  | none => (s, some .badOp)
  | some r =>
      let t1 : TableSt :=
        { s.table with
          rows := s.table.rows.eraseIdx i,
          dirtyIdx := idxDel (r.dirty, r.rid) s.table.dirtyIdx }
      match maxOffRow t1.rows with
      | none => ({ s with table := t1 }, none)
      | some m =>
          if r.off < m.off then
            let j := t1.rows.findIdx (fun x => x == m)
            let t2 : TableSt :=
              { t1 with rows := t1.rows.set j { m with off := r.off } }
            ({ s with table := setDirtyFlag t2 j true }, none)
          else ({ s with table := t1 }, none)

/-- The record a zeroed file region decodes to (`truncate` past the end
and seek-gaps read as zero bytes). -/
def zeroRecFull (user : List Col) : Rec :=
  .rInt 0 :: user.map zeroEntry

/-- `file.seek(off * size + header); file.write(row)`: place a record
at a slot, extending the file if needed. -/
def putRecAt (recs : List Rec) (n : Nat) (x : Rec) (pad : Rec) : List Rec :=
  if n < recs.length then recs.set n x
  else recs ++ List.replicate (n - recs.length) pad ++ [x]

/-- `file.truncate(n * size + header)` (pads with zero bytes when the
file is shorter). -/
def truncRecs (recs : List Rec) (n : Nat) (pad : Rec) : List Rec :=
  (recs ++ List.replicate (n - recs.length) pad).take n

/-- `row._dirty = False` for every row (`save_all` clears the flag of
each written row through the property setter; the writes hit distinct
rows, so the iteration order is immaterial). -/
def clearAllDirty (t : TableSt) : TableSt :=
  (List.range t.rows.length).foldl (fun t i => setDirtyFlag t i false) t

/-- The `(_offset, id)` ordering of the offset index. -/
def offLe (a b : RowSt) : Prop :=
  a.off < b.off ∨ (a.off = b.off ∧ a.rid ≤ b.rid)

instance : DecidableRel offLe := fun a b => by
  unfold offLe
  infer_instance

/-- `Table.save_all`: rewrite the file with the schema header and every
row in offset-index order, clearing the dirty flags; reset
`full_dump_needed`. -/
def saveAll (user : List Col) (s : St) : St :=
  let ordered := s.table.rows.insertionSort offLe
  let t := clearAllDirty s.table
  { table := { t with fullDump := false },
    disk := { s.disk with tbl := some (fullCols user, ordered.map dumpRow) } }

/-- The ids of the dirty rows, in dirty-index key order
(`cls._dirty_index.find((True,))`). -/
def dirtyIds (t : TableSt) : List Int :=
  ((t.dirtyIdx.filter (fun e => e.1)).map (fun e => e.2)).insertionSort
    (fun a b => a ≤ b)

/-- The write loop of the incremental `Table.save`: for each listed
row, seek to its slot, write its record, clear its flag. -/
def writeDirty (user : List Col) : List Int → St → List Rec → St × List Rec
  | [], s, recs => (s, recs)
  | id :: rest, s, recs =>
      match s.table.rows.findIdx? (fun r => r.rid == id) with
      | none => writeDirty user rest s recs
      | some j =>
          match s.table.rows[j]? with
          | none => writeDirty user rest s recs
          | some r =>
              let recs1 := putRecAt recs r.off.toNat (dumpRow r) (zeroRecFull user)
              let s1 : St := { s with table := setDirtyFlag s.table j false }
              writeDirty user rest s1 recs1

/-- `Table.save`: full rewrite when `full_dump_needed` or the file is
absent; otherwise write each dirty row at its offset and truncate the
file to `(max(_offset) + 1)` records under the unchanged header. -/
def stepSave (user : List Col) (s : St) : St :=
  if s.table.fullDump then saveAll user s
  else
    match s.disk.tbl with
    | none => saveAll user s
    | some (sch, recs) =>
        let res := writeDirty user (dirtyIds s.table) s recs
        let n := (maxOffset res.1.table.rows + 1).toNat
        { res.1 with
          disk := { res.1.disk with
            tbl := some (sch, truncRecs res.2 n (zeroRecFull user)) } }

/-- Read one record into a fresh row (`cls.Row(); file.readinto(row);
row._offset = offset; column.load for every column`). -/
def loadRow (user : List Col) (sc : List ((String × Int) × Bytes)) (i : Nat)
    (rec : Rec) : RowSt :=
  match rec with
  | .rInt id :: rest =>
      { rid := id, off := (i : Int), dirty := false,
        fields := (user.zip rest).map
          (fun cr => loadField sc (i : Int) cr.1 cr.2) }
  | _ => { rid := 0, off := (i : Int), dirty := false, fields := [] }

def emptyTable : TableSt :=
  { rows := [], maxId := 0, dirtyIdx := [], fullDump := false }

def emptySt : St :=
  { table := emptyTable, disk := { tbl := none, sidecars := [] } }

/-- `Table.load` through `Database.connect` when the stored schema
matches: read the records into rows with offsets `0..`, set
`max_id` to the highest loaded id, all rows clean; `connect`'s final
`reindex()` leaves every index holding exactly the current rows. -/
def loadClean (user : List Col) (d : Disk) (recs : List Rec) : St :=
  let rows := recs.mapIdx (fun i rec => loadRow user d.sidecars i rec)
  { table :=
      { rows := rows,
        maxId := (rows.map RowSt.rid).foldl max 0,
        dirtyIdx := rows.map (fun r => (false, r.rid)),
        fullDump := false },
    disk := d }

/-- `StructColumn.set` on the implicit `id` column (used by the
migration copy loop): remove the row from every index containing `id`
— all of them, the dirty index included — write the truncated value,
re-insert, then `_dirty = True`. -/
def setIdCol (s : St) (i : Nat) (v : Int) : St :=
  match s.table.rows[i]? with
  | none => s
  | some r =>
      let t1 : TableSt :=
        { s.table with
          rows := s.table.rows.set i { r with rid := wrap32 v },
          dirtyIdx := idxAdd (r.dirty, wrap32 v)
            (idxDel (r.dirty, r.rid) s.table.dirtyIdx) }
      { s with table := setDirtyFlag t1 i true }

/-- `column.load(row)` applied in place (re-derive the cache from the
struct content / sidecar file); no index or dirty traffic. -/
def columnLoad (user : List Col) (s : St) (i c : Nat) : St :=
  match s.table.rows[i]?, user[c]? with
  | some r, some col =>
      match r.fields[c]? with
      | none => s
      | some f =>
          { s with table := { s.table with
              rows := s.table.rows.set i
                { r with fields :=
                    r.fields.set c (loadField s.disk.sidecars r.off col (dumpField f)) } } }
  | _, _ => s

/-- `setattr(ours, column.name, getattr(shadow_row, column.name))` for
one migrated column: the value handed to the public setter.  The
concrete kinds pass the shadow's cached value through.  A `Foreign`
column's `get` resolves the stored id in the referenced table
(`ForeignColumn.get` runs `self._table.find(self._table.id == id)`)
and the receiving `set` stores the found row's id — or `0` when the
lookup found nothing: a dangling id, or a referenced table whose rows
`connect()` has not loaded yet.  `fres nm v` reports whether the
referenced table of the column named `nm` holds a live row with id `v`
at migration time. -/
def obsToSet (fres : String → Int → Bool) (col : Col) : FVal → SetV
  | .fInt v =>
      match col.kind with
      | .kForeign => .sInt (if fres col.name v then v else 0)
      | _ => .sInt v
  | .fBool b => .sBool b
  | .fStr c _ => .sPay c
  | .fPickle c _ => .sPay c
  | .fStrBlob c => .sPay c
  | .fPickleBlob c => .sPay c

/-- The inner copy loop of `Table.import_data` over the declared user
columns (position, column) of the new schema: copy the shadow's value
through the public `set` when the name also exists in the old schema,
then run `column.load` on the new row. -/
def importCols (fres : String → Int → Bool) (oldUser user : List Col)
    (sr : RowSt) (i : Nat) :
    List (Nat × Col) → St → St × Option Err
  | [], s => (s, none)
  | (c, col) :: rest, s =>
      let step1 : St × Option Err :=
        match oldUser.findIdx? (fun oc => oc.name == col.name) with
        | some j =>
            match sr.fields[j]? with
            | some f => stepSet user s i c (obsToSet fres col f)
            | none => (s, some .badOp)
        | none => (s, none)
      match step1.2 with
      | some e => (step1.1, some e)
      | none =>
          importCols fres oldUser user sr i rest (columnLoad user step1.1 i c)

/-- One iteration of `import_data`'s row loop: `ours = cls.Row()`,
copy the always-common `id`, then copy/load the user columns. -/
def importRow (fres : String → Int → Bool) (oldUser user : List Col)
    (s : St) (sr : RowSt) :
    St × Option Err :=
  let s1 := stepCreate user s
  let i := s1.table.rows.length - 1
  let s2 := setIdCol s1 i sr.rid
  importCols fres oldUser user sr i user.enum s2

def importRows (fres : String → Int → Bool) (oldUser user : List Col) :
    List RowSt → St → St × Option Err
  | [], s => (s, none)
  | sr :: rest, s =>
      match importRow fres oldUser user s sr with
      | (s1, some e) => (s1, some e)
      | (s1, none) => importRows fres oldUser user rest s1

/-- `Table.import_data`: rebuild the shadow table from the stored
schema, load it from the same records, copy each shadow row into the
live table, and set `full_dump_needed` so the next `save()` rewrites
the file under the new schema header. -/
def importData (fres : String → Int → Bool) (user : List Col)
    (sch : List Col) (recs : List Rec)
    (d : Disk) : St × Option Err :=
  let oldUser := sch.drop 1
  let shadow := loadClean oldUser d recs
  match importRows fres oldUser user shadow.table.rows
      { table := emptyTable, disk := d } with
  | (s1, some e) => (s1, some e)
  | (s1, none) =>
      ({ s1 with table := { s1.table with fullDump := true } }, none)

/-- `Table.load` (via `Database.connect`): no file means a fresh empty
table; a header equal to the declared schema means a plain load; any
other header triggers `import_data` (whose `Foreign` copies consult
the referenced tables through `fres`). -/
def loadTable (fres : String → Int → Bool) (user : List Col)
    (d : Disk) : St × Option Err :=
  match d.tbl with
  | none => ({ table := emptyTable, disk := d }, none)
  | some (sch, recs) =>
      if sch = fullCols user then (loadClean user d recs, none)
      else importData fres user sch recs d

/-- The public operations of a session. -/
inductive MOp : Type where
  | mCreate : MOp
  | mSet : Nat → Nat → SetV → MOp
  | mDestroy : Nat → MOp
  | mSave : MOp
deriving DecidableEq, Repr

def stepOp (user : List Col) (s : St) : MOp → St × Option Err
  | .mCreate => (stepCreate user s, none)
  | .mSet i c v => stepSet user s i c v
  | .mDestroy i => stepDestroy s i
  | .mSave => (stepSave user s, none)

/-- Run a sequence of operations; a raised setter error leaves the
state as it was at the raise point and the session continues. -/
def runOps (user : List Col) (s : St) : List MOp → St
  | [] => s
  | op :: rest => runOps user (stepOp user s op).1 rest

/-! ### Invariants of the table state -/

theorem mem_idxDel {k e : Bool × Int} {l : List (Bool × Int)} :
    e ∈ idxDel k l ↔ e ∈ l ∧ e ≠ k := by
  unfold idxDel
  simp [List.mem_filter]

theorem mem_idxAdd {k e : Bool × Int} {l : List (Bool × Int)} :
    e ∈ idxAdd k l ↔ e = k ∨ (e ∈ l ∧ e ≠ k) := by
  unfold idxAdd
  simp [List.mem_filter]

/-- The offsets `0..n-1` as integers. -/
def castRange (n : Nat) : List Int :=
  (List.range n).map Int.ofNat

/-- The row-manager invariant: ids are positive, bounded by `max_id`
and pairwise distinct; the offsets of the live rows are a permutation
of `{0, …, n-1}`; the dirty index holds exactly the keys
`(r._dirty, r.id)` of the live rows. -/
structure Inv0 (t : TableSt) : Prop where
  ids_nodup : (t.rows.map RowSt.rid).Nodup
  ids_pos : ∀ r ∈ t.rows, 1 ≤ r.rid
  ids_le : ∀ r ∈ t.rows, r.rid ≤ t.maxId
  maxId_nonneg : 0 ≤ t.maxId
  off_perm : (t.rows.map RowSt.off).Perm (castRange t.rows.length)
  dirty_iff : ∀ b : Bool, ∀ n : Int,
    (b, n) ∈ t.dirtyIdx ↔ ∃ r ∈ t.rows, r.rid = n ∧ r.dirty = b

theorem inv0_empty : Inv0 emptyTable := by
  refine ⟨?_, ?_, ?_, ?_, ?_, ?_⟩ <;> simp [emptyTable, castRange]

/-- A row is recovered from its id (ids are distinct). -/
theorem row_eq_of_rid_eq {t : TableSt} (hinv : Inv0 t) {r r' : RowSt}
    (hr : r ∈ t.rows) (hr' : r' ∈ t.rows) (h : r.rid = r'.rid) : r = r' :=
  List.inj_on_of_nodup_map hinv.ids_nodup hr hr' h

theorem getElem?_some_lt {β : Type} {l : List β} {i : Nat} {x : β}
    (h : l[i]? = some x) : i < l.length := by
  by_contra hc
  rw [List.getElem?_eq_none (by omega)] at h
  cases h

theorem set_getElem_self {β : Type} {l : List β} {i : Nat} {x : β}
    (h : l[i]? = some x) : l.set i x = l := by
  apply List.ext_getElem?
  intro n
  by_cases hn : i = n
  · subst hn
    rw [List.getElem?_set_eq_of_lt _ (getElem?_some_lt h)]
    exact h.symm
  · exact List.getElem?_set_ne hn

theorem perm_getElem_cons_eraseIdx {β : Type} (l : List β) (i : Nat)
    (h : i < l.length) : l.Perm (l[i] :: l.eraseIdx i) := by
  conv_lhs => rw [← List.take_append_drop i l]
  rw [List.eraseIdx_eq_take_drop_succ]
  have hdrop : List.drop i l = l[i] :: List.drop (i + 1) l :=
    List.drop_eq_getElem_cons h
  rw [hdrop]
  exact List.perm_middle

theorem perm_set_cons_eraseIdx {β : Type} (l : List β) (i : Nat) (x : β)
    (h : i < l.length) : (l.set i x).Perm (x :: l.eraseIdx i) := by
  rw [List.set_eq_take_append_cons_drop, if_pos h,
    List.eraseIdx_eq_take_drop_succ]
  exact List.perm_middle

/-- Characterisation of the dirty-flag setter on a valid index. -/
theorem setDirtyFlag_eq {t : TableSt} {i : Nat} {r : RowSt}
    (hro : t.rows[i]? = some r) (v : Bool) :
    setDirtyFlag t i v =
      if v = r.dirty then t
      else
        { t with
          rows := t.rows.set i { r with dirty := v },
          dirtyIdx := idxAdd (v, r.rid) (idxDel (r.dirty, r.rid) t.dirtyIdx) } := by
  unfold setDirtyFlag
  rw [hro]

theorem setDirtyFlag_none {t : TableSt} {i : Nat}
    (hro : t.rows[i]? = none) (v : Bool) : setDirtyFlag t i v = t := by
  unfold setDirtyFlag
  rw [hro]

/-- Rows of `l.set i x` are `x` or original rows. -/
theorem mem_set_cases {β : Type} {l : List β} {i : Nat} {x y : β}
    (h : y ∈ l.set i x) : y = x ∨ y ∈ l := by
  rcases List.mem_or_eq_of_mem_set h with h2 | h2
  · exact Or.inr h2
  · exact Or.inl h2

/-- The dirty setter preserves the invariant (the row keeps its id,
and the index entry moves with the flag). -/
theorem inv0_setDirtyFlag {t : TableSt} (hinv : Inv0 t) (i : Nat) (v : Bool) :
    Inv0 (setDirtyFlag t i v) := by
  cases hro : t.rows[i]? with
  | none => rw [setDirtyFlag_none hro]; exact hinv
  | some r =>
      rw [setDirtyFlag_eq hro]
      by_cases hv : v = r.dirty
      · rw [if_pos hv]; exact hinv
      · rw [if_neg hv]
        have hi : i < t.rows.length := getElem?_some_lt hro
        have hmem : r ∈ t.rows := List.getElem?_mem hro
        have hmap : (t.rows.set i { r with dirty := v }).map RowSt.rid =
            t.rows.map RowSt.rid := by
          rw [List.map_set]
          exact set_getElem_self (by rw [List.getElem?_map, hro]; rfl)
        have hmapoff : (t.rows.set i { r with dirty := v }).map RowSt.off =
            t.rows.map RowSt.off := by
          rw [List.map_set]
          exact set_getElem_self (by rw [List.getElem?_map, hro]; rfl)
        have hgete : t.rows[i] = r := by
          have h2 := List.getElem?_eq_getElem hi
          rw [hro] at h2
          exact (Option.some_inj.1 h2).symm
        have hperm : (t.rows.set i { r with dirty := v }).Perm
            ({ r with dirty := v } :: t.rows.eraseIdx i) :=
          perm_set_cons_eraseIdx _ _ _ hi
        have hperm0 : t.rows.Perm (r :: t.rows.eraseIdx i) := by
          have h2 := perm_getElem_cons_eraseIdx t.rows i hi
          rwa [hgete] at h2
        have hnotin : ∀ x ∈ t.rows.eraseIdx i, x.rid ≠ r.rid := by
          intro x hx hcontra
          have hnd : (t.rows.map RowSt.rid).Nodup := hinv.ids_nodup
          have hpermmap : (t.rows.map RowSt.rid).Perm
              (r.rid :: (t.rows.eraseIdx i).map RowSt.rid) := by
            simpa using hperm0.map RowSt.rid
          have hnd2 := hpermmap.nodup_iff.1 hnd
          have := (List.nodup_cons.1 hnd2).1
          exact this (hcontra ▸ List.mem_map_of_mem RowSt.rid hx)
        constructor
        · rw [hmap]; exact hinv.ids_nodup
        · intro x hx
          rcases mem_set_cases hx with rfl | h2
          · exact hinv.ids_pos r hmem
          · exact hinv.ids_pos x h2
        · intro x hx
          rcases mem_set_cases hx with rfl | h2
          · exact hinv.ids_le r hmem
          · exact hinv.ids_le x h2
        · exact hinv.maxId_nonneg
        · rw [hmapoff]
          simpa [List.length_set] using hinv.off_perm
        · intro b n
          constructor
          · intro hbn
            rcases mem_idxAdd.1 hbn with heqk | ⟨hmem2, hne⟩
            · refine ⟨{ r with dirty := v }, ?_, ?_, ?_⟩
              · exact hperm.mem_iff.2 (List.mem_cons_self _ _)
              · simpa using congrArg Prod.snd heqk.symm
              · simpa using congrArg Prod.fst heqk.symm
            · obtain ⟨hD, hne2⟩ := mem_idxDel.1 hmem2
              obtain ⟨x, hxmem, hxid, hxd⟩ := (hinv.dirty_iff b n).1 hD
              have hxer : x ∈ t.rows.eraseIdx i := by
                rcases List.mem_cons.1 (hperm0.mem_iff.1 hxmem) with h2 | h2
                · exfalso
                  apply hne2
                  subst h2
                  rw [← hxd, ← hxid]
                · exact h2
              refine ⟨x, hperm.mem_iff.2 (List.mem_cons_of_mem _ hxer), hxid, hxd⟩
          · rintro ⟨x, hxmem, hxid, hxd⟩
            rcases List.mem_cons.1 (hperm.mem_iff.1 hxmem) with h2 | h2
            · subst h2
              apply mem_idxAdd.2
              left
              have hb : v = b := hxd
              have hn : r.rid = n := hxid
              rw [← hb, ← hn]
            · have hxrows : x ∈ t.rows := hperm0.mem_iff.2 (List.mem_cons_of_mem _ h2)
              have hD : (b, n) ∈ t.dirtyIdx :=
                (hinv.dirty_iff b n).2 ⟨x, hxrows, hxid, hxd⟩
              apply mem_idxAdd.2
              right
              have hnner : n ≠ r.rid := by
                rw [← hxid]
                exact hnotin x h2
              refine ⟨mem_idxDel.2 ⟨hD, ?_⟩, ?_⟩
              · intro hc
                exact hnner (congrArg Prod.snd hc)
              · intro hc
                exact hnner (congrArg Prod.snd hc)

theorem castRange_succ (n : Nat) :
    castRange (n + 1) = castRange n ++ [(n : Int)] := by
  unfold castRange
  rw [List.range_succ, List.map_append]
  rfl

theorem foldl_max_perm {l l' : List Int} (h : l.Perm l') (a : Int) :
    l.foldl max a = l'.foldl max a := by
  haveI : RightCommutative (fun (m x : Int) => max m x) :=
    ⟨fun b a c => by rw [max_assoc, max_comm a c, ← max_assoc]⟩
  exact h.foldl_eq a

theorem foldl_max_castRange (n : Nat) :
    (castRange n).foldl max (-1) = (n : Int) - 1 := by
  induction n with
  | zero => simp [castRange]
  | succ n ih =>
      rw [castRange_succ, List.foldl_append]
      simp only [List.foldl_cons, List.foldl_nil, ih]
      have : ((n : Int) - 1) ≤ (n : Int) := by omega
      rw [max_eq_right this]
      push_cast
      ring

theorem maxOffset_foldl (rows : List RowSt) :
    maxOffset rows = (rows.map RowSt.off).foldl max (-1) := by
  unfold maxOffset
  rw [List.foldl_map]

/-- With dense offsets, `max(_offset)` is `n - 1`. -/
theorem maxOffset_eq {t : TableSt} (hinv : Inv0 t) :
    maxOffset t.rows = (t.rows.length : Int) - 1 := by
  rw [maxOffset_foldl, foldl_max_perm hinv.off_perm]
  exact foldl_max_castRange t.rows.length

/-- Each offset of a dense table is in `[0, n)`. -/
theorem off_mem_bound {t : TableSt} (hinv : Inv0 t) {r : RowSt}
    (hr : r ∈ t.rows) : 0 ≤ r.off ∧ r.off < (t.rows.length : Int) := by
  have hmem : r.off ∈ t.rows.map RowSt.off := List.mem_map_of_mem _ hr
  have hmem2 : r.off ∈ castRange t.rows.length := hinv.off_perm.mem_iff.1 hmem
  unfold castRange at hmem2
  obtain ⟨k, hk, hke⟩ := List.mem_map.1 hmem2
  have hklt := List.mem_range.1 hk
  rw [← hke, Int.ofNat_eq_natCast]
  constructor
  · exact Int.natCast_nonneg k
  · exact_mod_cast hklt

/-- Replacing a row by one with the same id, offset and flag keeps the
invariant. -/
theorem inv0_replaceRow {t : TableSt} (hinv : Inv0 t) {i : Nat} {r r' : RowSt}
    (hro : t.rows[i]? = some r) (hrid : r'.rid = r.rid) (hoff : r'.off = r.off)
    (hdirty : r'.dirty = r.dirty) :
    Inv0 { t with rows := t.rows.set i r' } := by
  have hi : i < t.rows.length := getElem?_some_lt hro
  have hmem : r ∈ t.rows := List.getElem?_mem hro
  have hmap : (t.rows.set i r').map RowSt.rid = t.rows.map RowSt.rid := by
    rw [List.map_set, hrid]
    exact set_getElem_self (by rw [List.getElem?_map, hro]; rfl)
  have hmapoff : (t.rows.set i r').map RowSt.off = t.rows.map RowSt.off := by
    rw [List.map_set, hoff]
    exact set_getElem_self (by rw [List.getElem?_map, hro]; rfl)
  have hgete : t.rows[i] = r := by
    have h2 := List.getElem?_eq_getElem hi
    rw [hro] at h2
    exact (Option.some_inj.1 h2).symm
  have hperm : (t.rows.set i r').Perm (r' :: t.rows.eraseIdx i) :=
    perm_set_cons_eraseIdx _ _ _ hi
  have hperm0 : t.rows.Perm (r :: t.rows.eraseIdx i) := by
    have h2 := perm_getElem_cons_eraseIdx t.rows i hi
    rwa [hgete] at h2
  constructor
  · rw [hmap]; exact hinv.ids_nodup
  · intro x hx
    rcases mem_set_cases hx with rfl | h2
    · rw [hrid]; exact hinv.ids_pos r hmem
    · exact hinv.ids_pos x h2
  · intro x hx
    rcases mem_set_cases hx with rfl | h2
    · rw [hrid]; exact hinv.ids_le r hmem
    · exact hinv.ids_le x h2
  · exact hinv.maxId_nonneg
  · rw [hmapoff]
    simpa [List.length_set] using hinv.off_perm
  · intro b n
    rw [show ({ t with rows := t.rows.set i r' } : TableSt).dirtyIdx = t.dirtyIdx
      from rfl]
    rw [hinv.dirty_iff b n]
    constructor
    · rintro ⟨x, hxmem, hxid, hxd⟩
      rcases List.mem_cons.1 (hperm0.mem_iff.1 hxmem) with h2 | h2
      · subst h2
        exact ⟨r', hperm.mem_iff.2 (List.mem_cons_self _ _),
          by rw [hrid]; exact hxid, by rw [hdirty]; exact hxd⟩
      · exact ⟨x, hperm.mem_iff.2 (List.mem_cons_of_mem _ h2), hxid, hxd⟩
    · rintro ⟨x, hxmem, hxid, hxd⟩
      rcases List.mem_cons.1 (hperm.mem_iff.1 hxmem) with h2 | h2
      · subst h2
        exact ⟨r, hmem, by rw [← hrid]; exact hxid, by rw [← hdirty]; exact hxd⟩
      · exact ⟨x, hperm0.mem_iff.2 (List.mem_cons_of_mem _ h2), hxid, hxd⟩

theorem maxOffRow_aux (l : List RowSt) :
    ∀ a : RowSt,
      ∃ m, l.foldl
          (fun acc r =>
            match acc with
            | none => some r
            | some m =>
                if m.off < r.off ∨ (m.off = r.off ∧ m.rid < r.rid) then some r
                else some m)
          (some a) = some m ∧
        (m = a ∨ m ∈ l) ∧ a.off ≤ m.off ∧ ∀ x ∈ l, x.off ≤ m.off := by
  induction l with
  | nil =>
      intro a
      exact ⟨a, rfl, Or.inl rfl, le_refl _, by intro x hx; cases hx⟩
  | cons r l ih =>
      intro a
      simp only [List.foldl_cons]
      by_cases hc : a.off < r.off ∨ (a.off = r.off ∧ a.rid < r.rid)
      · rw [if_pos hc]
        obtain ⟨m, heq, hmem, hle, hall⟩ := ih r
        refine ⟨m, heq, ?_, ?_, ?_⟩
        · rcases hmem with rfl | h
          · exact Or.inr (List.mem_cons_self _ _)
          · exact Or.inr (List.mem_cons_of_mem _ h)
        · rcases hc with h | ⟨h, _⟩
          · exact le_trans (le_of_lt h) hle
          · exact le_trans (le_of_eq h) hle
        · intro x hx
          rcases List.mem_cons.1 hx with rfl | h
          · exact hle
          · exact hall x h
      · rw [if_neg hc]
        obtain ⟨m, heq, hmem, hle, hall⟩ := ih a
        have hroff : r.off ≤ a.off := by
          push_neg at hc
          rcases lt_trichotomy r.off a.off with h | h | h
          · exact le_of_lt h
          · exact le_of_eq h
          · exact absurd h (by intro h2; exact absurd h2 (by simp [hc.1]))
        refine ⟨m, heq, ?_, hle, ?_⟩
        · rcases hmem with rfl | h
          · exact Or.inl rfl
          · exact Or.inr (List.mem_cons_of_mem _ h)
        · intro x hx
          rcases List.mem_cons.1 hx with rfl | h
          · exact le_trans hroff hle
          · exact hall x h

theorem maxOffRow_spec {l : List RowSt} {m : RowSt} (h : maxOffRow l = some m) :
    m ∈ l ∧ ∀ x ∈ l, x.off ≤ m.off := by
  cases l with
  | nil => cases h
  | cons r l =>
      unfold maxOffRow at h
      rw [List.foldl_cons] at h
      obtain ⟨m', heq, hmem, hle, hall⟩ := maxOffRow_aux l r
      rw [show (match (none : Option RowSt) with
        | none => some r
        | some m =>
            if m.off < r.off ∨ (m.off = r.off ∧ m.rid < r.rid) then some r
            else some m) = some r from rfl] at h
      rw [heq] at h
      cases Option.some_inj.1 h
      refine ⟨?_, ?_⟩
      · rcases hmem with rfl | h2
        · exact List.mem_cons_self _ _
        · exact List.mem_cons_of_mem _ h2
      · intro x hx
        rcases List.mem_cons.1 hx with rfl | h2
        · exact hle
        · exact hall x h2

theorem maxOffRow_none_iff {l : List RowSt} : maxOffRow l = none ↔ l = [] := by
  constructor
  · intro h
    cases l with
    | nil => rfl
    | cons r l =>
        exfalso
        unfold maxOffRow at h
        rw [List.foldl_cons] at h
        obtain ⟨m', heq, _, _, _⟩ := maxOffRow_aux l r
        rw [show (match (none : Option RowSt) with
          | none => some r
          | some m =>
              if m.off < r.off ∨ (m.off = r.off ∧ m.rid < r.rid) then some r
              else some m) = some r from rfl] at h
        rw [heq] at h
        cases h
  · rintro rfl
    rfl

theorem inv0_stepCreate (user : List Col) {s : St} (hinv : Inv0 s.table) :
    Inv0 (stepCreate user s).table := by
  unfold stepCreate
  apply inv0_setDirtyFlag
  have hfresh : ∀ r ∈ s.table.rows, r.rid ≠ s.table.maxId + 1 := by
    intro r hr hc
    have := hinv.ids_le r hr
    omega
  constructor
  · rw [List.map_append]
    show (List.map RowSt.rid s.table.rows ++ [s.table.maxId + 1]).Nodup
    have hperm : (s.table.rows.map RowSt.rid ++ [s.table.maxId + 1]).Perm
        ((s.table.maxId + 1) :: s.table.rows.map RowSt.rid) :=
      List.perm_append_singleton _ _
    rw [hperm.nodup_iff]
    rw [List.nodup_cons]
    refine ⟨?_, hinv.ids_nodup⟩
    intro hc
    obtain ⟨r, hr, hre⟩ := List.mem_map.1 hc
    exact hfresh r hr hre
  · intro r hr
    rcases List.mem_append.1 hr with h | h
    · exact hinv.ids_pos r h
    · rcases List.mem_singleton.1 h with rfl
      show 1 ≤ s.table.maxId + 1
      have := hinv.maxId_nonneg
      omega
  · intro r hr
    rcases List.mem_append.1 hr with h | h
    · show r.rid ≤ s.table.maxId + 1
      have := hinv.ids_le r h
      omega
    · rcases List.mem_singleton.1 h with rfl
      show s.table.maxId + 1 ≤ s.table.maxId + 1
      exact le_refl _
  · show (0 : Int) ≤ s.table.maxId + 1
    have := hinv.maxId_nonneg
    omega
  · rw [List.map_append, List.length_append]
    simp only [List.length_singleton, List.map_cons, List.map_nil]
    rw [castRange_succ]
    apply List.Perm.append hinv.off_perm
    show [maxOffset s.table.rows + 1].Perm [(s.table.rows.length : Int)]
    have he : maxOffset s.table.rows + 1 = (s.table.rows.length : Int) := by
      rw [maxOffset_eq hinv]
      omega
    rw [he]
  · intro b n
    constructor
    · intro hbn
      rcases mem_idxAdd.1 hbn with heqk | ⟨hD, hne⟩
      · refine ⟨_, List.mem_append.2 (Or.inr (List.mem_singleton_self _)), ?_, ?_⟩
        · exact (congrArg Prod.snd heqk).symm
        · exact (congrArg Prod.fst heqk).symm
      · obtain ⟨x, hx, hxid, hxd⟩ := (hinv.dirty_iff b n).1 hD
        exact ⟨x, List.mem_append.2 (Or.inl hx), hxid, hxd⟩
    · rintro ⟨x, hx, hxid, hxd⟩
      rcases List.mem_append.1 hx with h | h
      · apply mem_idxAdd.2
        right
        refine ⟨(hinv.dirty_iff b n).2 ⟨x, h, hxid, hxd⟩, ?_⟩
        intro hc
        have hn := congrArg Prod.snd hc
        simp only [] at hn
        exact hfresh x h (by rw [hxid]; exact hn)
      · rcases List.mem_singleton.1 h with rfl
        apply mem_idxAdd.2
        left
        have hb : (false : Bool) = b := hxd
        have hn : s.table.maxId + 1 = n := hxid
        rw [← hb, ← hn]

theorem inv0_commitSet {s : St} (hinv : Inv0 s.table) (i c : Nat) (f : FVal) :
    Inv0 (commitSet s i c f).table := by
  unfold commitSet
  split
  · exact hinv
  next r heq =>
    exact inv0_setDirtyFlag
      (@inv0_replaceRow s.table hinv i r
        { r with fields := r.fields.set c f } heq rfl rfl rfl) i true

/-- Every branch of a setter either raises before mutating or commits
one field update followed by the dirty flag. -/
theorem stepSet_table_cases (user : List Col) (s : St) (i c : Nat) (v : SetV) :
    (stepSet user s i c v).1.table = s.table ∨
    ∃ s' f, (stepSet user s i c v).1 = commitSet s' i c f ∧
      s'.table = s.table := by
  unfold stepSet
  dsimp only
  repeat' split
  all_goals first
    | exact Or.inl rfl
    | exact Or.inr ⟨_, _, rfl, rfl⟩

theorem inv0_stepSet (user : List Col) {s : St} (hinv : Inv0 s.table)
    (i c : Nat) (v : SetV) : Inv0 (stepSet user s i c v).1.table := by
  rcases stepSet_table_cases user s i c v with h | ⟨s', f, heq, ht⟩
  · rw [h]; exact hinv
  · rw [heq]
    exact inv0_commitSet (ht ▸ hinv) _ _ _

theorem eraseIdx_rid_ne {t : TableSt} (hinv : Inv0 t) {i : Nat} {r : RowSt}
    (hro : t.rows[i]? = some r) :
    ∀ x ∈ t.rows.eraseIdx i, x.rid ≠ r.rid := by
  have hi : i < t.rows.length := getElem?_some_lt hro
  have hgete : t.rows[i] = r := by
    have h2 := List.getElem?_eq_getElem hi
    rw [hro] at h2
    exact (Option.some_inj.1 h2).symm
  have hperm0 : t.rows.Perm (r :: t.rows.eraseIdx i) := by
    have h2 := perm_getElem_cons_eraseIdx t.rows i hi
    rwa [hgete] at h2
  intro x hx hc
  have hnd : (t.rows.map RowSt.rid).Nodup := hinv.ids_nodup
  have hpermmap : (t.rows.map RowSt.rid).Perm
      (r.rid :: (t.rows.eraseIdx i).map RowSt.rid) := by
    simpa using hperm0.map RowSt.rid
  have hnd2 := hpermmap.nodup_iff.1 hnd
  exact (List.nodup_cons.1 hnd2).1 (hc ▸ List.mem_map_of_mem RowSt.rid hx)

theorem erase_dirty_iff {t : TableSt} (hinv : Inv0 t) {i : Nat} {r : RowSt}
    (hro : t.rows[i]? = some r) :
    ∀ (b : Bool) (k : Int),
      (b, k) ∈ idxDel (r.dirty, r.rid) t.dirtyIdx ↔
        ∃ x ∈ t.rows.eraseIdx i, x.rid = k ∧ x.dirty = b := by
  have hi : i < t.rows.length := getElem?_some_lt hro
  have hgete : t.rows[i] = r := by
    have h2 := List.getElem?_eq_getElem hi
    rw [hro] at h2
    exact (Option.some_inj.1 h2).symm
  have hperm0 : t.rows.Perm (r :: t.rows.eraseIdx i) := by
    have h2 := perm_getElem_cons_eraseIdx t.rows i hi
    rwa [hgete] at h2
  have hnotin := eraseIdx_rid_ne hinv hro
  intro b k
  rw [mem_idxDel, hinv.dirty_iff b k]
  constructor
  · rintro ⟨⟨x, hx, hxid, hxd⟩, hne⟩
    rcases List.mem_cons.1 (hperm0.mem_iff.1 hx) with h2 | h2
    · exfalso
      apply hne
      subst h2
      rw [← hxd, ← hxid]
    · exact ⟨x, h2, hxid, hxd⟩
  · rintro ⟨x, hx, hxid, hxd⟩
    refine ⟨⟨x, hperm0.mem_iff.2 (List.mem_cons_of_mem _ hx), hxid, hxd⟩, ?_⟩
    intro hc
    have hk := congrArg Prod.snd hc
    simp only [] at hk
    exact hnotin x hx (by rw [hxid]; exact hk)

theorem inv0_stepDestroy {s : St} (hinv : Inv0 s.table) (i : Nat) :
    Inv0 (stepDestroy s i).1.table := by
  unfold stepDestroy
  split
  · exact hinv
  next r heq =>
    have hi : i < s.table.rows.length := getElem?_some_lt heq
    have hgete : s.table.rows[i] = r := by
      have h2 := List.getElem?_eq_getElem hi
      rw [heq] at h2
      exact (Option.some_inj.1 h2).symm
    have hperm0 : s.table.rows.Perm (r :: s.table.rows.eraseIdx i) := by
      have h2 := perm_getElem_cons_eraseIdx s.table.rows i hi
      rwa [hgete] at h2
    have hlen : (s.table.rows.eraseIdx i).length = s.table.rows.length - 1 := by
      rw [List.length_eraseIdx, if_pos hi]
    have hcons : (r.off :: (s.table.rows.eraseIdx i).map RowSt.off).Perm
        (castRange s.table.rows.length) := by
      have h2 : (s.table.rows.map RowSt.off).Perm
          (r.off :: (s.table.rows.eraseIdx i).map RowSt.off) := by
        simpa using hperm0.map RowSt.off
      exact h2.symm.trans hinv.off_perm
    have hsub : List.Sublist (s.table.rows.eraseIdx i) s.table.rows :=
      List.eraseIdx_sublist _ _
    have hnodup1 : ((s.table.rows.eraseIdx i).map RowSt.rid).Nodup :=
      hinv.ids_nodup.sublist (hsub.map _)
    have hdirty1 := erase_dirty_iff hinv heq
    obtain ⟨k, hk⟩ : ∃ k, s.table.rows.length = k + 1 :=
      ⟨s.table.rows.length - 1, by omega⟩
    have hwit : ∃ y ∈ s.table.rows, y.off = (k : Int) := by
      have hmm : ((k : Int)) ∈ castRange s.table.rows.length := by
        rw [hk]
        unfold castRange
        refine List.mem_map.2 ⟨k, List.mem_range.2 (by omega), ?_⟩
        rfl
      have := hinv.off_perm.mem_iff.2 hmm
      obtain ⟨y, hy, hye⟩ := List.mem_map.1 this
      exact ⟨y, hy, hye⟩
    dsimp only
    split
    next hnone =>
      have he : s.table.rows.eraseIdx i = [] := maxOffRow_none_iff.1 hnone
      refine ⟨?_, ?_, ?_, hinv.maxId_nonneg, ?_, ?_⟩
      · simp [he]
      · simp [he]
      · simp [he]
      · simp [he, castRange]
      · intro b n
        simpa [he] using hdirty1 b n
    next m hsome =>
      have hmemm : m ∈ s.table.rows.eraseIdx i := (maxOffRow_spec hsome).1
      have hmax := (maxOffRow_spec hsome).2
      have hmR : m ∈ s.table.rows := hsub.mem hmemm
      have hbm := off_mem_bound hinv hmR
      have hbr := off_mem_bound hinv (List.getElem?_mem heq)
      split
      next hlt =>
        -- the tail row is relocated into the freed slot
        dsimp only
        apply inv0_setDirtyFlag
        have hmoff : m.off = (k : Int) := by
          obtain ⟨y, hy, hye⟩ := hwit
          rcases List.mem_cons.1 (hperm0.mem_iff.1 hy) with h2 | h2
          · exfalso
            subst h2
            have := off_mem_bound hinv hmR
            rw [hk] at this
            omega
          · have h3 := hmax y h2
            have := off_mem_bound hinv hmR
            rw [hk] at this
            omega
        have hjlt : (s.table.rows.eraseIdx i).findIdx (fun x => x == m) <
            (s.table.rows.eraseIdx i).length :=
          List.findIdx_lt_length_of_exists ⟨m, hmemm, by simp⟩
        have hgetj : (s.table.rows.eraseIdx i)[(s.table.rows.eraseIdx i).findIdx
            (fun x => x == m)] = m := by
          have := @List.findIdx_get _ (fun x => x == m)
            (s.table.rows.eraseIdx i) hjlt
          exact eq_of_beq this
        have hgetj? : (s.table.rows.eraseIdx i)[(s.table.rows.eraseIdx i).findIdx
            (fun x => x == m)]? = some m := by
          rw [List.getElem?_eq_getElem hjlt, hgetj]
        have hpermset : ((s.table.rows.eraseIdx i).set
            ((s.table.rows.eraseIdx i).findIdx (fun x => x == m))
            { m with off := r.off }).Perm
            ({ m with off := r.off } :: (s.table.rows.eraseIdx i).eraseIdx
              ((s.table.rows.eraseIdx i).findIdx (fun x => x == m))) :=
          perm_set_cons_eraseIdx _ _ _ hjlt
        have hpermE : (s.table.rows.eraseIdx i).Perm
            (m :: (s.table.rows.eraseIdx i).eraseIdx
              ((s.table.rows.eraseIdx i).findIdx (fun x => x == m))) := by
          have h2 := perm_getElem_cons_eraseIdx (s.table.rows.eraseIdx i)
            ((s.table.rows.eraseIdx i).findIdx (fun x => x == m)) hjlt
          rwa [hgetj] at h2
        have hoffgoal : (r.off :: ((s.table.rows.eraseIdx i).eraseIdx
            ((s.table.rows.eraseIdx i).findIdx (fun x => x == m))).map
              RowSt.off).Perm (castRange k) := by
          have hEperm : ((s.table.rows.eraseIdx i).map RowSt.off).Perm
              ((k : Int) :: ((s.table.rows.eraseIdx i).eraseIdx
                ((s.table.rows.eraseIdx i).findIdx (fun x => x == m))).map
                  RowSt.off) := by
            have h2 := hpermE.map RowSt.off
            simpa [hmoff] using h2
          have hchain : ((k : Int) :: r.off :: ((s.table.rows.eraseIdx i).eraseIdx
              ((s.table.rows.eraseIdx i).findIdx (fun x => x == m))).map
                RowSt.off).Perm ((k : Int) :: castRange k) := by
            have hstep1 : (r.off :: (s.table.rows.eraseIdx i).map RowSt.off).Perm
                (r.off :: (k : Int) :: ((s.table.rows.eraseIdx i).eraseIdx
                  ((s.table.rows.eraseIdx i).findIdx (fun x => x == m))).map
                    RowSt.off) := hEperm.cons r.off
            have hstep2 := (List.Perm.swap (α := Int) _ _ _).trans
              (hstep1.symm.trans hcons)
            have hstep3 : (castRange s.table.rows.length).Perm
                ((k : Int) :: castRange k) := by
              rw [hk, castRange_succ]
              exact List.perm_append_singleton _ _
            exact hstep2.trans hstep3
          exact hchain.cons_inv
        constructor
        · rw [List.map_set]
          have : ((s.table.rows.eraseIdx i).map RowSt.rid).set
              ((s.table.rows.eraseIdx i).findIdx (fun x => x == m)) m.rid =
              (s.table.rows.eraseIdx i).map RowSt.rid :=
            set_getElem_self (by rw [List.getElem?_map, hgetj?]; rfl)
          rw [show ({ m with off := r.off } : RowSt).rid = m.rid from rfl, this]
          exact hnodup1
        · intro x hx
          rcases mem_set_cases hx with rfl | h2
          · exact hinv.ids_pos m hmR
          · exact hinv.ids_pos x (hsub.mem h2)
        · intro x hx
          rcases mem_set_cases hx with rfl | h2
          · exact hinv.ids_le m hmR
          · exact hinv.ids_le x (hsub.mem h2)
        · exact hinv.maxId_nonneg
        · have hlen2 : (((s.table.rows.eraseIdx i).set
              ((s.table.rows.eraseIdx i).findIdx (fun x => x == m))
              { m with off := r.off })).length = k := by
            rw [List.length_set, hlen, hk]
            omega
          rw [hlen2]
          have h2 := hpermset.map RowSt.off
          simp only [List.map_cons] at h2
          exact h2.trans hoffgoal
        · intro b n
          constructor
          · intro hmem2
            obtain ⟨x, hx, hxid, hxd⟩ := (hdirty1 b n).1 hmem2
            rcases List.mem_cons.1 (hpermE.mem_iff.1 hx) with h2 | h2
            · subst h2
              exact ⟨{ x with off := r.off },
                hpermset.mem_iff.2 (List.mem_cons_self _ _), hxid, hxd⟩
            · exact ⟨x, hpermset.mem_iff.2 (List.mem_cons_of_mem _ h2), hxid, hxd⟩
          · rintro ⟨x, hx, hxid, hxd⟩
            apply (hdirty1 b n).2
            rcases List.mem_cons.1 (hpermset.mem_iff.1 hx) with h2 | h2
            · subst h2
              exact ⟨m, hmemm, hxid, hxd⟩
            · exact ⟨x, hpermE.mem_iff.2 (List.mem_cons_of_mem _ h2), hxid, hxd⟩
      next hnlt =>
        -- the destroyed row already held the greatest offset
        have hroff : r.off = (k : Int) := by
          obtain ⟨y, hy, hye⟩ := hwit
          rcases List.mem_cons.1 (hperm0.mem_iff.1 hy) with h2 | h2
          · rw [← h2]; exact hye
          · have h3 := hmax y h2
            have h4 := off_mem_bound hinv (List.getElem?_mem heq)
            rw [hk] at h4
            omega
        refine ⟨hnodup1, ?_, ?_, hinv.maxId_nonneg, ?_, ?_⟩
        · intro x hx
          exact hinv.ids_pos x (hsub.mem hx)
        · intro x hx
          exact hinv.ids_le x (hsub.mem hx)
        · rw [hlen, hk]
          have hstep3 : (castRange s.table.rows.length).Perm
              ((k : Int) :: castRange k) := by
            rw [hk, castRange_succ]
            exact List.perm_append_singleton _ _
          have h2 := hcons.trans hstep3
          rw [hroff] at h2
          simpa using h2.cons_inv
        · intro b n
          exact hdirty1 b n

theorem inv0_foldSetDirty (l : List Nat) :
    ∀ t : TableSt, Inv0 t →
      Inv0 (l.foldl (fun t i => setDirtyFlag t i false) t) := by
  induction l with
  | nil => intro t h; exact h
  | cons i l ih =>
      intro t h
      rw [List.foldl_cons]
      exact ih _ (inv0_setDirtyFlag h i false)

theorem inv0_clearAllDirty {t : TableSt} (hinv : Inv0 t) :
    Inv0 (clearAllDirty t) :=
  inv0_foldSetDirty _ t hinv

theorem inv0_saveAll (user : List Col) {s : St} (hinv : Inv0 s.table) :
    Inv0 (saveAll user s).table := by
  unfold saveAll
  dsimp only
  have h := inv0_clearAllDirty hinv
  exact ⟨h.ids_nodup, h.ids_pos, h.ids_le, h.maxId_nonneg, h.off_perm,
    h.dirty_iff⟩

theorem inv0_writeDirty (user : List Col) (ids : List Int) :
    ∀ (s : St) (recs : List Rec), Inv0 s.table →
      Inv0 (writeDirty user ids s recs).1.table := by
  induction ids with
  | nil => intro s recs h; exact h
  | cons id rest ih =>
      intro s recs h
      unfold writeDirty
      split
      · exact ih s recs h
      · split
        · exact ih s recs h
        · exact ih _ _ (inv0_setDirtyFlag h _ false)

theorem inv0_stepSave (user : List Col) {s : St} (hinv : Inv0 s.table) :
    Inv0 (stepSave user s).table := by
  unfold stepSave
  split
  · exact inv0_saveAll user hinv
  · split
    · exact inv0_saveAll user hinv
    · dsimp only
      exact inv0_writeDirty user _ s _ hinv

theorem inv0_stepOp (user : List Col) {s : St} (hinv : Inv0 s.table)
    (op : MOp) : Inv0 (stepOp user s op).1.table := by
  cases op with
  | mCreate => exact inv0_stepCreate user hinv
  | mSet i c v => exact inv0_stepSet user hinv i c v
  | mDestroy i => exact inv0_stepDestroy hinv i
  | mSave => exact inv0_stepSave user hinv

/-- The invariant holds after any session of public operations. -/
theorem inv0_runOps (user : List Col) (ops : List MOp) :
    ∀ s : St, Inv0 s.table → Inv0 (runOps user s ops).table := by
  induction ops with
  | nil => intro s h; exact h
  | cons op rest ih =>
      intro s h
      unfold runOps
      exact ih _ (inv0_stepOp user h op)

theorem setDirtyFlag_length (t : TableSt) (i : Nat) (v : Bool) :
    (setDirtyFlag t i v).rows.length = t.rows.length := by
  unfold setDirtyFlag
  split
  · rfl
  · split
    · rfl
    · exact List.length_set _ _ _

theorem setDirtyFlag_map_rid (t : TableSt) (i : Nat) (v : Bool) :
    (setDirtyFlag t i v).rows.map RowSt.rid = t.rows.map RowSt.rid := by
  unfold setDirtyFlag
  split
  · rfl
  next r heq =>
    split
    · rfl
    · dsimp only
      rw [List.map_set]
      exact set_getElem_self (by rw [List.getElem?_map, heq]; rfl)

theorem setDirtyFlag_getElem (t : TableSt) (i : Nat) (v : Bool) (j : Nat) :
    (setDirtyFlag t i v).rows[j]? =
      if j = i then (t.rows[i]?).map (fun r => { r with dirty := v })
      else t.rows[j]? := by
  unfold setDirtyFlag
  cases heq : t.rows[i]? with
  | none =>
      dsimp only
      by_cases hj : j = i
      · subst hj; rw [if_pos rfl, heq]; rfl
      · rw [if_neg hj]
  | some r =>
      dsimp only
      by_cases hv : v = r.dirty
      · rw [if_pos hv]
        by_cases hj : j = i
        · subst hj
          rw [if_pos rfl, heq, hv]
          rfl
        · rw [if_neg hj]
      · rw [if_neg hv]
        dsimp only
        by_cases hj : j = i
        · subst hj
          rw [if_pos rfl,
            List.getElem?_set_eq_of_lt _ (getElem?_some_lt heq)]
          rfl
        · rw [if_neg hj]
          exact List.getElem?_set_ne (fun h => hj h.symm)

theorem foldSetDirty_getElem (l : List Nat) :
    ∀ (t : TableSt) (j : Nat),
      (l.foldl (fun t i => setDirtyFlag t i false) t).rows[j]? =
        if j ∈ l then (t.rows[j]?).map (fun r => { r with dirty := false })
        else t.rows[j]? := by
  induction l with
  | nil => intro t j; simp
  | cons i l ih =>
      intro t j
      rw [List.foldl_cons, ih]
      by_cases hjl : j ∈ l
      · rw [if_pos hjl, if_pos (List.mem_cons_of_mem _ hjl),
          setDirtyFlag_getElem]
        by_cases hj : j = i
        · subst hj
          rw [if_pos rfl]
          cases t.rows[j]? <;> rfl
        · rw [if_neg hj]
      · rw [if_neg hjl, setDirtyFlag_getElem]
        by_cases hj : j = i
        · subst hj
          rw [if_pos rfl, if_pos (List.mem_cons_self _ _)]
        · rw [if_neg hj, if_neg (by
            intro hc
            rcases List.mem_cons.1 hc with h | h
            · exact hj h
            · exact hjl h)]

/-- `save_all` leaves every row clean. -/
theorem clearAllDirty_clean (t : TableSt) :
    ∀ r ∈ (clearAllDirty t).rows, r.dirty = false := by
  intro r hr
  obtain ⟨j, hj, hget⟩ := List.mem_iff_getElem.1 hr
  have hget2 : (clearAllDirty t).rows[j]? = some r := by
    rw [List.getElem?_eq_getElem hj, hget]
  unfold clearAllDirty at hget2
  rw [foldSetDirty_getElem] at hget2
  by_cases hjr : j ∈ List.range t.rows.length
  · rw [if_pos hjr] at hget2
    cases hre : t.rows[j]? with
    | none => rw [hre] at hget2; cases hget2
    | some r0 =>
        rw [hre] at hget2
        have : ({ r0 with dirty := false } : RowSt) = r :=
          Option.some_inj.1 hget2
        rw [← this]
  · rw [if_neg hjr] at hget2
    have hnone : t.rows[j]? = none := by
      apply List.getElem?_eq_none
      by_contra hc
      exact hjr (List.mem_range.2 (by omega))
    rw [hnone] at hget2
    cases hget2

/-- The element found by `findIdx?` satisfies the predicate. -/
theorem findIdx?_spec {β : Type} {p : β → Bool} {l : List β} {j : Nat}
    (h : l.findIdx? p = some j) : ∃ x, l[j]? = some x ∧ p x = true := by
  obtain ⟨hlt, hfind⟩ := List.findIdx?_eq_some_iff_findIdx_eq.1 h
  refine ⟨l.get ⟨j, hlt⟩, List.getElem?_eq_getElem hlt, ?_⟩
  subst hfind
  exact List.findIdx_getElem

/-- Distinct positions hold rows with distinct ids when the id list has
no duplicates. -/
theorem rid_ne_of_index_ne {rows : List RowSt}
    (hnd : (rows.map RowSt.rid).Nodup) {i j : Nat} {r r' : RowSt}
    (hi : rows[i]? = some r) (hj : rows[j]? = some r') (hij : i ≠ j) :
    r.rid ≠ r'.rid := by
  intro hc
  have hi' := getElem?_some_lt hi
  have hj' := getElem?_some_lt hj
  have hi2 : i < (rows.map RowSt.rid).length := by simpa using hi'
  have hj2 : j < (rows.map RowSt.rid).length := by simpa using hj'
  have hri : rows[i] = r := by
    have h0 := List.getElem?_eq_getElem hi'
    rw [hi] at h0
    exact (Option.some_inj.1 h0).symm
  have hrj : rows[j] = r' := by
    have h0 := List.getElem?_eq_getElem hj'
    rw [hj] at h0
    exact (Option.some_inj.1 h0).symm
  have hmm : (rows.map RowSt.rid)[i] = (rows.map RowSt.rid)[j] := by
    rw [List.getElem_map, List.getElem_map, hri, hrj, hc]
  exact hij (hnd.getElem_inj_iff.1 hmm)

/-- The write loop of the incremental save clears the dirty flag of
exactly the listed rows and moves nothing. -/
theorem writeDirty_getElem (user : List Col) (ids : List Int) :
    ∀ (s : St) (recs : List Rec), (s.table.rows.map RowSt.rid).Nodup →
      ∀ j : Nat, (writeDirty user ids s recs).1.table.rows[j]? =
        (s.table.rows[j]?).map
          (fun r => if r.rid ∈ ids then { r with dirty := false } else r) := by
  induction ids with
  | nil =>
      intro s recs hnd j
      unfold writeDirty
      cases s.table.rows[j]? <;> simp
  | cons id rest ih =>
      intro s recs hnd j
      unfold writeDirty
      cases hfi : s.table.rows.findIdx? (fun r => r.rid == id) with
      | none =>
          dsimp only
          rw [ih s recs hnd j]
          have hno := List.findIdx?_eq_none_iff.1 hfi
          cases hj : s.table.rows[j]? with
          | none => rfl
          | some r =>
              have hr : r ∈ s.table.rows := List.getElem?_mem hj
              have hne : ¬ (r.rid = id) := by simpa using hno r hr
              simp [List.mem_cons, hne]
      | some jd =>
          dsimp only
          obtain ⟨r0, hjd, hp⟩ := findIdx?_spec hfi
          have hrid : r0.rid = id := by simpa using hp
          rw [hjd]
          dsimp only
          have hnd1 : ((setDirtyFlag s.table jd false).rows.map
              RowSt.rid).Nodup := by
            rw [setDirtyFlag_map_rid]; exact hnd
          rw [ih _ _ hnd1 j]
          rw [setDirtyFlag_getElem]
          by_cases hjjd : j = jd
          · subst hjjd
            rw [if_pos rfl, hjd]
            by_cases hmem : r0.rid ∈ rest <;>
              simp [hmem, hrid, List.mem_cons]
          · rw [if_neg hjjd]
            cases hrj : s.table.rows[j]? with
            | none => rfl
            | some r =>
                have hne : r.rid ≠ r0.rid :=
                  rid_ne_of_index_ne hnd hrj hjd hjjd
                have hne' : ¬ (r.rid = id) := by rw [← hrid]; exact hne
                by_cases hmem : r.rid ∈ rest <;>
                  simp [hmem, hne', List.mem_cons]

/-- Membership in the dirty-id listing agrees with the dirty index. -/
theorem dirtyIds_mem {t : TableSt} {n : Int} :
    n ∈ dirtyIds t ↔ (true, n) ∈ t.dirtyIdx := by
  unfold dirtyIds
  rw [(List.perm_insertionSort _ _).mem_iff]
  simp only [List.mem_map, List.mem_filter]
  constructor
  · rintro ⟨⟨b, m⟩, ⟨hmem, hb⟩, hm⟩
    dsimp only at hb hm
    subst hm
    cases b with
    | false => cases hb
    | true => exact hmem
  · intro h
    exact ⟨(true, n), ⟨h, rfl⟩, rfl⟩

/-- `Table.save` leaves every row clean, on both the full-rewrite and
the incremental path. -/
theorem stepSave_clears (user : List Col) {s : St} (hinv : Inv0 s.table) :
    ∀ r ∈ (stepSave user s).table.rows, r.dirty = false := by
  unfold stepSave
  split
  · exact fun r hr => clearAllDirty_clean s.table r hr
  · split
    · exact fun r hr => clearAllDirty_clean s.table r hr
    · next sch recs heq =>
      dsimp only
      intro r hr
      obtain ⟨j, hjlt, hget⟩ := List.mem_iff_getElem.1 hr
      have hget2 : (writeDirty user (dirtyIds s.table)
          s recs).1.table.rows[j]? = some r := by
        rw [List.getElem?_eq_getElem hjlt, hget]
      rw [writeDirty_getElem user (dirtyIds s.table) s recs
        hinv.ids_nodup j] at hget2
      cases hr0 : s.table.rows[j]? with
      | none => rw [hr0] at hget2; cases hget2
      | some r0 =>
          rw [hr0, Option.map_some'] at hget2
          by_cases hmem : r0.rid ∈ dirtyIds s.table
          · rw [if_pos hmem] at hget2
            rw [← Option.some_inj.1 hget2]
          · rw [if_neg hmem] at hget2
            have hr0r : r0 = r := Option.some_inj.1 hget2
            subst hr0r
            by_contra hd
            have hd' : r0.dirty = true := by
              cases hdd : r0.dirty
              · exact absurd hdd hd
              · rfl
            have hmem2 : (true, r0.rid) ∈ s.table.dirtyIdx :=
              (hinv.dirty_iff true r0.rid).2
                ⟨r0, List.getElem?_mem hr0, rfl, hd'⟩
            exact hmem (dirtyIds_mem.2 hmem2)

/-- Sessions compose. -/
theorem runOps_append (user : List Col) (l1 l2 : List MOp) :
    ∀ s : St, runOps user s (l1 ++ l2) =
      runOps user (runOps user s l1) l2 := by
  induction l1 with
  | nil => intro s; rfl
  | cons op rest ih =>
      intro s
      show runOps user (stepOp user s op).1 (rest ++ l2) =
        runOps user (runOps user (stepOp user s op).1 rest) l2
      exact ih _

/-- Marking row `j` dirty keeps it in the row list with the flag set. -/
theorem setDirtyFlag_mem_of_getElem {t : TableSt} {j : Nat} {x : RowSt}
    (h : t.rows[j]? = some x) :
    { x with dirty := true } ∈ (setDirtyFlag t j true).rows := by
  have h2 := setDirtyFlag_getElem t j true j
  rw [if_pos rfl, h, Option.map_some'] at h2
  exact List.getElem?_mem h2

/-- `Row.destroy` relocation: when the surviving row of maximal offset
sits past the freed slot, the destroyed state holds a row with its id,
the freed offset, and the dirty flag set. -/
theorem stepDestroy_reloc {s : St} {i : Nat} {r m : RowSt}
    (hi : s.table.rows[i]? = some r)
    (hm : maxOffRow (s.table.rows.eraseIdx i) = some m)
    (hlt : r.off < m.off) :
    ∃ r' ∈ (stepDestroy s i).1.table.rows,
      r'.rid = m.rid ∧ r'.off = r.off ∧ r'.dirty = true := by
  unfold stepDestroy
  rw [hi]
  dsimp only
  rw [hm]
  dsimp only
  rw [if_pos hlt]
  dsimp only
  have hmem1 : m ∈ s.table.rows.eraseIdx i := (maxOffRow_spec hm).1
  have hjlt : (s.table.rows.eraseIdx i).findIdx (fun x => x == m) <
      (s.table.rows.eraseIdx i).length :=
    List.findIdx_lt_length_of_exists ⟨m, hmem1, beq_self_eq_true m⟩
  refine ⟨{ { m with off := r.off } with dirty := true }, ?_, rfl, rfl, rfl⟩
  apply setDirtyFlag_mem_of_getElem
  exact List.getElem?_set_eq_of_lt _ (by simpa using hjlt)

/-! ### The claims -/

/-- C1: for every table and conjunction of equality and range
predicates over its columns, the set of rows yielded by
`where(P1, …, Pk)` is exactly the set of live rows satisfying every
predicate — whatever index the planner picks from the table's catalog,
the retained early-termination checks never halt the scan before a
matching row has been yielded. -/
theorem claim_C1 {α ρ : Type} [LinearOrder α] (val : ρ → String → α)
    (user : List (List String)) (rows : List ρ)
    (comparisons : List (Pred α)) (r : ρ) :
    r ∈ whereQ val (tableIndices user) rows comparisons ↔
      r ∈ rows ∧ ∀ p ∈ comparisons, pmatch val p r = true := by
  obtain ⟨idx, hfi⟩ : ∃ idx, find_index (tableIndices user)
      ((comparisons.filter (fun p => p.isEq)).map Pred.name)
      ((comparisons.filter (fun p => !p.isEq)).map Pred.name) = some idx :=
    ⟨_, find_index_cons _ _ _ _⟩
  exact whereQ_sound val _ rows comparisons idx hfi r

/-- C8: `find_index` scores each catalog index by the prefix walk (an
equality key adds one and continues, a comparison key adds one and
stops, any other key stops), and returns the first index of maximal
strength in declaration order; on a table catalog the result is never
`none` thanks to the leading `(id)` index. -/
theorem claim_C8 (user : List (List String)) (eqks cmpks : List String) :
    (∀ k ks, k ∈ eqks →
      strength eqks cmpks (k :: ks) = strength eqks cmpks ks + 1) ∧
    (∀ k ks, k ∉ eqks → k ∈ cmpks → strength eqks cmpks (k :: ks) = 1) ∧
    (∀ k ks, k ∉ eqks → k ∉ cmpks → strength eqks cmpks (k :: ks) = 0) ∧
    find_index (tableIndices user) eqks cmpks =
      firstBestIdx eqks cmpks (tableIndices user) ∧
    ∃ b, find_index (tableIndices user) eqks cmpks = some b ∧
      ∀ j ∈ tableIndices user,
        strength eqks cmpks j.keys ≤ strength eqks cmpks b.keys := by
  refine ⟨?_, ?_, ?_, ?_, ?_⟩
  · intro k ks hk
    simp [strength, hk]
  · intro k ks hk1 hk2
    simp [strength, hk1, hk2]
  · intro k ks hk1 hk2
    simp [strength, hk1, hk2]
  · exact find_index_eq_firstBest eqks cmpks _ _
  · have h1 := find_index_cons eqks cmpks (⟨["id"]⟩ : Idx)
      (⟨["_offset", "id"]⟩ :: ⟨["_dirty", "id"]⟩ ::
        user.map (fun ks => (⟨ks ++ ["id"]⟩ : Idx)))
    have h2 := find_index_eq_firstBest eqks cmpks (⟨["id"]⟩ : Idx)
      (⟨["_offset", "id"]⟩ :: ⟨["_dirty", "id"]⟩ ::
        user.map (fun ks => (⟨ks ++ ["id"]⟩ : Idx)))
    exact ⟨_, h1, firstBest_maximal eqks cmpks _ _ (h2.symm.trans h1)⟩

theorem claim_C8_witness :
    strength ["a"] ["b"] ("a" :: ["b"]) = strength ["a"] ["b"] ["b"] + 1 ∧
    strength ["a"] ["b"] ("b" :: []) = 1 ∧
    strength ["a"] ["b"] ("c" :: []) = 0 ∧
    ∃ b, find_index (tableIndices [["a"]]) ["a"] ["b"] = some b ∧
      ∀ j ∈ tableIndices [["a"]],
        strength ["a"] ["b"] j.keys ≤ strength ["a"] ["b"] b.keys := by
  obtain ⟨h1, h2, h3, _, h5⟩ := claim_C8 [["a"]] ["a"] ["b"]
  exact ⟨h1 "a" ["b"] (by decide), h2 "b" [] (by decide) (by decide),
    h3 "c" [] (by decide) (by decide), h5⟩

/-- C9: between public operations the dirty index holds a key
`(b, id)` exactly when a live row with that id has `_dirty = b`, and
after a `save()` no row of the table is dirty. -/
theorem claim_C9 (user : List Col) (ops : List MOp) :
    (∀ (b : Bool) (n : Int),
      (b, n) ∈ (runOps user emptySt ops).table.dirtyIdx ↔
        ∃ r ∈ (runOps user emptySt ops).table.rows,
          r.rid = n ∧ r.dirty = b) ∧
    (∀ r ∈ (runOps user emptySt (ops ++ [MOp.mSave])).table.rows,
      r.dirty = false) := by
  have hinv := inv0_runOps user ops emptySt inv0_empty
  refine ⟨hinv.dirty_iff, ?_⟩
  rw [runOps_append]
  exact fun r hr => stepSave_clears user hinv r hr

/-- C4: after any operation sequence the live offsets are exactly
`{0, …, n-1}`, and a destroy relocates the surviving row of maximal
offset into the freed slot (marked dirty) whenever its offset exceeds
the destroyed row's offset. -/
theorem claim_C4 (user : List Col) (ops : List MOp) :
    (((runOps user emptySt ops).table.rows.map RowSt.off).Perm
      (castRange (runOps user emptySt ops).table.rows.length)) ∧
    (∀ (s : St) (i : Nat) (r m : RowSt),
      s.table.rows[i]? = some r →
      maxOffRow (s.table.rows.eraseIdx i) = some m →
      r.off < m.off →
      ∃ r' ∈ (stepDestroy s i).1.table.rows,
        r'.rid = m.rid ∧ r'.off = r.off ∧ r'.dirty = true) :=
  ⟨(inv0_runOps user ops emptySt inv0_empty).off_perm,
    fun _ _ _ _ hi hm hlt => stepDestroy_reloc hi hm hlt⟩

theorem claim_C4_witness :
    ((runOps [] emptySt [MOp.mCreate, MOp.mCreate]).table.rows.map
      RowSt.off).Perm
      (castRange (runOps [] emptySt
        [MOp.mCreate, MOp.mCreate]).table.rows.length) ∧
    ∃ r' ∈ (stepDestroy
        { table :=
            { rows := [{ rid := 1, off := 0, dirty := false, fields := [] },
                       { rid := 2, off := 1, dirty := false, fields := [] }],
              maxId := 2, dirtyIdx := [(false, 1), (false, 2)],
              fullDump := false },
          disk := { tbl := none, sidecars := [] } } 0).1.table.rows,
      r'.rid = 2 ∧ r'.off = 0 ∧ r'.dirty = true := by
  refine ⟨(claim_C4 [] [MOp.mCreate, MOp.mCreate]).1, ?_⟩
  exact (claim_C4 [] []).2 _ 0
    { rid := 1, off := 0, dirty := false, fields := [] }
    { rid := 2, off := 1, dirty := false, fields := [] }
    (by decide) (by decide) (by decide)

/-- C10: `where()` with no predicates yields every live row exactly
once, sorted by the `(id)` index, hence in strictly increasing id
order when the row ids are distinct. -/
theorem claim_C10 {α ρ : Type} [LinearOrder α] (val : ρ → String → α)
    (user : List (List String)) (rows : List ρ)
    (hnd : rows.Nodup)
    (hinj : ∀ a ∈ rows, ∀ b ∈ rows, val a "id" = val b "id" → a = b) :
    (whereQ val (tableIndices user) rows []).Perm rows ∧
    (whereQ val (tableIndices user) rows []).Pairwise
      (fun a b => val a "id" < val b "id") := by
  rw [whereQ_nil]
  haveI : IsTotal ρ (fun a b => keyTup val ["id"] a ≤ keyTup val ["id"] b) :=
    ⟨fun a b => le_total _ _⟩
  haveI : IsTrans ρ (fun a b => keyTup val ["id"] a ≤ keyTup val ["id"] b) :=
    ⟨fun a b c hab hbc => le_trans hab hbc⟩
  have hperm := List.perm_insertionSort
    (fun a b => keyTup val ["id"] a ≤ keyTup val ["id"] b) rows
  refine ⟨hperm, ?_⟩
  have hsorted := List.sorted_insertionSort
    (fun a b => keyTup val ["id"] a ≤ keyTup val ["id"] b) rows
  have hnd2 : (rows.insertionSort
      (fun a b => keyTup val ["id"] a ≤ keyTup val ["id"] b)).Nodup :=
    hperm.nodup_iff.2 hnd
  have hcomb := List.Pairwise.and hsorted hnd2
  refine hcomb.imp_of_mem ?_
  intro a b ha hb hab
  obtain ⟨hle, hne⟩ := hab
  have hle2 : val a "id" ≤ val b "id" := by
    have : ([val a "id"] : List α) ≤ [val b "id"] := by
      simpa [keyTup] using hle
    exact list_le_head this
  rcases lt_or_eq_of_le hle2 with hlt | heqv
  · exact hlt
  · exact absurd (hinj a (hperm.mem_iff.1 ha) b (hperm.mem_iff.1 hb) heqv)
      hne

theorem claim_C10_witness :
    (whereQ (fun (r : Int) (_ : String) => r)
      (tableIndices []) [2, 1] []).Perm [2, 1] ∧
    (whereQ (fun (r : Int) (_ : String) => r)
      (tableIndices []) [2, 1] []).Pairwise (fun a b => a < b) :=
  claim_C10 (fun (r : Int) (_ : String) => r) [] [2, 1] (by decide)
    (fun a _ b _ h => h)

/-- C6: setting an inline bytes-backed column to an oversized payload
raises `valueTooLarge` and returns the state untouched — no struct
write, no index traffic, no dirty flag. -/
theorem claim_C6 (user : List Col) (s : St) (i c : Nat) (r : RowSt)
    (col : Col) (p : Bytes)
    (hr : s.table.rows[i]? = some r) (hc : user[c]? = some col) :
    (∀ n, col.kind = Kind.kStr n → p.length > n →
      stepSet user s i c (SetV.sPay (some p)) =
        (s, some (Err.valueTooLarge p.length n))) ∧
    (∀ n dflt, col.kind = Kind.kPickle n dflt → p.length > n →
      stepSet user s i c (SetV.sPay (some p)) =
        (s, some (Err.valueTooLarge p.length n))) := by
  constructor
  · intro n hk hlen
    unfold stepSet
    rw [hr, hc]
    dsimp only
    rw [hk]
    dsimp only
    simp only [Option.getD_some]
    rw [if_pos hlen]
  · intro n dflt hk hlen
    unfold stepSet
    rw [hr, hc]
    dsimp only
    rw [hk]
    dsimp only
    rw [if_pos hlen]

/-- A one-row, one-column table state used to exhibit concrete runs. -/
def stC6 : St :=
  { table :=
      { rows := [{ rid := 1, off := 0, dirty := false,
                   fields := [FVal.fStr (some []) []] }],
        maxId := 1, dirtyIdx := [(false, 1)], fullDump := false },
    disk := { tbl := none, sidecars := [] } }

theorem claim_C6_witness :
    stepSet [⟨"s", Kind.kStr 4⟩] stC6 0 0
      (SetV.sPay (some [104, 101, 108, 108, 111])) =
      (stC6, some (Err.valueTooLarge 5 4)) :=
  (claim_C6 [⟨"s", Kind.kStr 4⟩] stC6 0 0
    { rid := 1, off := 0, dirty := false,
      fields := [FVal.fStr (some []) []] }
    ⟨"s", Kind.kStr 4⟩ [104, 101, 108, 108, 111] (by rfl) (by rfl)).1 4 rfl
    (by decide)

/-- C7 counterexample: with a single `String(1)` column the ctypes
record occupies 12 bytes (the nested struct is padded to a multiple of
4), while the claimed footprint sum is 9. -/
theorem claim_C7_counterexample :
    recordSize [⟨"s", Kind.kStr 1⟩] ≠ claimedRecordSize [⟨"s", Kind.kStr 1⟩] := by
  decide

/-- C7 (amended): the record size is the sum of the columns' padded
footprints — each inline bytes-backed struct rounded up to a multiple
of 4 — whenever no `Bool` column is declared, and is always at least
the plain footprint sum the specification claims. -/
theorem claim_C7 (user : List Col) :
    claimedRecordSize user ≤ recordSize user ∧
    ((∀ c ∈ fullCols user, c.kind.isBool = false) →
      recordSize user = paddedRecordSize user) :=
  recordSize_facts user

theorem claim_C7_witness :
    claimedRecordSize [⟨"s", Kind.kStr 1⟩] ≤ recordSize [⟨"s", Kind.kStr 1⟩] ∧
    recordSize [⟨"s", Kind.kStr 1⟩] = paddedRecordSize [⟨"s", Kind.kStr 1⟩] :=
  ⟨(claim_C7 [⟨"s", Kind.kStr 1⟩]).1,
    (claim_C7 [⟨"s", Kind.kStr 1⟩]).2 (by decide)⟩

/-- The declared columns of the migrated table of the C5 scenario. -/
def userC5 : List Col := [⟨"a", Kind.kInt⟩, ⟨"b", Kind.kInt⟩]

/-- An on-disk table written under the old one-column schema, holding
a single record with id 5. -/
def dC5 : Disk :=
  { tbl := some ([⟨"id", Kind.kInt⟩, ⟨"a", Kind.kInt⟩],
      [[RVal.rInt 5, RVal.rInt 7]]),
    sidecars := [] }

/-- C5: `import_data` returns before `Table.load` reaches the
`max_id` update, so after a migration the id counter stays at the
count of migrated rows; the next creation hands out id 2 even though
a live row with id 5 exists, breaking monotonicity (and, after more
creations, uniqueness) of row ids.  The scenario has no `Foreign`
column, so the outcome is the same for every resolution environment. -/
theorem claim_C5 (fres : String → Int → Bool) :
    (loadTable fres userC5 dC5).2 = none ∧
    (loadTable fres userC5 dC5).1.table.rows.map RowSt.rid = [5] ∧
    (loadTable fres userC5 dC5).1.table.maxId = 1 ∧
    (stepCreate userC5 (loadTable fres userC5 dC5).1).table.rows.map
      RowSt.rid = [5, 2] := by
  refine ⟨rfl, rfl, rfl, rfl⟩

/-- The one-column table of the C2 scenario. -/
def userC2 : List Col := [⟨"p", Kind.kStr 8⟩]

/-- Create a row, then set its `String(8)` column to `None`. -/
def opsC2 : List MOp := [MOp.mCreate, MOp.mSet 0 0 (SetV.sPay none)]

/-- A migration-time resolution environment in which no foreign lookup
succeeds: every stored id is dangling, or the referenced table's rows
have not been loaded yet.  (Irrelevant to scenarios that never reach
`import_data` or declare no `Foreign` column.) -/
def noForeignHit : String → Int → Bool := fun _ _ => false

/-- C2 counterexample: a `String` column set to `None` is observed as
`None` before the save but as the empty string after save and reload —
the struct stores the encoded empty payload and the reload decodes it
as a present value. -/
theorem claim_C2_counterexample :
    observeTable ((loadTable noForeignHit userC2
        (stepSave userC2 (runOps userC2 emptySt opsC2)).disk).1.table) ≠
      observeTable ((runOps userC2 emptySt opsC2).table) := by
  decide

/-! ### Save/load roundtrip for concrete columns (claim C2) -/

/-- Mutations whose cached value survives a save/reload: the
bytes-backed kinds normalise `None` to the empty payload on disk (and
an inline pickle of the empty payload decodes to the column default),
so those payloads are excluded; every other setter argument is fine.
Destroys and saves are outside the scope of the roundtrip claim. -/
def mutOk (user : List Col) : MOp → Bool
  | .mCreate => true
  | .mSave => false
  | .mDestroy _ => false
  | .mSet _ c v =>
      match user[c]? with
      | none => true
      | some col =>
          match col.kind, v with
          | .kStr _, .sPay p => !(p == none)
          | .kPickle _ _, .sPay p => !(p == some [])
          | .kStrBlob, .sPay p => !(p == none)
          | .kPickleBlob _, .sPay p => !(p == none) && !(p == some [])
          | _, _ => true

/-- Well-formedness of one field slot against its column: the cache
attribute is the decode of the stored content (struct payload or
sidecar file). -/
def FieldWf (sc : List ((String × Int) × Bytes)) (off : Int) (c : Col)
    (f : FVal) : Prop :=
  match c.kind, f with
  | .kInt, .fInt _ => True
  | .kForeign, .fInt _ => True
  | .kBool, .fBool _ => True
  | .kStr _, .fStr cache stored => cache = some stored
  | .kPickle _ dflt, .fPickle cache stored =>
      cache = if stored = [] then dflt else some stored
  | .kStrBlob, .fStrBlob cache =>
      cache = some ((scGet sc (c.name, off)).getD [])
  | .kPickleBlob dflt, .fPickleBlob cache =>
      cache = (match scGet sc (c.name, off) with
        | none => dflt
        | some [] => dflt
        | some b => some b)
  | _, _ => False

/-- Reloading a well-formed field from its dumped struct content (at
the same offset and sidecar state) restores it exactly. -/
theorem loadField_dumpField {sc : List ((String × Int) × Bytes)}
    {off : Int} {c : Col} {f : FVal} (h : FieldWf sc off c f) :
    loadField sc off c (dumpField f) = f := by
  obtain ⟨nm, k⟩ := c
  cases k <;> cases f <;>
    simp_all [FieldWf, loadField, dumpField]

/-- A freshly initialised column slot is well formed. -/
theorem fieldWf_load_zero (sc : List ((String × Int) × Bytes)) (off : Int)
    (c : Col) : FieldWf sc off c (loadField sc off c (zeroEntry c)) := by
  obtain ⟨nm, k⟩ := c
  cases k <;> simp [FieldWf, loadField, zeroEntry]

/-- Field well-formedness only reads the sidecar entry of the field's
own column and offset. -/
theorem fieldWf_scIrrel {sc sc' : List ((String × Int) × Bytes)}
    {off : Int} {c : Col} {f : FVal}
    (hsc : scGet sc' (c.name, off) = scGet sc (c.name, off))
    (h : FieldWf sc off c f) : FieldWf sc' off c f := by
  obtain ⟨nm, k⟩ := c
  cases k <;> cases f <;> simp_all [FieldWf]

theorem scGet_scPut_eq (sc : List ((String × Int) × Bytes))
    (k : String × Int) (v : Bytes) : scGet (scPut sc k v) k = some v := by
  unfold scGet scPut
  rw [List.find?_cons_of_pos _ (by simp)]
  rfl

theorem scGet_scPut_ne (sc : List ((String × Int) × Bytes))
    {k k' : String × Int} (v : Bytes) (h : k' ≠ k) :
    scGet (scPut sc k v) k' = scGet sc k' := by
  unfold scGet scPut
  rw [List.find?_cons_of_neg _ (by simp [Ne.symm h])]
  induction sc with
  | nil => rfl
  | cons e sc ih =>
      rw [List.filter_cons]
      by_cases hek : e.1 = k
      · rw [if_neg (by simp [hek])]
        rw [List.find?_cons_of_neg sc (by simp [hek, Ne.symm h])]
        exact ih
      · rw [if_pos (by simp [hek])]
        by_cases he : e.1 = k'
        · rw [List.find?_cons_of_pos
              (List.filter (fun e => !(e.1 == k)) sc) (by simp [he]),
            List.find?_cons_of_pos sc (by simp [he])]
        · rw [List.find?_cons_of_neg
              (List.filter (fun e => !(e.1 == k)) sc) (by simp [he]),
            List.find?_cons_of_neg sc (by simp [he])]
          exact ih

/-- Positions of a duplicate-free projection are determined by the
projected value. -/
theorem getElem?_inj_of_nodup_map {β γ : Type} (g : β → γ) {l : List β}
    (hnd : (l.map g).Nodup) {i j : Nat} {x y : β}
    (hi : l[i]? = some x) (hj : l[j]? = some y) (hg : g x = g y) :
    i = j := by
  by_contra hij
  have hi' := getElem?_some_lt hi
  have hj' := getElem?_some_lt hj
  have hi2 : i < (l.map g).length := by simpa using hi'
  have hj2 : j < (l.map g).length := by simpa using hj'
  have hxi : l[i] = x := by
    have h0 := List.getElem?_eq_getElem hi'
    rw [hi] at h0
    exact (Option.some_inj.1 h0).symm
  have hyj : l[j] = y := by
    have h0 := List.getElem?_eq_getElem hj'
    rw [hj] at h0
    exact (Option.some_inj.1 h0).symm
  have hmm : (l.map g)[i] = (l.map g)[j] := by
    rw [List.getElem_map, List.getElem_map, hxi, hyj, hg]
  exact hij (hnd.getElem_inj_iff.1 hmm)

/-- The live offsets are pairwise distinct. -/
theorem offs_nodup {t : TableSt} (hinv : Inv0 t) :
    (t.rows.map RowSt.off).Nodup := by
  have hc : (castRange t.rows.length).Nodup := by
    unfold castRange
    exact (List.nodup_range _).map (fun a b h => Int.ofNat.inj h)
  exact hinv.off_perm.nodup_iff.2 hc

/-- The induction invariant of the roundtrip claim: the base row
manager invariant, no table file yet written, and every row holding
one well-formed slot per declared column. -/
structure InvC2 (user : List Col) (s : St) : Prop where
  base : Inv0 s.table
  tbl_none : s.disk.tbl = none
  fields_len : ∀ r ∈ s.table.rows, r.fields.length = user.length
  wf : ∀ r ∈ s.table.rows, ∀ (j : Nat) (c : Col) (f : FVal),
    user[j]? = some c → r.fields[j]? = some f →
    FieldWf s.disk.sidecars r.off c f

theorem invC2_empty (user : List Col) : InvC2 user emptySt := by
  refine ⟨inv0_empty, rfl, ?_, ?_⟩ <;> intro r hr <;> cases hr

/-- A row of the dirty-setter output comes from a row of the input
with the same id, offset and fields. -/
theorem setDirtyFlag_mem_src {t : TableSt} {i : Nat} {v : Bool} {r' : RowSt}
    (h : r' ∈ (setDirtyFlag t i v).rows) :
    ∃ r ∈ t.rows, r'.rid = r.rid ∧ r'.off = r.off ∧ r'.fields = r.fields := by
  unfold setDirtyFlag at h
  cases heq : t.rows[i]? with
  | none =>
      rw [heq] at h
      exact ⟨r', h, rfl, rfl, rfl⟩
  | some r =>
      rw [heq] at h
      dsimp only at h
      by_cases hv : v = r.dirty
      · rw [if_pos hv] at h
        exact ⟨r', h, rfl, rfl, rfl⟩
      · rw [if_neg hv] at h
        dsimp only at h
        rcases mem_set_cases h with rfl | hmem
        · exact ⟨r, List.getElem?_mem heq, rfl, rfl, rfl⟩
        · exact ⟨r', hmem, rfl, rfl, rfl⟩

/-- Row creation preserves the roundtrip invariant. -/
theorem invC2_stepCreate (user : List Col) {s : St} (h : InvC2 user s) :
    InvC2 user (stepCreate user s) := by
  refine ⟨inv0_stepCreate user h.base, h.tbl_none, ?_, ?_⟩
  · intro r' hr'
    unfold stepCreate at hr'
    dsimp only at hr'
    obtain ⟨r0, hr0, _, _, hfields⟩ := setDirtyFlag_mem_src hr'
    rw [hfields]
    rcases List.mem_append.1 hr0 with h1 | h2
    · exact h.fields_len r0 h1
    · rcases List.mem_singleton.1 h2 with rfl
      simp
  · intro r' hr' j c f hc hf
    unfold stepCreate at hr' ⊢
    dsimp only at hr' ⊢
    obtain ⟨r0, hr0, _, hoff, hfields⟩ := setDirtyFlag_mem_src hr'
    rw [hfields] at hf
    rw [hoff]
    rcases List.mem_append.1 hr0 with h1 | h2
    · exact h.wf r0 h1 j c f hc hf
    · rcases List.mem_singleton.1 h2 with rfl
      dsimp only at hf
      rw [List.getElem?_map, hc, Option.map_some'] at hf
      cases Option.some_inj.1 hf
      exact fieldWf_load_zero _ _ _

/-- Writing one well-formed slot of one row (then dirtying the row)
keeps every slot well formed, provided all slots not at the written
position are already well formed under the new sidecar state. -/
theorem wf_set_field {user : List Col} {sc' : List ((String × Int) × Bytes)}
    {t : TableSt} (hnd : (t.rows.map RowSt.off).Nodup)
    (hlen : ∀ r ∈ t.rows, r.fields.length = user.length)
    {i c : Nat} {col : Col} {r : RowSt}
    (hr : t.rows[i]? = some r) (hc : user[c]? = some col)
    {f : FVal} (hnew : FieldWf sc' r.off col f)
    (hold : ∀ r' ∈ t.rows, ∀ (j' : Nat) (c' : Col) (f' : FVal),
      user[j']? = some c' → r'.fields[j']? = some f' →
      ¬(r'.off = r.off ∧ j' = c) → FieldWf sc' r'.off c' f') :
    ∀ r' ∈ (setDirtyFlag
        { t with rows := t.rows.set i { r with fields := r.fields.set c f } }
        i true).rows,
      ∀ (j' : Nat) (c' : Col) (f' : FVal),
        user[j']? = some c' → r'.fields[j']? = some f' →
        FieldWf sc' r'.off c' f' := by
  intro r' hr' j' c' f' hc' hf'
  obtain ⟨idx, hidxlt, hidxe⟩ := List.mem_iff_getElem.1 hr'
  have hidx : (setDirtyFlag
      { t with rows := t.rows.set i { r with fields := r.fields.set c f } }
      i true).rows[idx]? = some r' := by
    rw [List.getElem?_eq_getElem hidxlt, hidxe]
  rw [setDirtyFlag_getElem] at hidx
  have hilt : i < t.rows.length := getElem?_some_lt hr
  by_cases hii : idx = i
  · subst hii
    rw [if_pos rfl] at hidx
    dsimp only at hidx
    rw [List.getElem?_set_eq_of_lt _ hilt, Option.map_some'] at hidx
    cases Option.some_inj.1 hidx
    dsimp only at hf' ⊢
    by_cases hjc : j' = c
    · subst hjc
      have hclt : j' < r.fields.length := by
        rw [hlen r (List.getElem?_mem hr)]
        exact getElem?_some_lt hc
      rw [List.getElem?_set_eq_of_lt _ hclt] at hf'
      cases Option.some_inj.1 hf'
      have hcc : col = c' := Option.some_inj.1 (hc.symm.trans hc')
      rw [← hcc]
      exact hnew
    · rw [List.getElem?_set_ne (fun hcj => hjc hcj.symm)] at hf'
      exact hold r (List.getElem?_mem hr) j' c' f' hc' hf'
        (fun hcon => hjc hcon.2)
  · rw [if_neg hii] at hidx
    dsimp only at hidx
    rw [List.getElem?_set_ne (fun hij => hii hij.symm)] at hidx
    have hne : r'.off ≠ r.off := by
      intro hoo
      exact hii (getElem?_inj_of_nodup_map RowSt.off hnd hidx hr hoo)
    exact hold r' (List.getElem?_mem hidx) j' c' f' hc' hf'
      (fun hcon => hne hcon.1)

/-- Committing a well-formed value into one slot (after any sidecar
replacement preserving all other slots) preserves the invariant. -/
theorem invC2_commitSet_generic (user : List Col) {s : St}
    (h : InvC2 user s) (sc' : List ((String × Int) × Bytes))
    {i c : Nat} {col : Col} {r : RowSt}
    (hr : s.table.rows[i]? = some r) (hc : user[c]? = some col)
    {f : FVal} (hnew : FieldWf sc' r.off col f)
    (hold : ∀ r' ∈ s.table.rows, ∀ (j' : Nat) (c' : Col) (f' : FVal),
      user[j']? = some c' → r'.fields[j']? = some f' →
      ¬(r'.off = r.off ∧ j' = c) → FieldWf sc' r'.off c' f') :
    InvC2 user
      (commitSet { s with disk := { s.disk with sidecars := sc' } } i c f) := by
  have hcs : commitSet { s with disk :=
        { s.disk with sidecars := sc' } } i c f =
      { table := setDirtyFlag
          { s.table with rows :=
              (s.table.rows.set i { r with fields := r.fields.set c f }) }
          i true,
        disk := { s.disk with sidecars := sc' } } := by
    unfold commitSet
    dsimp only
    rw [hr]
  have hbase : Inv0 (commitSet { s with disk :=
      { s.disk with sidecars := sc' } } i c f).table :=
    @inv0_commitSet { s with disk := { s.disk with sidecars := sc' } }
      h.base i c f
  refine ⟨hbase, ?_, ?_, ?_⟩
  · rw [hcs]
    exact h.tbl_none
  · rw [hcs]
    intro r' hr'
    obtain ⟨r0, hr0, _, _, hfields⟩ := setDirtyFlag_mem_src hr'
    rw [hfields]
    rcases mem_set_cases hr0 with rfl | hmem
    · dsimp only
      rw [List.length_set]
      exact h.fields_len r (List.getElem?_mem hr)
    · exact h.fields_len r0 hmem
  · rw [hcs]
    exact wf_set_field (offs_nodup h.base) h.fields_len hr hc hnew hold

/-- A roundtrip-safe column set preserves the invariant. -/
theorem invC2_stepSet (user : List Col)
    (hnames : (user.map Col.name).Nodup) {s : St} (h : InvC2 user s)
    (i c : Nat) (v : SetV) (hop : mutOk user (MOp.mSet i c v) = true) :
    InvC2 user (stepSet user s i c v).1 := by
  unfold stepSet
  cases hr : s.table.rows[i]? with
  | none => cases hcc : user[c]? <;> exact h
  | some r =>
      cases hcc : user[c]? with
      | none => exact h
      | some col =>
          unfold mutOk at hop
          dsimp only at hop
          rw [hcc] at hop
          obtain ⟨nm, k⟩ := col
          have holdid : ∀ r' ∈ s.table.rows,
              ∀ (j' : Nat) (c' : Col) (f' : FVal),
              user[j']? = some c' → r'.fields[j']? = some f' →
              ¬(r'.off = r.off ∧ j' = c) →
              FieldWf s.disk.sidecars r'.off c' f' :=
            fun r' hr' j' c' f' hc' hf' _ => h.wf r' hr' j' c' f' hc' hf'
          have holdput : ∀ (w : Bytes), ∀ r' ∈ s.table.rows,
              ∀ (j' : Nat) (c' : Col) (f' : FVal),
              user[j']? = some c' → r'.fields[j']? = some f' →
              ¬(r'.off = r.off ∧ j' = c) →
              FieldWf (scPut s.disk.sidecars (nm, r.off) w) r'.off c' f' := by
            intro w r' hr' j' c' f' hc' hf' hcon
            refine fieldWf_scIrrel ?_ (h.wf r' hr' j' c' f' hc' hf')
            refine scGet_scPut_ne _ _ ?_
            intro hkey
            have hn : c'.name = nm := congrArg Prod.fst hkey
            have ho : r'.off = r.off := congrArg Prod.snd hkey
            exact hcon ⟨ho,
              getElem?_inj_of_nodup_map Col.name hnames hc' hcc hn⟩
          cases k with
          | kInt =>
              cases v with
              | sInt w =>
                  exact invC2_commitSet_generic user h s.disk.sidecars hr hcc
                    True.intro holdid
              | sBool b => exact h
              | sPay p => exact h
          | kForeign =>
              cases v with
              | sInt w =>
                  exact invC2_commitSet_generic user h s.disk.sidecars hr hcc
                    True.intro holdid
              | sBool b => exact h
              | sPay p => exact h
          | kBool =>
              cases v with
              | sInt w => exact h
              | sBool b =>
                  exact invC2_commitSet_generic user h s.disk.sidecars hr hcc
                    True.intro holdid
              | sPay p => exact h
          | kStr n =>
              cases v with
              | sInt w => exact h
              | sBool b => exact h
              | sPay p =>
                  cases p with
                  | none => simp at hop
                  | some b =>
                      dsimp only
                      split
                      · exact h
                      · exact invC2_commitSet_generic user h s.disk.sidecars
                          hr hcc rfl holdid
          | kPickle n dflt =>
              cases v with
              | sInt w => exact h
              | sBool b => exact h
              | sPay p =>
                  cases p with
                  | none => exact h
                  | some o =>
                      have ho : o ≠ [] := by
                        intro he
                        subst he
                        simp at hop
                      dsimp only
                      split
                      · exact h
                      · exact invC2_commitSet_generic user h s.disk.sidecars
                          hr hcc
                          (by
                            show (some o : Option Bytes) =
                              if o = [] then dflt else some o
                            rw [if_neg ho])
                          holdid
          | kStrBlob =>
              cases v with
              | sInt w => exact h
              | sBool b => exact h
              | sPay p =>
                  cases p with
                  | none => simp at hop
                  | some b =>
                      dsimp only
                      exact invC2_commitSet_generic user h
                        (scPut s.disk.sidecars (nm, r.off) b) hr hcc
                        (by
                          show (some b : Option Bytes) = some
                            ((scGet (scPut s.disk.sidecars (nm, r.off) b)
                              (nm, r.off)).getD [])
                          rw [scGet_scPut_eq]
                          rfl)
                        (holdput b)
          | kPickleBlob dflt =>
              cases v with
              | sInt w => exact h
              | sBool b => exact h
              | sPay p =>
                  cases p with
                  | none => simp at hop
                  | some o =>
                      have ho : o ≠ [] := by
                        intro he
                        subst he
                        simp at hop
                      dsimp only
                      exact invC2_commitSet_generic user h
                        (scPut s.disk.sidecars (nm, r.off) o) hr hcc
                        (by
                          show (some o : Option Bytes) =
                            (match scGet (scPut s.disk.sidecars (nm, r.off) o)
                                (nm, r.off) with
                              | none => dflt
                              | some [] => dflt
                              | some b => some b)
                          rw [scGet_scPut_eq]
                          cases o with
                          | nil => exact absurd rfl ho
                          | cons a as => rfl)
                        (holdput o)

theorem invC2_stepOp (user : List Col) (hnames : (user.map Col.name).Nodup)
    {s : St} (h : InvC2 user s) (op : MOp) (hop : mutOk user op = true) :
    InvC2 user (stepOp user s op).1 := by
  cases op with
  | mCreate => exact invC2_stepCreate user h
  | mSet i c v => exact invC2_stepSet user hnames h i c v hop
  | mDestroy i => simp [mutOk] at hop
  | mSave => simp [mutOk] at hop

theorem invC2_runOps (user : List Col) (hnames : (user.map Col.name).Nodup)
    (ops : List MOp) :
    ∀ s : St, InvC2 user s → (∀ op ∈ ops, mutOk user op = true) →
      InvC2 user (runOps user s ops) := by
  induction ops with
  | nil =>
      intro s h _
      exact h
  | cons op rest ih =>
      intro s h hops
      exact ih _
        (invC2_stepOp user hnames h op (hops op (List.mem_cons_self _ _)))
        (fun o ho => hops o (List.mem_cons_of_mem _ ho))

instance : IsTotal RowSt offLe :=
  ⟨fun a b => by
    unfold offLe
    rcases lt_trichotomy a.off b.off with h | h | h
    · exact Or.inl (Or.inl h)
    · rcases le_total a.rid b.rid with h2 | h2
      · exact Or.inl (Or.inr ⟨h, h2⟩)
      · exact Or.inr (Or.inr ⟨h.symm, h2⟩)
    · exact Or.inr (Or.inl h)⟩

instance : IsTrans RowSt offLe :=
  ⟨fun a b c hab hbc => by
    unfold offLe at hab hbc ⊢
    rcases hab with h1 | ⟨h1, h1'⟩ <;> rcases hbc with h2 | ⟨h2, h2'⟩
    · exact Or.inl (lt_trans h1 h2)
    · exact Or.inl (h2 ▸ h1)
    · exact Or.inl (h1 ▸ h2)
    · exact Or.inr ⟨h1.trans h2, le_trans h1' h2'⟩⟩

/-- The offset-sorted row list has offsets `0, 1, …, n-1` in order. -/
theorem insertionSort_off_eq_castRange {t : TableSt} (hinv : Inv0 t) :
    (t.rows.insertionSort offLe).map RowSt.off = castRange t.rows.length := by
  have hperm : (t.rows.insertionSort offLe).Perm t.rows :=
    List.perm_insertionSort offLe t.rows
  have hp2 : ((t.rows.insertionSort offLe).map RowSt.off).Perm
      (castRange t.rows.length) :=
    (hperm.map RowSt.off).trans hinv.off_perm
  have hs1 : ((t.rows.insertionSort offLe).map RowSt.off).Sorted (· ≤ ·) := by
    have hs := List.sorted_insertionSort offLe t.rows
    have : (t.rows.insertionSort offLe).Pairwise
        (fun a b => RowSt.off a ≤ RowSt.off b) := by
      refine hs.imp ?_
      intro a b hab
      rcases hab with h | ⟨h, _⟩
      · exact le_of_lt h
      · exact le_of_eq h
    exact List.pairwise_map.2 this
  have hs2 : (castRange t.rows.length).Sorted (· ≤ ·) := by
    unfold castRange
    refine List.pairwise_map.2 ?_
    refine (List.pairwise_lt_range _).imp ?_
    intro a b h
    exact Int.ofNat_le.2 (le_of_lt h)
  exact List.eq_of_perm_of_sorted hp2 hs1 hs2

/-- The row at position `k` of the offset-sorted list has offset `k`. -/
theorem ordered_off {t : TableSt} (hinv : Inv0 t) {k : Nat} {r : RowSt}
    (h : (t.rows.insertionSort offLe)[k]? = some r) : r.off = (k : Int) := by
  have hk : k < t.rows.length := by
    have h2 := getElem?_some_lt h
    rwa [List.length_insertionSort] at h2
  have h1 : ((t.rows.insertionSort offLe).map RowSt.off)[k]? = some r.off := by
    rw [List.getElem?_map, h, Option.map_some']
  rw [insertionSort_off_eq_castRange hinv] at h1
  unfold castRange at h1
  rw [List.getElem?_map, List.getElem?_range hk, Option.map_some'] at h1
  exact (Option.some_inj.1 h1).symm

/-- Reloading the dumped column structs of a row restores its fields
exactly, one well-formed slot at a time. -/
theorem zip_load_dump (sc : List ((String × Int) × Bytes)) (off : Int) :
    ∀ (us : List Col) (fs : List FVal), fs.length = us.length →
      (∀ (j : Nat) (c : Col) (f : FVal),
        us[j]? = some c → fs[j]? = some f → FieldWf sc off c f) →
      ((us.zip (fs.map dumpField)).map
        (fun cr => loadField sc off cr.1 cr.2)) = fs := by
  intro us
  induction us with
  | nil =>
      intro fs hlen _
      cases fs with
      | nil => rfl
      | cons f fs => cases hlen
  | cons c us ih =>
      intro fs hlen hwf
      cases fs with
      | nil => cases hlen
      | cons f fs =>
          dsimp only [List.map_cons, List.zip_cons_cons]
          rw [loadField_dumpField (hwf 0 c f (by simp) (by simp))]
          rw [ih fs (by simpa using hlen)
            (fun j cc ff hc hf => hwf (j + 1) cc ff (by simpa using hc)
              (by simpa using hf))]

/-- Reloading a dumped row at its own offset reproduces the row up to
the cleared dirty flag. -/
theorem loadRow_dumpRow (user : List Col)
    (sc : List ((String × Int) × Bytes)) {k : Nat} {r : RowSt}
    (hoff : r.off = (k : Int)) (hlen : r.fields.length = user.length)
    (hwf : ∀ (j : Nat) (c : Col) (f : FVal),
      user[j]? = some c → r.fields[j]? = some f → FieldWf sc r.off c f) :
    loadRow user sc k (dumpRow r) =
      { rid := r.rid, off := (k : Int), dirty := false,
        fields := r.fields } := by
  unfold loadRow dumpRow
  dsimp only
  congr 1
  exact zip_load_dump sc (k : Int) user r.fields hlen
    (fun j c f hc hf => hoff ▸ hwf j c f hc hf)

/-- Reopening right after a full rewrite finds the declared schema in
the header and takes the plain-load path on the written records. -/
theorem loadTable_saveAll (fres : String → Int → Bool)
    (user : List Col) (s : St) :
    loadTable fres user (saveAll user s).disk =
      (loadClean user (saveAll user s).disk
        ((s.table.rows.insertionSort offLe).map dumpRow), none) := by
  unfold loadTable saveAll
  dsimp only
  rw [if_pos rfl]

/-- A full rewrite part of `save()` plus a reload reproduces the
observations of the table, row for row in offset order. -/
theorem saveAll_roundtrip (fres : String → Int → Bool)
    (user : List Col) {s : St} (h : InvC2 user s) :
    (observeTable (loadTable fres user (saveAll user s).disk).1.table).Perm
      (observeTable s.table) := by
  rw [loadTable_saveAll]
  unfold loadClean observeTable
  dsimp only
  have hmain : (((s.table.rows.insertionSort offLe).map dumpRow).mapIdx
      (fun i rec => loadRow user (saveAll user s).disk.sidecars i rec)).map
        observeRow =
      (s.table.rows.insertionSort offLe).map observeRow := by
    apply List.ext_getElem?
    intro k
    rw [List.getElem?_map, List.getElem?_mapIdx, List.getElem?_map,
      List.getElem?_map]
    cases hk : (s.table.rows.insertionSort offLe)[k]? with
    | none => rfl
    | some r =>
        rw [Option.map_some', Option.map_some', Option.map_some',
          Option.map_some']
        have hmem : r ∈ s.table.rows :=
          (List.perm_insertionSort offLe s.table.rows).subset
            (List.getElem?_mem hk)
        have hoff := ordered_off h.base hk
        rw [loadRow_dumpRow user (saveAll user s).disk.sidecars hoff
          (h.fields_len r hmem)
          (fun j c f hc hf => h.wf r hmem j c f hc hf)]
        rfl
  rw [hmain]
  exact (List.perm_insertionSort offLe s.table.rows).map observeRow

/-- With no table file yet on disk, `save()` always takes the full
rewrite path. -/
theorem stepSave_eq_saveAll (user : List Col) {s : St}
    (htbl : s.disk.tbl = none) : stepSave user s = saveAll user s := by
  unfold stepSave
  split
  · rfl
  · rw [htbl]

/-- C2 (amended): for any session of row creations and concrete-column
mutations from a fresh database whose setter payloads avoid the
normalised values (`None` for the string-backed kinds, the empty
payload for the pickle kinds), saving and reopening yields rows whose
observed column values are exactly those observed before the save —
for every resolution environment, since the matching header keeps the
reload off the migration path. -/
theorem claim_C2 (user : List Col) (hnames : (user.map Col.name).Nodup)
    (ops : List MOp) (hops : ∀ op ∈ ops, mutOk user op = true)
    (fres : String → Int → Bool) :
    (observeTable (loadTable fres user
        (stepSave user (runOps user emptySt ops)).disk).1.table).Perm
      (observeTable (runOps user emptySt ops).table) := by
  have hinv := invC2_runOps user hnames ops emptySt (invC2_empty user) hops
  rw [stepSave_eq_saveAll user hinv.tbl_none]
  exact saveAll_roundtrip fres user hinv

theorem claim_C2_witness :
    (observeTable (loadTable noForeignHit [⟨"p", Kind.kStr 8⟩]
        (stepSave [⟨"p", Kind.kStr 8⟩] (runOps [⟨"p", Kind.kStr 8⟩] emptySt
          [MOp.mCreate,
            MOp.mSet 0 0 (SetV.sPay (some [1, 2]))])).disk).1.table).Perm
      (observeTable (runOps [⟨"p", Kind.kStr 8⟩] emptySt
        [MOp.mCreate, MOp.mSet 0 0 (SetV.sPay (some [1, 2]))]).table) :=
  claim_C2 [⟨"p", Kind.kStr 8⟩] (by decide)
    [MOp.mCreate, MOp.mSet 0 0 (SetV.sPay (some [1, 2]))] (by decide)
    noForeignHit

/-! ### Schema migration (claim C3) -/

/-- The observation of a freshly created (zero-initialised) column with
no sidecar file: the declared default of each kind. -/
def Kind.defaultObs : Kind → OVal
  | .kInt => .oInt 0
  | .kForeign => .oInt 0
  | .kBool => .oBool false
  | .kStr _ => .oPay (some [])
  | .kPickle _ dflt => .oPay dflt
  | .kStrBlob => .oPay (some [])
  | .kPickleBlob dflt => .oPay dflt

/-- The observation a migrated column slot carries, as a function of
the shadow slot it was copied from: every kind reproduces the shadow's
observation, except `Foreign`, whose stored id survives only when the
migration-time lookup in the referenced table succeeds and is replaced
by `0` otherwise. -/
def migObs (fres : String → Int → Bool) (col : Col) : FVal → OVal
  | .fInt v =>
      match col.kind with
      | .kForeign => .oInt (if fres col.name v then v else 0)
      | _ => .oInt v
  | g => observeField g

/-- A column slot whose struct content is still zero-initialised (the
cache may be anything; the inline payloads are empty). -/
def ZeroSlot (col : Col) (f : FVal) : Prop :=
  match col.kind, f with
  | .kInt, .fInt v => v = 0
  | .kForeign, .fInt v => v = 0
  | .kBool, .fBool b => b = false
  | .kStr _, .fStr _ stored => stored = []
  | .kPickle _ _, .fPickle _ stored => stored = []
  | .kStrBlob, .fStrBlob _ => True
  | .kPickleBlob _, .fPickleBlob _ => True
  | _, _ => False

theorem zeroSlot_init (sc : List ((String × Int) × Bytes)) (off : Int)
    (col : Col) : ZeroSlot col (loadField sc off col (zeroEntry col)) := by
  obtain ⟨nm, k⟩ := col
  cases k <;> simp [ZeroSlot, loadField, zeroEntry]

/-- Reloading a still-zero slot with no sidecar file observes the
declared default. -/
theorem obs_reload_zero {sc : List ((String × Int) × Bytes)} {off : Int}
    {col : Col} {f : FVal} (hz : ZeroSlot col f)
    (hclean : scGet sc (col.name, off) = none) :
    observeField (loadField sc off col (dumpField f)) =
      col.kind.defaultObs := by
  obtain ⟨nm, k⟩ := col
  cases k <;> cases f <;>
    simp_all [ZeroSlot, loadField, dumpField, observeField, Kind.defaultObs]

/-- Deleting a sidecar file never makes another key appear. -/
theorem scGet_scDel_pres {sc : List ((String × Int) × Bytes)}
    {k k' : String × Int} (h : scGet sc k' = none) :
    scGet (scDel sc k) k' = none := by
  unfold scGet at h
  unfold scGet scDel
  induction sc with
  | nil => rfl
  | cons e sc ih =>
      rw [List.filter_cons]
      by_cases hek : e.1 = k
      · rw [if_neg (by simp [hek])]
        exact ih (by
          by_cases he' : e.1 = k'
          · exfalso
            rw [List.find?_cons_of_pos sc (by simp [he'])] at h
            cases h
          · rwa [List.find?_cons_of_neg sc (by simp [he'])] at h)
      · rw [if_pos (by simp [hek])]
        by_cases he' : e.1 = k'
        · exfalso
          rw [List.find?_cons_of_pos sc (by simp [he'])] at h
          cases h
        · rw [List.find?_cons_of_neg _ (by simp [he'])]
          exact ih (by rwa [List.find?_cons_of_neg sc (by simp [he'])] at h)

theorem scGet_scDel_ne (sc : List ((String × Int) × Bytes))
    {k k' : String × Int} (h : k' ≠ k) :
    scGet (scDel sc k) k' = scGet sc k' := by
  have h2 := scGet_scPut_ne sc ([] : Bytes) h
  unfold scGet scPut at h2
  rw [List.find?_cons_of_neg _ (by simp [Ne.symm h])] at h2
  exact h2

theorem scGet_scDel_eq (sc : List ((String × Int) × Bytes))
    (k : String × Int) : scGet (scDel sc k) k = none := by
  unfold scGet scDel
  rw [List.find?_eq_none.2]
  · rfl
  · intro e he hp
    have h1 := (List.mem_filter.1 he).2
    have h2 : e.1 = k := by simpa using hp
    simp [h2] at h1

/-- The effect of `commitSet` on the row list and the disk. -/
theorem commitSet_getElem {s : St} {i c : Nat} {f : FVal} {r : RowSt}
    (hr : s.table.rows[i]? = some r) :
    (commitSet s i c f).table.rows[i]? =
      some { r with fields := r.fields.set c f, dirty := true } ∧
    (∀ idx, idx ≠ i →
      (commitSet s i c f).table.rows[idx]? = s.table.rows[idx]?) ∧
    (commitSet s i c f).table.rows.length = s.table.rows.length ∧
    (commitSet s i c f).disk = s.disk := by
  unfold commitSet
  rw [hr]
  dsimp only
  refine ⟨?_, ?_, ?_, rfl⟩
  · rw [setDirtyFlag_getElem, if_pos rfl]
    dsimp only
    rw [List.getElem?_set_eq_of_lt _ (getElem?_some_lt hr), Option.map_some']
  · intro idx hne
    rw [setDirtyFlag_getElem, if_neg hne]
    dsimp only
    exact List.getElem?_set_ne (fun hh => hne hh.symm)
  · rw [setDirtyFlag_length]
    dsimp only
    exact List.length_set _ _ _

/-- The effect of the migration id copy on the row list and the disk. -/
theorem setIdCol_getElem {s : St} {i : Nat} {v : Int} {r : RowSt}
    (hr : s.table.rows[i]? = some r) :
    (setIdCol s i v).table.rows[i]? =
      some { r with rid := wrap32 v, dirty := true } ∧
    (∀ idx, idx ≠ i →
      (setIdCol s i v).table.rows[idx]? = s.table.rows[idx]?) ∧
    (setIdCol s i v).table.rows.length = s.table.rows.length ∧
    (setIdCol s i v).disk = s.disk := by
  unfold setIdCol
  rw [hr]
  dsimp only
  refine ⟨?_, ?_, ?_, rfl⟩
  · rw [setDirtyFlag_getElem, if_pos rfl]
    dsimp only
    rw [List.getElem?_set_eq_of_lt _ (getElem?_some_lt hr), Option.map_some']
  · intro idx hne
    rw [setDirtyFlag_getElem, if_neg hne]
    dsimp only
    exact List.getElem?_set_ne (fun hh => hne hh.symm)
  · rw [setDirtyFlag_length]
    dsimp only
    exact List.length_set _ _ _

/-- The effect of `columnLoad` when the row, the column and the slot
all exist. -/
theorem columnLoad_eq {user : List Col} {s : St} {i c : Nat} {r : RowSt}
    {col : Col} {f : FVal}
    (hr : s.table.rows[i]? = some r) (hc : user[c]? = some col)
    (hf : r.fields[c]? = some f) :
    columnLoad user s i c =
      { s with table :=
          { s.table with rows := (s.table.rows.set i
              { r with fields := (r.fields.set c
                  (loadField s.disk.sidecars r.off col (dumpField f))) }) } } := by
  unfold columnLoad
  rw [hr, hc]
  dsimp only
  rw [hf]

/-- The effect of `Row.__init__` on the row list and the disk. -/
theorem stepCreate_getElem (user : List Col) (s : St) :
    (stepCreate user s).table.rows[s.table.rows.length]? =
      some { rid := s.table.maxId + 1, off := maxOffset s.table.rows + 1,
             dirty := true,
             fields := user.map (fun c => loadField s.disk.sidecars
               (maxOffset s.table.rows + 1) c (zeroEntry c)) } ∧
    (∀ idx, idx ≠ s.table.rows.length →
      (stepCreate user s).table.rows[idx]? = s.table.rows[idx]?) ∧
    (stepCreate user s).table.rows.length = s.table.rows.length + 1 ∧
    (stepCreate user s).disk = s.disk := by
  unfold stepCreate
  dsimp only
  have hlen1 : ∀ x : RowSt,
      (s.table.rows ++ [x]).length - 1 = s.table.rows.length := by
    intro x
    simp
  refine ⟨?_, ?_, ?_, rfl⟩
  · rw [setDirtyFlag_getElem, hlen1, if_pos rfl,
      List.getElem?_concat_length, Option.map_some']
  · intro idx hne
    rw [setDirtyFlag_getElem, hlen1, if_neg hne, List.getElem?_append]
    by_cases hlt : idx < s.table.rows.length
    · rw [if_pos hlt]
    · rw [if_neg hlt]
      have h2 : s.table.rows[idx]? = none := List.getElem?_eq_none (by omega)
      rw [h2]
      apply List.getElem?_eq_none
      simp only [List.length_cons, List.length_nil]
      omega
  · rw [setDirtyFlag_length]
    simp

/-- Packaging of a successful commit during the migration copy loop. -/
theorem import_commit_pack {s0 : St} {i c : Nat} {r : RowSt} {fv : FVal}
    (hr : s0.table.rows[i]? = some r) (hclt : c < r.fields.length) :
    ∃ rA : RowSt, (commitSet s0 i c fv).table.rows[i]? = some rA ∧
      rA.off = r.off ∧ rA.rid = r.rid ∧
      rA.fields.length = r.fields.length ∧ rA.fields[c]? = some fv ∧
      (∀ c2, c2 ≠ c → rA.fields[c2]? = r.fields[c2]?) ∧
      (commitSet s0 i c fv).table.rows.length = s0.table.rows.length ∧
      (∀ idx, idx ≠ i →
        (commitSet s0 i c fv).table.rows[idx]? = s0.table.rows[idx]?) ∧
      (commitSet s0 i c fv).disk = s0.disk := by
  obtain ⟨h1, h2, h3, h4⟩ := commitSet_getElem hr
  exact ⟨_, h1, rfl, rfl, List.length_set _ _ _,
    List.getElem?_set_eq_of_lt _ hclt,
    fun c2 hne => List.getElem?_set_ne (fun hcc => hne hcc.symm),
    h3, h2, h4⟩

/-- One migrated column copy through the public setter: a successful
set of the shadow's value handed through the descriptors followed by
the post-set `column.load` leaves the migrated observation on the new
row — the shadow's observation, except for a `Foreign` column whose
failed lookup stores `0`. -/
theorem import_set_obs (user : List Col) (fres : String → Int → Bool)
    {s : St} {i c : Nat} {r : RowSt}
    {nm : String} {k : Kind} (hr : s.table.rows[i]? = some r)
    (hc : user[c]? = some ⟨nm, k⟩) (hclt : c < r.fields.length)
    {onm : String} {g : FVal} {d_sc : List ((String × Int) × Bytes)}
    {po : Int} {rv : RVal}
    (hg : g = loadField d_sc po ⟨onm, k⟩ rv)
    (hrv : ∀ v : Int, rv = RVal.rInt v → wrap32 v = v)
    {sA : St} {e : Option Err}
    (hset : stepSet user s i c (obsToSet fres ⟨nm, k⟩ g) = (sA, e))
    (hok : e = none) :
    ∃ rA : RowSt, sA.table.rows[i]? = some rA ∧ rA.off = r.off ∧
      rA.rid = r.rid ∧ rA.fields.length = r.fields.length ∧
      (∀ c2, c2 ≠ c → rA.fields[c2]? = r.fields[c2]?) ∧
      (∃ fset, rA.fields[c]? = some fset ∧
        observeField (loadField sA.disk.sidecars r.off ⟨nm, k⟩
          (dumpField fset)) = migObs fres ⟨nm, k⟩ g) ∧
      sA.table.rows.length = s.table.rows.length ∧
      (∀ idx, idx ≠ i → sA.table.rows[idx]? = s.table.rows[idx]?) ∧
      (∀ key : String × Int, key ≠ (nm, r.off) →
        scGet sA.disk.sidecars key = scGet s.disk.sidecars key) := by
  subst hok
  subst hg
  unfold stepSet at hset
  rw [hr, hc] at hset
  cases k with
  | kInt =>
      have main : ∀ w : Int, wrap32 w = w →
          commitSet s i c (FVal.fInt (wrap32 w)) = sA →
          ∃ rA : RowSt, sA.table.rows[i]? = some rA ∧ rA.off = r.off ∧
            rA.rid = r.rid ∧ rA.fields.length = r.fields.length ∧
            (∀ c2, c2 ≠ c → rA.fields[c2]? = r.fields[c2]?) ∧
            (∃ fset, rA.fields[c]? = some fset ∧
              observeField (loadField sA.disk.sidecars r.off
                ⟨nm, Kind.kInt⟩ (dumpField fset)) = OVal.oInt w) ∧
            sA.table.rows.length = s.table.rows.length ∧
            (∀ idx, idx ≠ i → sA.table.rows[idx]? = s.table.rows[idx]?) ∧
            (∀ key : String × Int, key ≠ (nm, r.off) →
              scGet sA.disk.sidecars key = scGet s.disk.sidecars key) := by
        intro w hw hsA
        rw [← hsA]
        obtain ⟨rA, h1, h2, h3, h4, h5, h4b, h6, h7, h8⟩ :=
          @import_commit_pack s i c r (FVal.fInt (wrap32 w)) hr hclt
        refine ⟨rA, h1, h2, h3, h4, h4b, ⟨_, h5, ?_⟩, h6, h7, ?_⟩
        · show OVal.oInt (wrap32 w) = OVal.oInt w
          rw [hw]
        · intro key hkey
          rw [h8]
      cases rv with
      | rInt v =>
          dsimp only [loadField, obsToSet] at hset
          exact main v (hrv v rfl) (congrArg Prod.fst hset)
      | rBool b =>
          dsimp only [loadField, obsToSet] at hset
          exact main 0 (by decide) (congrArg Prod.fst hset)
      | rBytes b =>
          dsimp only [loadField, obsToSet] at hset
          exact main 0 (by decide) (congrArg Prod.fst hset)
      | rNone =>
          dsimp only [loadField, obsToSet] at hset
          exact main 0 (by decide) (congrArg Prod.fst hset)
  | kForeign =>
      have main : ∀ w : Int, wrap32 w = w →
          commitSet s i c (FVal.fInt (wrap32 w)) = sA →
          ∃ rA : RowSt, sA.table.rows[i]? = some rA ∧ rA.off = r.off ∧
            rA.rid = r.rid ∧ rA.fields.length = r.fields.length ∧
            (∀ c2, c2 ≠ c → rA.fields[c2]? = r.fields[c2]?) ∧
            (∃ fset, rA.fields[c]? = some fset ∧
              observeField (loadField sA.disk.sidecars r.off
                ⟨nm, Kind.kForeign⟩ (dumpField fset)) = OVal.oInt w) ∧
            sA.table.rows.length = s.table.rows.length ∧
            (∀ idx, idx ≠ i → sA.table.rows[idx]? = s.table.rows[idx]?) ∧
            (∀ key : String × Int, key ≠ (nm, r.off) →
              scGet sA.disk.sidecars key = scGet s.disk.sidecars key) := by
        intro w hw hsA
        rw [← hsA]
        obtain ⟨rA, h1, h2, h3, h4, h5, h4b, h6, h7, h8⟩ :=
          @import_commit_pack s i c r (FVal.fInt (wrap32 w)) hr hclt
        refine ⟨rA, h1, h2, h3, h4, h4b, ⟨_, h5, ?_⟩, h6, h7, ?_⟩
        · show OVal.oInt (wrap32 w) = OVal.oInt w
          rw [hw]
        · intro key hkey
          rw [h8]
      cases rv with
      | rInt v =>
          dsimp only [loadField, obsToSet] at hset
          exact main (if fres nm v then v else 0)
            (by
              by_cases hfr : fres nm v = true
              · rw [if_pos hfr]
                exact hrv v rfl
              · rw [if_neg hfr]
                decide)
            (congrArg Prod.fst hset)
      | rBool b =>
          dsimp only [loadField, obsToSet] at hset
          exact main (if fres nm 0 then 0 else 0)
            (by
              by_cases hfr : fres nm 0 = true
              · rw [if_pos hfr]
                decide
              · rw [if_neg hfr]
                decide)
            (congrArg Prod.fst hset)
      | rBytes b =>
          dsimp only [loadField, obsToSet] at hset
          exact main (if fres nm 0 then 0 else 0)
            (by
              by_cases hfr : fres nm 0 = true
              · rw [if_pos hfr]
                decide
              · rw [if_neg hfr]
                decide)
            (congrArg Prod.fst hset)
      | rNone =>
          dsimp only [loadField, obsToSet] at hset
          exact main (if fres nm 0 then 0 else 0)
            (by
              by_cases hfr : fres nm 0 = true
              · rw [if_pos hfr]
                decide
              · rw [if_neg hfr]
                decide)
            (congrArg Prod.fst hset)
  | kBool =>
      cases rv with
      | rBool b =>
          dsimp only [loadField, obsToSet] at hset
          have hsA : commitSet s i c (FVal.fBool b) = sA :=
            congrArg Prod.fst hset
          rw [← hsA]
          obtain ⟨rA, h1, h2, h3, h4, h5, h4b, h6, h7, h8⟩ :=
            @import_commit_pack s i c r (FVal.fBool b) hr hclt
          exact ⟨rA, h1, h2, h3, h4, h4b, ⟨_, h5, rfl⟩, h6, h7,
            fun key hkey => by rw [h8]⟩
      | rInt v =>
          dsimp only [loadField, obsToSet] at hset
          exact absurd (congrArg Prod.snd hset) (by simp)
      | rBytes b =>
          dsimp only [loadField, obsToSet] at hset
          exact absurd (congrArg Prod.snd hset) (by simp)
      | rNone =>
          dsimp only [loadField, obsToSet] at hset
          exact absurd (congrArg Prod.snd hset) (by simp)
  | kStr n =>
      cases rv with
      | rBytes b =>
          dsimp only [loadField, obsToSet] at hset
          split at hset
          · exact absurd (congrArg Prod.snd hset) (by simp)
          · have hsA : commitSet s i c
                (FVal.fStr (some b) ((some b).getD [])) = sA :=
              congrArg Prod.fst hset
            rw [← hsA]
            obtain ⟨rA, h1, h2, h3, h4, h5, h4b, h6, h7, h8⟩ :=
              @import_commit_pack s i c r
                (FVal.fStr (some b) ((some b).getD [])) hr hclt
            exact ⟨rA, h1, h2, h3, h4, h4b, ⟨_, h5, rfl⟩, h6, h7,
              fun key hkey => by rw [h8]⟩
      | rInt v =>
          dsimp only [loadField, obsToSet] at hset
          exact absurd (congrArg Prod.snd hset) (by simp)
      | rBool bb =>
          dsimp only [loadField, obsToSet] at hset
          exact absurd (congrArg Prod.snd hset) (by simp)
      | rNone =>
          dsimp only [loadField, obsToSet] at hset
          exact absurd (congrArg Prod.snd hset) (by simp)
  | kPickle n dfl =>
      cases rv with
      | rBytes b =>
          dsimp only [loadField, obsToSet] at hset
          by_cases hb : b = []
          · subst hb
            rw [if_pos rfl] at hset
            cases dfl with
            | none =>
                dsimp only [loadField, obsToSet] at hset
                exact absurd (congrArg Prod.snd hset) (by simp)
            | some o =>
                dsimp only [loadField, obsToSet] at hset
                split at hset
                · exact absurd (congrArg Prod.snd hset) (by simp)
                · have hsA : commitSet s i c (FVal.fPickle (some o) o) =
                      sA := congrArg Prod.fst hset
                  rw [← hsA]
                  obtain ⟨rA, h1, h2, h3, h4, h5, h4b, h6, h7, h8⟩ :=
                    @import_commit_pack s i c r (FVal.fPickle (some o) o)
                      hr hclt
                  refine ⟨rA, h1, h2, h3, h4, h4b, ⟨_, h5, ?_⟩, h6, h7,
                    fun key hkey => by rw [h8]⟩
                  cases o with
                  | nil => rfl
                  | cons x xs => rfl
          · rw [if_neg hb] at hset
            dsimp only [loadField, obsToSet] at hset
            split at hset
            · exact absurd (congrArg Prod.snd hset) (by simp)
            · have hsA : commitSet s i c (FVal.fPickle (some b) b) = sA :=
                congrArg Prod.fst hset
              rw [← hsA]
              obtain ⟨rA, h1, h2, h3, h4, h5, h4b, h6, h7, h8⟩ :=
                @import_commit_pack s i c r (FVal.fPickle (some b) b) hr hclt
              exact ⟨rA, h1, h2, h3, h4, h4b, ⟨_, h5, rfl⟩, h6, h7,
                fun key hkey => by rw [h8]⟩
      | rInt v =>
          dsimp only [loadField, obsToSet] at hset
          exact absurd (congrArg Prod.snd hset) (by simp)
      | rBool bb =>
          dsimp only [loadField, obsToSet] at hset
          exact absurd (congrArg Prod.snd hset) (by simp)
      | rNone =>
          dsimp only [loadField, obsToSet] at hset
          exact absurd (congrArg Prod.snd hset) (by simp)
  | kStrBlob =>
      dsimp only [loadField, obsToSet] at hset
      have hsA : commitSet { s with disk := { s.disk with sidecars :=
          (scPut s.disk.sidecars (nm, r.off)
            ((some ((scGet d_sc (onm, po)).getD [])).getD [])) } } i c
          (FVal.fStrBlob (some ((scGet d_sc (onm, po)).getD []))) = sA :=
        congrArg Prod.fst hset
      rw [← hsA]
      obtain ⟨rA, h1, h2, h3, h4, h5, h4b, h6, h7, h8⟩ :=
        @import_commit_pack
          { s with disk := { s.disk with sidecars :=
              (scPut s.disk.sidecars (nm, r.off)
                ((some ((scGet d_sc (onm, po)).getD [])).getD [])) } }
          i c r (FVal.fStrBlob (some ((scGet d_sc (onm, po)).getD [])))
          hr hclt
      refine ⟨rA, h1, h2, h3, h4, h4b, ⟨_, h5, ?_⟩, h6, h7, ?_⟩
      · rw [h8]
        show OVal.oPay (some ((scGet (scPut s.disk.sidecars (nm, r.off)
            ((some ((scGet d_sc (onm, po)).getD [])).getD [])) (nm,
              r.off)).getD [])) =
          OVal.oPay (some ((scGet d_sc (onm, po)).getD []))
        rw [scGet_scPut_eq]
        rfl
      · intro key hkey
        rw [h8]
        exact scGet_scPut_ne _ _ hkey
  | kPickleBlob dfl =>
      have hobs0 : migObs fres ⟨nm, Kind.kPickleBlob dfl⟩ (loadField d_sc po
          ⟨onm, Kind.kPickleBlob dfl⟩ rv) =
          OVal.oPay (match scGet d_sc (onm, po) with
            | none => dfl
            | some [] => dfl
            | some b => some b) := rfl
      rw [hobs0]
      have mainPut : ∀ o : Bytes, (o = [] → dfl = some o) →
          commitSet { s with disk := { s.disk with sidecars :=
              (scPut s.disk.sidecars (nm, r.off) o) } } i c
            (FVal.fPickleBlob (some o)) = sA →
          ∃ rA : RowSt, sA.table.rows[i]? = some rA ∧ rA.off = r.off ∧
            rA.rid = r.rid ∧ rA.fields.length = r.fields.length ∧
            (∀ c2, c2 ≠ c → rA.fields[c2]? = r.fields[c2]?) ∧
            (∃ fset, rA.fields[c]? = some fset ∧
              observeField (loadField sA.disk.sidecars r.off
                ⟨nm, Kind.kPickleBlob dfl⟩ (dumpField fset)) =
                OVal.oPay (some o)) ∧
            sA.table.rows.length = s.table.rows.length ∧
            (∀ idx, idx ≠ i → sA.table.rows[idx]? = s.table.rows[idx]?) ∧
            (∀ key : String × Int, key ≠ (nm, r.off) →
              scGet sA.disk.sidecars key = scGet s.disk.sidecars key) := by
        intro o ho hsA
        rw [← hsA]
        obtain ⟨rA, h1, h2, h3, h4, h5, h4b, h6, h7, h8⟩ :=
          @import_commit_pack
            { s with disk := { s.disk with sidecars :=
                (scPut s.disk.sidecars (nm, r.off) o) } }
            i c r (FVal.fPickleBlob (some o)) hr hclt
        refine ⟨rA, h1, h2, h3, h4, h4b, ⟨_, h5, ?_⟩, h6, h7, ?_⟩
        · rw [h8]
          show OVal.oPay (match scGet (scPut s.disk.sidecars (nm, r.off) o)
              (nm, r.off) with
            | none => dfl
            | some [] => dfl
            | some b => some b) = OVal.oPay (some o)
          rw [scGet_scPut_eq]
          cases o with
          | nil => rw [ho rfl]
          | cons x xs => rfl
        · intro key hkey
          rw [h8]
          exact scGet_scPut_ne _ _ hkey
      have mainNone : dfl = none →
          commitSet { s with disk := { s.disk with sidecars :=
              (scDel s.disk.sidecars (nm, r.off)) } } i c
            (FVal.fPickleBlob none) = sA →
          ∃ rA : RowSt, sA.table.rows[i]? = some rA ∧ rA.off = r.off ∧
            rA.rid = r.rid ∧ rA.fields.length = r.fields.length ∧
            (∀ c2, c2 ≠ c → rA.fields[c2]? = r.fields[c2]?) ∧
            (∃ fset, rA.fields[c]? = some fset ∧
              observeField (loadField sA.disk.sidecars r.off
                ⟨nm, Kind.kPickleBlob dfl⟩ (dumpField fset)) =
                OVal.oPay none) ∧
            sA.table.rows.length = s.table.rows.length ∧
            (∀ idx, idx ≠ i → sA.table.rows[idx]? = s.table.rows[idx]?) ∧
            (∀ key : String × Int, key ≠ (nm, r.off) →
              scGet sA.disk.sidecars key = scGet s.disk.sidecars key) := by
        intro hdn hsA
        rw [← hsA]
        obtain ⟨rA, h1, h2, h3, h4, h5, h4b, h6, h7, h8⟩ :=
          @import_commit_pack
            { s with disk := { s.disk with sidecars :=
                (scDel s.disk.sidecars (nm, r.off)) } }
            i c r (FVal.fPickleBlob none) hr hclt
        refine ⟨rA, h1, h2, h3, h4, h4b, ⟨_, h5, ?_⟩, h6, h7, ?_⟩
        · rw [h8]
          show OVal.oPay (match scGet (scDel s.disk.sidecars (nm, r.off))
              (nm, r.off) with
            | none => dfl
            | some [] => dfl
            | some b => some b) = OVal.oPay none
          rw [scGet_scDel_eq, hdn]
        · intro key hkey
          rw [h8]
          exact scGet_scDel_ne _ hkey
      dsimp only [loadField, obsToSet] at hset
      cases hd : scGet d_sc (onm, po) with
      | none =>
          rw [hd] at hset
          dsimp only [loadField, obsToSet] at hset
          cases dfl with
          | none =>
              dsimp only [loadField, obsToSet] at hset
              cases hcur : scGet s.disk.sidecars (nm, r.off) with
              | none =>
                  rw [hcur] at hset
                  dsimp only [loadField, obsToSet] at hset
                  exact absurd (congrArg Prod.snd hset) (by simp)
              | some w =>
                  rw [hcur] at hset
                  dsimp only [loadField, obsToSet] at hset
                  exact mainNone rfl (congrArg Prod.fst hset)
          | some o =>
              dsimp only [loadField, obsToSet] at hset
              exact mainPut o (fun _ => rfl) (congrArg Prod.fst hset)
      | some bb =>
          rw [hd] at hset
          cases bb with
          | nil =>
              dsimp only [loadField, obsToSet] at hset
              cases dfl with
              | none =>
                  dsimp only [loadField, obsToSet] at hset
                  cases hcur : scGet s.disk.sidecars (nm, r.off) with
                  | none =>
                      rw [hcur] at hset
                      dsimp only [loadField, obsToSet] at hset
                      exact absurd (congrArg Prod.snd hset) (by simp)
                  | some w =>
                      rw [hcur] at hset
                      dsimp only [loadField, obsToSet] at hset
                      exact mainNone rfl (congrArg Prod.fst hset)
              | some o =>
                  dsimp only [loadField, obsToSet] at hset
                  exact mainPut o (fun _ => rfl) (congrArg Prod.fst hset)
          | cons x xs =>
              dsimp only [loadField, obsToSet] at hset
              exact mainPut (x :: xs) (fun hx => absurd hx (by simp))
                (congrArg Prod.fst hset)

/-- The effect of `columnLoad` on the row list and the disk. -/
theorem columnLoad_getElem {user : List Col} {s : St} {i c : Nat} {r : RowSt}
    {col : Col} {f : FVal}
    (hr : s.table.rows[i]? = some r) (hc : user[c]? = some col)
    (hf : r.fields[c]? = some f) (hclt : c < r.fields.length) :
    ∃ rB : RowSt, (columnLoad user s i c).table.rows[i]? = some rB ∧
      rB.rid = r.rid ∧ rB.off = r.off ∧
      rB.fields.length = r.fields.length ∧
      rB.fields[c]? = some (loadField s.disk.sidecars r.off col
        (dumpField f)) ∧
      (∀ c2, c2 ≠ c → rB.fields[c2]? = r.fields[c2]?) ∧
      (columnLoad user s i c).table.rows.length = s.table.rows.length ∧
      (∀ idx, idx ≠ i →
        (columnLoad user s i c).table.rows[idx]? = s.table.rows[idx]?) ∧
      (columnLoad user s i c).disk = s.disk := by
  rw [columnLoad_eq hr hc hf]
  refine ⟨{ r with fields := (r.fields.set c
      (loadField s.disk.sidecars r.off col (dumpField f))) }, ?_, rfl, rfl,
    List.length_set _ _ _,
    List.getElem?_set_eq_of_lt _ hclt,
    fun c2 hne => List.getElem?_set_ne (fun hcc => hne hcc.symm),
    by dsimp only; exact List.length_set _ _ _,
    fun idx hne => by
      dsimp only
      exact List.getElem?_set_ne (fun hh => hne hh.symm),
    rfl⟩
  dsimp only
  exact List.getElem?_set_eq_of_lt _ (getElem?_some_lt hr)

/-- The copy/load loop of `import_data` over a suffix of the declared
columns: on success every processed column of the new row observes the
shadow's migrated value when its name is common with the old schema
(and the declared default otherwise); other rows, other slots and
sidecar keys at other offsets or outside the old schema names are
untouched. -/
theorem importCols_spec (fres : String → Int → Bool)
    (oldUser user : List Col)
    (hnames : (user.map Col.name).Nodup)
    (hkinds : ∀ cc ∈ user, ∀ ocx ∈ oldUser, cc.name = ocx.name →
      cc.kind = ocx.kind)
    (sr : RowSt) (d_sc : List ((String × Int) × Bytes))
    (hshadow : ∀ (j : Nat) (oc : Col) (g : FVal), oldUser[j]? = some oc →
      sr.fields[j]? = some g →
      ∃ rv, g = loadField d_sc sr.off oc rv ∧
        (∀ v : Int, rv = RVal.rInt v → wrap32 v = v)) :
    ∀ (rest : List (Nat × Col)) (i : Nat) (s s' : St),
      importCols fres oldUser user sr i rest s = (s', none) →
      ∀ r : RowSt, s.table.rows[i]? = some r →
      r.fields.length = user.length →
      (rest.map Prod.fst).Nodup →
      (∀ pc ∈ rest, user[pc.1]? = some pc.2) →
      (∀ pc ∈ rest,
        oldUser.findIdx? (fun oc => oc.name == pc.2.name) = none →
        (∀ f, r.fields[pc.1]? = some f → ZeroSlot pc.2 f) ∧
        scGet s.disk.sidecars (pc.2.name, r.off) = none) →
      ∃ r' : RowSt, s'.table.rows[i]? = some r' ∧
        r'.rid = r.rid ∧ r'.off = r.off ∧
        r'.fields.length = user.length ∧
        s'.table.rows.length = s.table.rows.length ∧
        (∀ (c : Nat) (col : Col), (c, col) ∈ rest →
          ∃ f', r'.fields[c]? = some f' ∧
            ((∃ j g, oldUser.findIdx? (fun oc => oc.name == col.name) =
                some j ∧ sr.fields[j]? = some g ∧
                observeField f' = migObs fres col g) ∨
             (oldUser.findIdx? (fun oc => oc.name == col.name) = none ∧
                observeField f' = col.kind.defaultObs))) ∧
        (∀ c2 : Nat, c2 ∉ rest.map Prod.fst →
          r'.fields[c2]? = r.fields[c2]?) ∧
        (∀ idx, idx ≠ i → s'.table.rows[idx]? = s.table.rows[idx]?) ∧
        (∀ key : String × Int, key.2 ≠ r.off →
          scGet s'.disk.sidecars key = scGet s.disk.sidecars key) ∧
        (∀ key : String × Int, key.1 ∉ oldUser.map Col.name →
          scGet s'.disk.sidecars key = scGet s.disk.sidecars key) := by
  intro rest
  induction rest with
  | nil =>
      intro i s s' hic r hr hlen _ _ _
      have hss : s = s' := congrArg Prod.fst hic
      subst hss
      exact ⟨r, hr, rfl, rfl, hlen, rfl,
        fun c col hmem => absurd hmem (List.not_mem_nil _),
        fun c2 _ => rfl, fun idx _ => rfl, fun key _ => rfl, fun key _ => rfl⟩
  | cons pc rest ih =>
      obtain ⟨c, col⟩ := pc
      intro i s s' hic r hr hlen hnd hcols hzc
      have hcol : user[c]? = some col :=
        hcols (c, col) (List.mem_cons_self _ _)
      have hclt : c < r.fields.length := by
        rw [hlen]
        exact getElem?_some_lt hcol
      have hcnotin : c ∉ rest.map Prod.fst := by
        rw [List.map_cons] at hnd
        exact (List.nodup_cons.1 hnd).1
      have hndrest : (rest.map Prod.fst).Nodup := by
        rw [List.map_cons] at hnd
        exact (List.nodup_cons.1 hnd).2
      have hcolsrest : ∀ pc ∈ rest, user[pc.1]? = some pc.2 :=
        fun pc hpc => hcols pc (List.mem_cons_of_mem _ hpc)
      have hnamene : ∀ pc, pc ∈ rest → pc.2.name ≠ col.name := by
        intro pc hpc hq
        apply hcnotin
        have := getElem?_inj_of_nodup_map Col.name hnames
          (hcolsrest pc hpc) hcol hq
        rw [← this]
        exact List.mem_map.2 ⟨pc, hpc, rfl⟩
      obtain ⟨f0, hf0⟩ : ∃ f0, r.fields[c]? = some f0 :=
        ⟨_, List.getElem?_eq_getElem hclt⟩
      unfold importCols at hic
      cases hfi : oldUser.findIdx? (fun oc => oc.name == col.name) with
      | none =>
          rw [hfi] at hic
          dsimp only at hic
          obtain ⟨rB, hB1, hB2, hB3, hB4, hB5, hB6, hB7, hB8, hB9⟩ :=
            @columnLoad_getElem user s i c r col f0 hr hcol hf0 hclt
          obtain ⟨r', hr', hrid, hoff, hflen, hrlen, hcres, hnotin, hidx,
              hsc1, hsc2⟩ :=
            ih i (columnLoad user s i c) s' hic rB hB1
              (by rw [hB4]; exact hlen) hndrest hcolsrest
              (by
                intro pc hpc hnone
                have hne : pc.1 ≠ c := by
                  intro hq
                  exact hcnotin (hq ▸ List.mem_map.2 ⟨pc, hpc, rfl⟩)
                refine ⟨?_, ?_⟩
                · intro f hfB
                  rw [hB6 pc.1 hne] at hfB
                  exact (hzc pc (List.mem_cons_of_mem _ hpc) hnone).1 f hfB
                · rw [hB9, hB3]
                  exact (hzc pc (List.mem_cons_of_mem _ hpc) hnone).2)
          refine ⟨r', hr', hrid.trans hB2, hoff.trans hB3, hflen,
            hrlen.trans hB7, ?_, ?_, ?_, ?_, ?_⟩
          · intro c1 col1 hmem
            rcases List.mem_cons.1 hmem with heq | hmem2
            · cases heq
              refine ⟨loadField s.disk.sidecars r.off col (dumpField f0),
                ?_, Or.inr ⟨hfi, ?_⟩⟩
              · rw [hnotin c hcnotin]
                exact hB5
              · exact obs_reload_zero
                  ((hzc (c, col) (List.mem_cons_self _ _) hfi).1 f0 hf0)
                  ((hzc (c, col) (List.mem_cons_self _ _) hfi).2)
            · exact hcres c1 col1 hmem2
          · intro c2 hc2
            have hc2r : c2 ∉ rest.map Prod.fst := by
              intro hq
              exact hc2 (by rw [List.map_cons]; exact List.mem_cons_of_mem _ hq)
            have hc2c : c2 ≠ c := by
              intro hq
              exact hc2 (by rw [List.map_cons, hq]; exact List.mem_cons_self _ _)
            rw [hnotin c2 hc2r]
            exact hB6 c2 hc2c
          · intro idx hne
            rw [hidx idx hne]
            exact hB8 idx hne
          · intro key hkey
            rw [hsc1 key (by rw [hB3]; exact hkey), hB9]
          · intro key hkey
            rw [hsc2 key hkey, hB9]
      | some j =>
          rw [hfi] at hic
          dsimp only at hic
          cases hsrf : sr.fields[j]? with
          | none =>
              rw [hsrf] at hic
              dsimp only at hic
              exact absurd (congrArg Prod.snd hic) (by simp)
          | some g =>
              rw [hsrf] at hic
              dsimp only at hic
              obtain ⟨oc, hocj, hocp⟩ := findIdx?_spec hfi
              have hocname : oc.name = col.name := by simpa using hocp
              have hocmem : oc ∈ oldUser := List.getElem?_mem hocj
              have hcolmem : col ∈ user := List.getElem?_mem hcol
              have hkindeq : col.kind = oc.kind :=
                hkinds col hcolmem oc hocmem hocname.symm
              have hnmold : col.name ∈ oldUser.map Col.name := by
                rw [← hocname]
                exact List.mem_map.2 ⟨oc, hocmem, rfl⟩
              obtain ⟨rv, hgrv, hrv⟩ := hshadow j oc g hocj hsrf
              obtain ⟨nm, kc⟩ := col
              obtain ⟨onm, ko⟩ := oc
              have hkindeq2 : kc = ko := hkindeq
              subst hkindeq2
              cases hst : stepSet user s i c (obsToSet fres ⟨nm, kc⟩ g) with
              | mk sA e =>
                  rw [hst] at hic
                  cases e with
                  | some err =>
                      dsimp only at hic
                      exact absurd (congrArg Prod.snd hic) (by simp)
                  | none =>
                      dsimp only at hic
                      obtain ⟨rA, hA1, hA2, hA3, hA4, hAo, ⟨fsetv, hA5, hA6⟩,
                          hA7, hA8, hA9⟩ :=
                        import_set_obs user fres hr hcol hclt hgrv hrv hst rfl
                      obtain ⟨rB, hB1, hB2, hB3, hB4, hB5, hB6, hB7, hB8,
                          hB9⟩ :=
                        @columnLoad_getElem user sA i c rA _ fsetv hA1 hcol
                          hA5 (by rw [hA4]; exact hclt)
                      obtain ⟨r', hr', hrid, hoff, hflen, hrlen, hcres,
                          hnotin, hidx, hsc1, hsc2⟩ :=
                        ih i (columnLoad user sA i c) s' hic rB hB1
                          (by rw [hB4, hA4]; exact hlen) hndrest hcolsrest
                          (by
                            intro pc hpc hnone
                            have hne : pc.1 ≠ c := by
                              intro hq
                              exact hcnotin
                                (hq ▸ List.mem_map.2 ⟨pc, hpc, rfl⟩)
                            have hkeyne : (pc.2.name, r.off) ≠
                                (nm, r.off) := by
                              intro hq
                              exact hnamene pc hpc (congrArg Prod.fst hq)
                            refine ⟨?_, ?_⟩
                            · intro f hfB
                              rw [hB6 pc.1 hne, hAo pc.1 hne] at hfB
                              exact (hzc pc (List.mem_cons_of_mem _ hpc)
                                hnone).1 f hfB
                            · rw [hB9, hB3, hA2, hA9 _ hkeyne]
                              exact (hzc pc (List.mem_cons_of_mem _ hpc)
                                hnone).2)
                      refine ⟨r', hr', ?_, ?_, hflen, ?_, ?_, ?_, ?_, ?_, ?_⟩
                      · rw [hrid, hB2, hA3]
                      · rw [hoff, hB3, hA2]
                      · rw [hrlen, hB7, hA7]
                      · intro c1 col1 hmem
                        rcases List.mem_cons.1 hmem with heq | hmem2
                        · cases heq
                          refine ⟨loadField sA.disk.sidecars rA.off
                              ⟨nm, kc⟩ (dumpField fsetv),
                            ?_, Or.inl ⟨j, g, hfi, hsrf, ?_⟩⟩
                          · rw [hnotin c hcnotin]
                            exact hB5
                          · rw [hA2]
                            exact hA6
                        · exact hcres c1 col1 hmem2
                      · intro c2 hc2
                        have hc2r : c2 ∉ rest.map Prod.fst := by
                          intro hq
                          exact hc2 (by
                            rw [List.map_cons]
                            exact List.mem_cons_of_mem _ hq)
                        have hc2c : c2 ≠ c := by
                          intro hq
                          exact hc2 (by
                            rw [List.map_cons, hq]
                            exact List.mem_cons_self _ _)
                        rw [hnotin c2 hc2r, hB6 c2 hc2c]
                        exact hAo c2 hc2c
                      · intro idx hne
                        rw [hidx idx hne, hB8 idx hne]
                        exact hA8 idx hne
                      · intro key hkey
                        have hkeyne : key ≠ (nm, r.off) := by
                          intro hq
                          exact hkey (by rw [hq])
                        rw [hsc1 key (by rw [hB3, hA2]; exact hkey), hB9]
                        exact hA9 key hkeyne
                      · intro key hkey
                        have hkeyne : key ≠ (nm, r.off) := by
                          intro hq
                          apply hkey
                          rw [hq]
                          exact hnmold
                        rw [hsc2 key hkey, hB9]
                        exact hA9 key hkeyne

/-- One row of `import_data`: create, copy the id through the `id`
column's setter, then copy/load every declared column. -/
theorem importRow_spec (fres : String → Int → Bool)
    (oldUser user : List Col)
    (hnames : (user.map Col.name).Nodup)
    (hkinds : ∀ cc ∈ user, ∀ ocx ∈ oldUser, cc.name = ocx.name →
      cc.kind = ocx.kind)
    (d_sc : List ((String × Int) × Bytes)) (sr : RowSt)
    (hshadow : ∀ (j : Nat) (oc : Col) (g : FVal), oldUser[j]? = some oc →
      sr.fields[j]? = some g →
      ∃ rv, g = loadField d_sc sr.off oc rv ∧
        (∀ v : Int, rv = RVal.rInt v → wrap32 v = v))
    {s s' : St} (hrow : importRow fres oldUser user s sr = (s', none))
    (hnewclean : ∀ col ∈ user, col.name ∉ oldUser.map Col.name →
      ∀ kk : Int, scGet s.disk.sidecars (col.name, kk) = none) :
    ∃ r' : RowSt, s'.table.rows[s.table.rows.length]? = some r' ∧
      r'.rid = wrap32 sr.rid ∧
      s'.table.rows.length = s.table.rows.length + 1 ∧
      (∀ (c : Nat) (col : Col), user[c]? = some col →
        ∃ f', r'.fields[c]? = some f' ∧
          ((∃ j g, oldUser.findIdx? (fun oc => oc.name == col.name) =
              some j ∧ sr.fields[j]? = some g ∧
              observeField f' = migObs fres col g) ∨
           (oldUser.findIdx? (fun oc => oc.name == col.name) = none ∧
              observeField f' = col.kind.defaultObs))) ∧
      (∀ idx, idx ≠ s.table.rows.length →
        s'.table.rows[idx]? = s.table.rows[idx]?) ∧
      (∀ key : String × Int, key.1 ∉ oldUser.map Col.name →
        scGet s'.disk.sidecars key = scGet s.disk.sidecars key) := by
  obtain ⟨hC1, hC2, hC3, hC4⟩ := stepCreate_getElem user s
  unfold importRow at hrow
  dsimp only at hrow
  have hi : (stepCreate user s).table.rows.length - 1 =
      s.table.rows.length := by
    rw [hC3]
    omega
  rw [hi] at hrow
  obtain ⟨hD1, hD2, hD3, hD4⟩ := setIdCol_getElem hC1
  have hr2 := hD1
  have hs2disk : (setIdCol (stepCreate user s)
      s.table.rows.length sr.rid).disk = s.disk := by
    rw [hD4, hC4]
  obtain ⟨r', hr', hrid, hoff, hflen, hrlen, hcres, hnotin, hidx, hsc1,
      hsc2⟩ :=
    importCols_spec fres oldUser user hnames hkinds sr d_sc hshadow user.enum
      s.table.rows.length _ s' hrow _ hr2
      (by simp)
      (by rw [List.enum_map_fst]; exact List.nodup_range _)
      (fun pc hpc => List.mem_enum_iff_getElem?.1 hpc)
      (by
        intro pc hpc hnone
        have hpcc : user[pc.1]? = some pc.2 :=
          List.mem_enum_iff_getElem?.1 hpc
        have hnmem : pc.2.name ∉ oldUser.map Col.name := by
          intro hq
          obtain ⟨oc, hocm, hocn⟩ := List.mem_map.1 hq
          have h2 := List.findIdx?_eq_none_iff.1 hnone oc hocm
          simp [hocn] at h2
        constructor
        · intro f hfB
          dsimp only at hfB
          rw [List.getElem?_map, hpcc, Option.map_some'] at hfB
          cases Option.some_inj.1 hfB
          exact zeroSlot_init _ _ _
        · rw [hs2disk]
          exact hnewclean pc.2 (List.getElem?_mem hpcc) hnmem _)
  refine ⟨r', hr', ?_, ?_, ?_, ?_, ?_⟩
  · rw [hrid]
  · rw [hrlen, hD3, hC3]
  · intro c col hc
    exact hcres c col (List.mem_enum_iff_getElem?.2 hc)
  · intro idx hne
    rw [hidx idx hne, hD2 idx hne]
    exact hC2 idx hne
  · intro key hkey
    rw [hsc2 key hkey, hs2disk]

/-- The row loop of `import_data`: on success the table holds one new
row per shadow row, in order, each with the copied id and the
copied/defaulted column observations. -/
theorem importRows_spec (fres : String → Int → Bool)
    (oldUser user : List Col)
    (hnames : (user.map Col.name).Nodup)
    (hkinds : ∀ cc ∈ user, ∀ ocx ∈ oldUser, cc.name = ocx.name →
      cc.kind = ocx.kind)
    (d_sc : List ((String × Int) × Bytes)) :
    ∀ (srs : List RowSt) (s s' : St),
      importRows fres oldUser user srs s = (s', none) →
      (∀ sr ∈ srs, ∀ (j : Nat) (oc : Col) (g : FVal),
        oldUser[j]? = some oc → sr.fields[j]? = some g →
        ∃ rv, g = loadField d_sc sr.off oc rv ∧
          (∀ v : Int, rv = RVal.rInt v → wrap32 v = v)) →
      (∀ col ∈ user, col.name ∉ oldUser.map Col.name →
        ∀ kk : Int, scGet s.disk.sidecars (col.name, kk) = none) →
      s'.table.rows.length = s.table.rows.length + srs.length ∧
      (∀ idx, idx < s.table.rows.length →
        s'.table.rows[idx]? = s.table.rows[idx]?) ∧
      (∀ (kk : Nat) (sr : RowSt), srs[kk]? = some sr →
        ∃ r', s'.table.rows[s.table.rows.length + kk]? = some r' ∧
          r'.rid = wrap32 sr.rid ∧
          (∀ (c : Nat) (col : Col), user[c]? = some col →
            ∃ f', r'.fields[c]? = some f' ∧
              ((∃ j g, oldUser.findIdx? (fun oc => oc.name == col.name) =
                  some j ∧ sr.fields[j]? = some g ∧
                  observeField f' = migObs fres col g) ∨
               (oldUser.findIdx? (fun oc => oc.name == col.name) = none ∧
                  observeField f' = col.kind.defaultObs)))) := by
  intro srs
  induction srs with
  | nil =>
      intro s s' hic _ _
      have hss : s = s' := congrArg Prod.fst hic
      subst hss
      refine ⟨by simp, fun idx _ => rfl, ?_⟩
      intro kk sr hkk
      simp at hkk
  | cons sr srs ih =>
      intro s s' hic hsrs hclean
      unfold importRows at hic
      cases hr1 : importRow fres oldUser user s sr with
      | mk s1 e =>
          rw [hr1] at hic
          cases e with
          | some err =>
              dsimp only at hic
              exact absurd (congrArg Prod.snd hic) (by simp)
          | none =>
              dsimp only at hic
              obtain ⟨r1, hR1, hR2, hR3, hR4, hR5, hR6⟩ :=
                importRow_spec fres oldUser user hnames hkinds d_sc sr
                  (hsrs sr (List.mem_cons_self _ _)) hr1
                  hclean
              have hclean1 : ∀ col ∈ user,
                  col.name ∉ oldUser.map Col.name →
                  ∀ kk : Int, scGet s1.disk.sidecars (col.name, kk) =
                    none := by
                intro col hcm hnm kk
                rw [hR6 (col.name, kk) hnm]
                exact hclean col hcm hnm kk
              obtain ⟨hI1, hI2, hI3⟩ :=
                ih s1 s' hic
                  (fun sr2 h2 => hsrs sr2 (List.mem_cons_of_mem _ h2))
                  hclean1
              refine ⟨?_, ?_, ?_⟩
              · rw [hI1, hR3]
                simp only [List.length_cons]
                omega
              · intro idx hidx
                rw [hI2 idx (by omega), hR5 idx (by omega)]
              · intro kk sr2 hkk
                cases kk with
                | zero =>
                    rw [List.getElem?_cons_zero] at hkk
                    cases Option.some_inj.1 hkk
                    refine ⟨r1, ?_, hR2, hR4⟩
                    have h2 : s.table.rows.length < s1.table.rows.length := by
                      rw [hR3]
                      omega
                    rw [Nat.add_zero, hI2 _ h2]
                    exact hR1
                | succ k =>
                    rw [List.getElem?_cons_succ] at hkk
                    obtain ⟨r2, hg1, hg2, hg3⟩ := hI3 k sr2 hkk
                    refine ⟨r2, ?_, hg2, hg3⟩
                    rw [show s.table.rows.length + (k + 1) =
                      s1.table.rows.length + k from by rw [hR3]; omega]
                    exact hg1

/-- With `full_dump_needed` set, the next save writes the declared
schema as the new header. -/
theorem stepSave_fullDump_header (user : List Col) {s : St}
    (h : s.table.fullDump = true) :
    ∃ recs2, (stepSave user s).disk.tbl = some (fullCols user, recs2) := by
  unfold stepSave
  rw [if_pos h]
  exact ⟨_, rfl⟩

/-- The shadow rows produced by the plain load are exactly the decoded
records: each field slot is the decode of one record slice at the
row's offset. -/
theorem shadow_fields (oldUser : List Col) (d : Disk) (recs : List Rec)
    (hints : ∀ rec ∈ recs, ∀ rv ∈ rec, ∀ v : Int,
      rv = RVal.rInt v → wrap32 v = v)
    (hheads : ∀ rec ∈ recs, ∃ v rest, rec = RVal.rInt v :: rest) :
    ∀ sr ∈ (loadClean oldUser d recs).table.rows,
      ∀ (j : Nat) (oc : Col) (g : FVal),
      oldUser[j]? = some oc → sr.fields[j]? = some g →
      ∃ rv, g = loadField d.sidecars sr.off oc rv ∧
        (∀ v : Int, rv = RVal.rInt v → wrap32 v = v) := by
  intro sr hmem j oc g hoc hgf
  obtain ⟨kk, hkklt, hkk⟩ := List.mem_iff_getElem.1 hmem
  have hkk? : (loadClean oldUser d recs).table.rows[kk]? = some sr := by
    rw [List.getElem?_eq_getElem hkklt, hkk]
  unfold loadClean at hkk?
  dsimp only at hkk?
  rw [List.getElem?_mapIdx] at hkk?
  cases hrec : recs[kk]? with
  | none =>
      rw [hrec] at hkk?
      cases hkk?
  | some rec0 =>
      rw [hrec, Option.map_some'] at hkk?
      have hsrEq : loadRow oldUser d.sidecars kk rec0 = sr :=
        Option.some_inj.1 hkk?
      obtain ⟨v, restv, hrec0⟩ := hheads rec0 (List.getElem?_mem hrec)
      subst hrec0
      rw [← hsrEq] at hgf ⊢
      unfold loadRow at hgf ⊢
      dsimp only at hgf ⊢
      rw [List.getElem?_map] at hgf
      cases hzip : (oldUser.zip restv)[j]? with
      | none =>
          rw [hzip] at hgf
          cases hgf
      | some pr =>
          rw [hzip, Option.map_some'] at hgf
          obtain ⟨hz1, hz2⟩ := List.getElem?_zip_eq_some.1 hzip
          have hoc2 : pr.1 = oc := by
            rw [hoc] at hz1
            exact (Option.some_inj.1 hz1.symm)
          refine ⟨pr.2, ?_, ?_⟩
          · rw [← Option.some_inj.1 hgf, hoc2]
          · intro w hw
            have hmem2 : pr.2 ∈ RVal.rInt v :: restv :=
              List.mem_cons_of_mem _ (List.getElem?_mem hz2)
            exact hints _ (List.getElem?_mem hrec) pr.2 hmem2 w hw

theorem shadow_length (oldUser : List Col) (d : Disk) (recs : List Rec) :
    (loadClean oldUser d recs).table.rows.length = recs.length := by
  unfold loadClean
  dsimp only
  exact List.length_mapIdx

/-- The ids carried by the shadow rows are in the 32-bit range (they
were written by `c_int` stores). -/
theorem shadow_rid (oldUser : List Col) (d : Disk) (recs : List Rec)
    (hints : ∀ rec ∈ recs, ∀ rv ∈ rec, ∀ v : Int,
      rv = RVal.rInt v → wrap32 v = v)
    (hheads : ∀ rec ∈ recs, ∃ v rest, rec = RVal.rInt v :: rest) :
    ∀ sr ∈ (loadClean oldUser d recs).table.rows, wrap32 sr.rid = sr.rid := by
  intro sr hmem
  obtain ⟨kk, hkklt, hkk⟩ := List.mem_iff_getElem.1 hmem
  have hkk? : (loadClean oldUser d recs).table.rows[kk]? = some sr := by
    rw [List.getElem?_eq_getElem hkklt, hkk]
  unfold loadClean at hkk?
  dsimp only at hkk?
  rw [List.getElem?_mapIdx] at hkk?
  cases hrec : recs[kk]? with
  | none =>
      rw [hrec] at hkk?
      cases hkk?
  | some rec0 =>
      rw [hrec, Option.map_some'] at hkk?
      have hsrEq : loadRow oldUser d.sidecars kk rec0 = sr :=
        Option.some_inj.1 hkk?
      obtain ⟨v, restv, hrec0⟩ := hheads rec0 (List.getElem?_mem hrec)
      subst hrec0
      rw [← hsrEq]
      unfold loadRow
      dsimp only
      exact hints _ (List.getElem?_mem hrec) _ (List.mem_cons_self _ _) v rfl

/-- C3 (amended): when the stored header differs from the declared
schema the load migrates the data: on success the table is flagged for
a full dump (so the next `save()` writes the declared schema as the
new header), holds one live row per stored record with the stored id
preserved, and every declared column whose name is shared with the old
schema observes the shadow row's migrated value — the shadow's
observation, except for a `Foreign` column, whose stored id survives
only when the migration-time lookup in the referenced table succeeds
and is replaced by `0` otherwise — while a column whose name is new
observes its declared default. -/
theorem claim_C3 (fres : String → Int → Bool)
    (user : List Col) (sch : List Col) (recs : List Rec)
    (d : Disk)
    (hd : d.tbl = some (sch, recs)) (hne : sch ≠ fullCols user)
    (hnames : (user.map Col.name).Nodup)
    (hkinds : ∀ cc ∈ user, ∀ ocx ∈ sch.drop 1, cc.name = ocx.name →
      cc.kind = ocx.kind)
    (hints : ∀ rec ∈ recs, ∀ rv ∈ rec, ∀ v : Int,
      rv = RVal.rInt v → wrap32 v = v)
    (hheads : ∀ rec ∈ recs, ∃ v rest, rec = RVal.rInt v :: rest)
    (hnew : ∀ cc ∈ user, cc.name ∉ (sch.drop 1).map Col.name →
      ∀ kk : Int, scGet d.sidecars (cc.name, kk) = none)
    (s1 : St) (hsucc : loadTable fres user d = (s1, none)) :
    s1.table.fullDump = true ∧
    (∃ recs2, (stepSave user s1).disk.tbl = some (fullCols user, recs2)) ∧
    s1.table.rows.length = recs.length ∧
    (∀ (kk : Nat) (r' : RowSt), s1.table.rows[kk]? = some r' →
      ∃ sr : RowSt,
        (loadClean (sch.drop 1) d recs).table.rows[kk]? = some sr ∧
        r'.rid = sr.rid ∧
        (∀ (c : Nat) (col : Col), user[c]? = some col →
          ∃ f', r'.fields[c]? = some f' ∧
            ((∃ j g, (sch.drop 1).findIdx?
                (fun oc => oc.name == col.name) = some j ∧
                sr.fields[j]? = some g ∧
                observeField f' = migObs fres col g) ∨
             ((sch.drop 1).findIdx? (fun oc => oc.name == col.name) =
                none ∧ observeField f' = col.kind.defaultObs)))) := by
  unfold loadTable at hsucc
  rw [hd] at hsucc
  dsimp only at hsucc
  rw [if_neg hne] at hsucc
  unfold importData at hsucc
  dsimp only at hsucc
  cases hIR : importRows fres (sch.drop 1) user
      (loadClean (sch.drop 1) d recs).table.rows
      { table := emptyTable, disk := d } with
  | mk sy e =>
      rw [hIR] at hsucc
      cases e with
      | some err =>
          dsimp only at hsucc
          exact absurd (congrArg Prod.snd hsucc) (by simp)
      | none =>
          dsimp only at hsucc
          have hs1 : ({ sy with table :=
              { sy.table with fullDump := true } } : St) = s1 :=
            congrArg Prod.fst hsucc
          rw [← hs1]
          obtain ⟨hI1, hI2, hI3⟩ :=
            importRows_spec fres (sch.drop 1) user hnames hkinds d.sidecars
              (loadClean (sch.drop 1) d recs).table.rows
              { table := emptyTable, disk := d } sy hIR
              (shadow_fields (sch.drop 1) d recs hints hheads)
              (fun col hcm hnm kk => hnew col hcm hnm kk)
          have h0 : ({ table := emptyTable, disk := d } :
              St).table.rows.length = 0 := rfl
          rw [h0] at hI1
          refine ⟨rfl, stepSave_fullDump_header user rfl, ?_, ?_⟩
          · dsimp only
            rw [hI1, shadow_length]
            omega
          · intro kk r' hkk
            dsimp only at hkk
            have hkklt : kk < sy.table.rows.length := getElem?_some_lt hkk
            have hshlen := shadow_length (sch.drop 1) d recs
            have hkkspan : kk <
                (loadClean (sch.drop 1) d recs).table.rows.length := by
              omega
            obtain ⟨sr, hsr⟩ : ∃ sr, (loadClean (sch.drop 1) d
                recs).table.rows[kk]? = some sr :=
              ⟨_, List.getElem?_eq_getElem hkkspan⟩
            obtain ⟨r2, hg1, hg2, hg3⟩ := hI3 kk sr hsr
            rw [h0, Nat.zero_add] at hg1
            have hrr : r2 = r' := Option.some_inj.1 (hg1.symm.trans hkk)
            subst hrr
            refine ⟨sr, hsr, ?_, hg3⟩
            rw [hg2]
            exact shadow_rid (sch.drop 1) d recs hints hheads sr
              (List.getElem?_mem hsr)

/-- Declared columns of the migrated table of the C3 foreign-key
counterexample scenario. -/
def userC3x : List Col := [⟨"f", Kind.kForeign⟩]

/-- The old stored schema of that scenario: it also declares `f`. -/
def schC3x : List Col :=
  [⟨"id", Kind.kInt⟩, ⟨"f", Kind.kForeign⟩, ⟨"a", Kind.kInt⟩]

/-- One stored record under the old schema: id 1, `f` holding the
foreign id 7, `a` holding 3. -/
def recsC3x : List Rec := [[RVal.rInt 1, RVal.rInt 7, RVal.rInt 3]]

def dC3x : Disk := { tbl := some (schC3x, recsC3x), sidecars := [] }

/-- C3 counterexample: a `Foreign` column common to both schemas does
not keep its value across a migration whose stored id resolves to no
row — `ForeignColumn.get` returns `None` for the dangling id 7 (or
for any id while the referenced table's rows are not loaded yet) and
the receiving `set` then stores 0.  The migration succeeds, the loaded
shadow row observes 7 on the common column `f`, but the migrated live
row observes 0. -/
theorem claim_C3_counterexample :
    (loadTable noForeignHit userC3x dC3x).2 = none ∧
    observeTable (loadClean (schC3x.drop 1) dC3x recsC3x).table =
      [(1, [OVal.oInt 7, OVal.oInt 3])] ∧
    observeTable (loadTable noForeignHit userC3x dC3x).1.table =
      [(1, [OVal.oInt 0])] := by
  decide

/-- Declared columns of the migrated table of the C3 scenario. -/
def userC3 : List Col := [⟨"a", Kind.kInt⟩, ⟨"b", Kind.kBool⟩]

/-- The old stored schema of the C3 scenario. -/
def schC3 : List Col := [⟨"id", Kind.kInt⟩, ⟨"a", Kind.kInt⟩]

/-- One stored record under the old schema. -/
def recsC3 : List Rec := [[RVal.rInt 5, RVal.rInt 7]]

def dC3 : Disk := { tbl := some (schC3, recsC3), sidecars := [] }

theorem claim_C3_witness :
    (loadTable noForeignHit userC3 dC3).1.table.fullDump = true ∧
    (loadTable noForeignHit userC3 dC3).1.table.rows.length = recsC3.length :=
  ⟨(claim_C3 noForeignHit userC3 schC3 recsC3 dC3 rfl (by decide) (by decide)
      (by decide)
      (by
        intro rec hrec rv hrv v hv
        subst hv
        rw [show recsC3 = [[RVal.rInt 5, RVal.rInt 7]] from rfl] at hrec
        rcases List.mem_singleton.1 hrec with rfl
        rcases List.mem_cons.1 hrv with h | h
        · injection h with h3
          subst h3
          decide
        · rcases List.mem_cons.1 h with h2 | h2
          · injection h2 with h3
            subst h3
            decide
          · cases h2)
      (by
        intro rec hrec
        rw [show recsC3 = [[RVal.rInt 5, RVal.rInt 7]] from rfl] at hrec
        rcases List.mem_singleton.1 hrec with rfl
        exact ⟨5, [RVal.rInt 7], rfl⟩)
      (fun cc hcc hn kk => rfl)
      (loadTable noForeignHit userC3 dC3).1 (by rfl)).1,
    (claim_C3 noForeignHit userC3 schC3 recsC3 dC3 rfl (by decide) (by decide)
      (by decide)
      (by
        intro rec hrec rv hrv v hv
        subst hv
        rw [show recsC3 = [[RVal.rInt 5, RVal.rInt 7]] from rfl] at hrec
        rcases List.mem_singleton.1 hrec with rfl
        rcases List.mem_cons.1 hrv with h | h
        · injection h with h3
          subst h3
          decide
        · rcases List.mem_cons.1 h with h2 | h2
          · injection h2 with h3
            subst h3
            decide
          · cases h2)
      (by
        intro rec hrec
        rw [show recsC3 = [[RVal.rInt 5, RVal.rInt 7]] from rfl] at hrec
        rcases List.mem_singleton.1 hrec with rfl
        exact ⟨5, [RVal.rInt 7], rfl⟩)
      (fun cc hcc hn kk => rfl)
      (loadTable noForeignHit userC3 dC3).1 (by rfl)).2.2.1⟩

end Seaslug
